import Mathlib

/-!
Shader microcode analyser and program-cache keys (`ProgramStateCache.cpp`).

A shallow embedding of `rpcs3/Emu/RSX/Program/ProgramStateCache.cpp`.

Conventions of the embedding:

* a `u32` / `u64` value is a `Nat`; arithmetic that can wrap is reduced explicitly
  (`% 2 ^ 32`, `% 2 ^ 64`);
* a raw `const u32*` buffer is a function `Nat → Nat` from word index to word;
* a `std::vector<u32>` is a `List Nat`;
* a `std::bitset<512>` is a `Nat` read with `Nat.testBit`;
* a `std::set<u32>` is a strictly ascending `List Nat` (its iteration order);
* `ensure(...)` failing is the outcome `fault`; the `while (true)` loops and the
  recursive closure run on fuel, `out_of_fuel` being the outcome of an exhausted
  budget (the budget of the vertex program walk is enough on every input:
  `walk_function_total`);
* the loops over a fragment stream end only at an instruction with the end bit; they run on
  fuel too and yield `none` when it is exhausted. Their slot counters are `Nat`s (the
  `s32 index` of `analyse_fragment_program` overflows, which is undefined, only past
  `2 ^ 27` slots);
* reading a `std::bitset<512>` past its end is undefined in the source, which does so
  unchecked in the loop over `conditional_targets` and in the emission loop; what such a
  read yields is a parameter of the embedding (`undefined_reads`), and a theorem that
  takes `oob : undefined_reads` holds whatever these reads yield;
* logging (`rsx_log.error`) and the optional debug dump are not modelled.
-/

namespace rsx

/-! ## Outcomes -/

/-- Result of a computation that may trip an `ensure(...)` or exhaust its fuel. -/
inductive outcome (α : Type) where
  | done (a : α) : outcome α
  | fault : outcome α
  | out_of_fuel : outcome α
  deriving DecidableEq, Repr

/-! ## Instruction codec -/

/-- Value of a C++ bit-field of `width` bits starting at bit `off` of the word `HEX`. -/
def bitfield (HEX off width : Nat) : Nat := (HEX >>> off) % 2 ^ width

/-- Word `HEX` after assigning `v` to the bit-field of `width` bits at bit `off`
(the assigned value is truncated to the width of the field, other bits are kept). -/
def set_bitfield (HEX off width v : Nat) : Nat :=
  HEX % 2 ^ off + (v % 2 ^ width) * 2 ^ off + (HEX >>> (off + width)) * 2 ^ (off + width)

/-- Modelled from the spec: the `D0` .. `D3` bit-field unions (`RSXVertexProgram.h`) are not
among the sources. The fields are those section 4.1 of the specification names (`w0.cond`,
`w0.iaddrh2`); the bit positions, which the specification leaves to the RSX ISA, are those of
the emulator's declaration: `cond` is 3 bits at bit 10 and `iaddrh2` is 1 bit at bit 23. -/
def D0.cond (HEX : Nat) : Nat := bitfield HEX 10 3

/-- Modelled from the spec: `w0.iaddrh2`, bit 23 of word 0 (see `D0.cond`). -/
def D0.iaddrh2 (HEX : Nat) : Nat := bitfield HEX 23 1

/-- Modelled from the spec: assignment to `w0.iaddrh2` (see `D0.cond`). -/
def D0.set_iaddrh2 (HEX v : Nat) : Nat := set_bitfield HEX 23 1 v

/-- Modelled from the spec: `w1.input_src`, 4 bits at bit 8 of word 1 (see `D0.cond`). -/
def D1.input_src (HEX : Nat) : Nat := bitfield HEX 8 4

/-- Modelled from the spec: `w1.vec_opcode`, 5 bits at bit 22 of word 1 (see `D0.cond`). -/
def D1.vec_opcode (HEX : Nat) : Nat := bitfield HEX 22 5

/-- Modelled from the spec: `w1.sca_opcode`, 5 bits at bit 27 of word 1 (see `D0.cond`). -/
def D1.sca_opcode (HEX : Nat) : Nat := bitfield HEX 27 5

/-- Modelled from the spec: `w2.src1`, 17 bits at bit 6 of word 2 (see `D0.cond`). -/
def D2.src1 (HEX : Nat) : Nat := bitfield HEX 6 17

/-- Modelled from the spec: `w2.src0l`, 9 bits at bit 23 of word 2 (see `D0.cond`). -/
def D2.src0l (HEX : Nat) : Nat := bitfield HEX 23 9

/-- Modelled from the spec: `w2.iaddrh`, 6 bits at bit 0 of word 2 (see `D0.cond`). -/
def D2.iaddrh (HEX : Nat) : Nat := bitfield HEX 0 6

/-- Modelled from the spec: assignment to `w2.iaddrh` (see `D0.cond`). -/
def D2.set_iaddrh (HEX v : Nat) : Nat := set_bitfield HEX 0 6 v

/-- Modelled from the spec: `w2.tex_num`, 2 bits at bit 8 of word 2 (see `D0.cond`). -/
def D2.tex_num (HEX : Nat) : Nat := bitfield HEX 8 2

/-- Modelled from the spec: `w3.end`, bit 0 of word 3 (see `D0.cond`; the specification's
minimal program `[0,0,0,0x00000001]` has its end bit here). -/
def D3.end_ (HEX : Nat) : Nat := bitfield HEX 0 1

/-- Modelled from the spec: `w3.src2l`, 11 bits at bit 21 of word 3 (see `D0.cond`). -/
def D3.src2l (HEX : Nat) : Nat := bitfield HEX 21 11

/-- Modelled from the spec: `w3.iaddrl`, 3 bits at bit 29 of word 3 (see `D0.cond`). -/
def D3.iaddrl (HEX : Nat) : Nat := bitfield HEX 29 3

/-- Modelled from the spec: assignment to `w3.iaddrl` (see `D0.cond`). -/
def D3.set_iaddrl (HEX v : Nat) : Nat := set_bitfield HEX 29 3 v

/-- Modelled from the spec: the opcode enumerations (`RSXVertexProgram.h`) are not among the
sources; `SCA_BRI` has the emulator's value `0x09`. -/
def RSX_SCA_OPCODE_BRI : Nat := 0x09

/-- Modelled from the spec: `SCA_CAL`, value `0x0a` (see `RSX_SCA_OPCODE_BRI`). -/
def RSX_SCA_OPCODE_CAL : Nat := 0x0a

/-- Modelled from the spec: `SCA_CLI`, value `0x0b` (see `RSX_SCA_OPCODE_BRI`). -/
def RSX_SCA_OPCODE_CLI : Nat := 0x0b

/-- Modelled from the spec: `SCA_RET`, value `0x0c` (see `RSX_SCA_OPCODE_BRI`). -/
def RSX_SCA_OPCODE_RET : Nat := 0x0c

/-- Modelled from the spec: `SCA_BRB`, value `0x11` (see `RSX_SCA_OPCODE_BRI`). -/
def RSX_SCA_OPCODE_BRB : Nat := 0x11

/-- Modelled from the spec: `SCA_CLB`, value `0x12` (see `RSX_SCA_OPCODE_BRI`). -/
def RSX_SCA_OPCODE_CLB : Nat := 0x12

/-- Modelled from the spec: `VEC_TXL`, value `0x19` (see `RSX_SCA_OPCODE_BRI`). -/
def RSX_VEC_OPCODE_TXL : Nat := 0x19

/-- Modelled from the spec: the register-type tag of an input register, in the low two bits
of a source field; value `2` (see `RSX_SCA_OPCODE_BRI`). -/
def RSX_VP_REGISTER_TYPE_INPUT : Nat := 2

/-- Modelled from the spec: `rsx::max_vertex_program_instructions`, the 512 slots of
`MAX_VP_SLOTS`. -/
def max_vertex_program_instructions : Nat := 512

/-- The value `umax` of a `u32`. -/
def umax : Nat := 4294967295

/-- Subtraction of two `u32` values, wrapping modulo `2 ^ 32`. -/
def u32_sub (a b : Nat) : Nat := (a + 4294967296 - b) % 4294967296

/-- Addition of two `u32` values, wrapping modulo `2 ^ 32`. -/
def u32_add (a b : Nat) : Nat := (a + b) % 4294967296

/-- A 128-bit instruction word, as its four 32-bit little-endian subwords. -/
structure v128 where
  _u32_0 : Nat
  _u32_1 : Nat
  _u32_2 : Nat
  _u32_3 : Nat
  deriving DecidableEq, Repr

/-- The low 64-bit half `_u64[0]`. -/
def v128._u64_0 (v : v128) : Nat := v._u32_0 ||| (v._u32_1 <<< 32)

/-- The high 64-bit half `_u64[1]`. -/
def v128._u64_1 (v : v128) : Nat := v._u32_2 ||| (v._u32_3 <<< 32)

/-- Unaligned load `v128::loadu(buffer, index)` of the slot `index` of a word buffer. -/
def v128.loadu (data : Nat → Nat) (index : Nat) : v128 :=
  ⟨data (index * 4), data (index * 4 + 1), data (index * 4 + 2), data (index * 4 + 3)⟩

/-- The all-zero value `v128{}`. -/
def v128.zero : v128 := ⟨0, 0, 0, 0⟩

/-- Store `v128::storeu(v, dst)` with `dst = &vec[index]`. -/
def v128.storeu (v : v128) (vec : List Nat) (index : Nat) : List Nat :=
  (((vec.set index v._u32_0).set (index + 1) v._u32_1).set (index + 2) v._u32_2).set
    (index + 3) v._u32_3

/-- Insertion `std::set<u32>::emplace` into an ascending list without duplicates. -/
def set_emplace (x : Nat) : List Nat → List Nat
  | [] => [x]
  | y :: ys => if x < y then x :: y :: ys else if x = y then y :: ys else y :: set_emplace x ys

/-- Resizing `std::vector<u32>::resize(n)`: truncate, or append zeros. -/
def vector_resize (vec : List Nat) (n : Nat) : List Nat :=
  vec.take n ++ List.replicate (n - vec.length) 0

/-- Bit `i` of a bitset set to one (`bits[i] = true`). -/
def bitset_set (bits i : Nat) : Nat := bits ||| (1 <<< i)

/-! ## Program objects -/

/-- Modelled from the spec: the guest texture state attached to a program for keying
(`texture_state`: dimension bits, shadow-map bits, redirect bits); its declaration is not
among the sources. Its `!=` compares all fields. -/
structure texture_state where
  texture_dimensions : Nat
  shadow_textures : Nat
  redirected_textures : Nat
  deriving DecidableEq, Repr

/-- Modelled from the spec: the vertex program object `RSXVertexProgram`
(`RSXVertexProgram.h` is not among the sources), with the fields the functions use. -/
structure RSXVertexProgram where
  data : List Nat
  texture_state : texture_state
  output_mask : Nat
  base_address : Nat
  entry : Nat
  instruction_mask : Nat
  jump_table : List Nat
  deriving DecidableEq, Repr

/-- A default-constructed `RSXVertexProgram`. -/
def RSXVertexProgram.fresh : RSXVertexProgram :=
  ⟨[], ⟨0, 0, 0⟩, 0, 0, 0, 0, []⟩

/-- Modelled from the spec: `vertex_program_utils::vertex_program_metadata`
(`ProgramStateCache.h` is not among the sources). -/
structure vertex_program_metadata where
  instruction_mask : Nat
  ucode_length : Nat
  referenced_textures_mask : Nat
  referenced_inputs_mask : Nat
  deriving DecidableEq, Repr

/-! ## Vertex program hash -/

/-- The mixing step `hash += (hash << 1) + (hash << 4) + ... + (hash << 40)` on a `u64`. -/
def hash_mix (hash : Nat) : Nat :=
  (hash + ((hash <<< 1) + (hash <<< 4) + (hash <<< 5) + (hash <<< 7) + (hash <<< 8)
    + (hash <<< 40))) % 2 ^ 64

/-- The two rounds applied to one instruction: xor a half, mix, xor the other half, mix. -/
def hash_inst (hash : Nat) (inst : v128) : Nat :=
  hash_mix (hash_mix (hash ^^^ inst._u64_0) ^^^ inst._u64_1)

/-- The function `vertex_program_utils::get_vertex_program_ucode_hash`. -/
def get_vertex_program_ucode_hash (program : RSXVertexProgram) : Nat :=
  (List.range (program.data.length / 4)).foldl
    (fun hash i =>
      if program.instruction_mask.testBit i then
        hash_inst hash (v128.loadu (fun k => program.data.getD k 0) i)
      else hash)
    0xCBF29CE484222325

/-- The function `vertex_program_storage_hash::operator()`. -/
def vertex_program_storage_hash (program : RSXVertexProgram) : Nat :=
  (get_vertex_program_ucode_hash program ^^^ program.output_mask)
    ^^^ program.texture_state.texture_dimensions

/-- The slot loop of `vertex_program_compare::operator()`, over the slots in `slots`. -/
def vertex_program_compare_loop (binary1 binary2 : RSXVertexProgram) : List Nat → Bool
  | [] => true
  | i :: rest =>
    let active := binary1.instruction_mask.testBit i
    if active != binary2.instruction_mask.testBit i then false
    else if active && v128.loadu (fun k => binary1.data.getD k 0) i
        != v128.loadu (fun k => binary2.data.getD k 0) i then false
    else vertex_program_compare_loop binary1 binary2 rest

/-- The function `vertex_program_compare::operator()`. -/
def vertex_program_compare (binary1 binary2 : RSXVertexProgram) : Bool :=
  if binary1.output_mask != binary2.output_mask then false
  else if binary1.texture_state != binary2.texture_state then false
  else if binary1.data.length != binary2.data.length then false
  else if binary1.jump_table != binary2.jump_table then false
  else vertex_program_compare_loop binary1 binary2 (List.range (binary1.data.length / 4))

/-! ## Vertex program analysis -/

/-- State of `analyse_vertex_program` that the closure `walk_function` captures by reference:
the fields of `result` it writes, and the locals `instructions_to_patch`,
`instruction_range`, `has_branch_instruction` and `call_stack` (top of the stack first). -/
structure walk_state where
  instruction_mask : Nat
  referenced_textures_mask : Nat
  referenced_inputs_mask : Nat
  instructions_to_patch : Nat
  instruction_range : Nat × Nat
  has_branch_instruction : Bool
  call_stack : List Nat
  deriving DecidableEq, Repr

/-- The captured state when `walk_function(entry, false)` is called: `result{}`, no
instruction to patch, `instruction_range{ umax, 0 }`, no branch seen, empty call stack. -/
def walk_state.init : walk_state :=
  ⟨0, 0, 0, 0, (umax, 0), false, []⟩

/-- How one pass through the body of the `while (true)` loop of `walk_function` ends. -/
inductive loop_ctl where
  /-- The loop goes round again (`continue`, or the end of the body). -/
  | next (current_instruction : Nat) (conditional_targets : List Nat) (s : walk_state)
  /-- The loop is left (`break`). -/
  | stop (conditional_targets : List Nat) (s : walk_state)
  /-- The bounds assertion `ensure(current_instruction < 512)` failed. -/
  | fault
  deriving DecidableEq, Repr

/-- Whether the scalar opcode is one of the five the `switch` sends to the branch handling
(`BRI`, `BRB`, `CAL`, `CLI`, `CLB`). -/
def is_branch_opcode (sca_opcode : Nat) : Bool :=
  sca_opcode == RSX_SCA_OPCODE_BRI || sca_opcode == RSX_SCA_OPCODE_BRB ||
  sca_opcode == RSX_SCA_OPCODE_CAL || sca_opcode == RSX_SCA_OPCODE_CLI ||
  sca_opcode == RSX_SCA_OPCODE_CLB

/-- The branch target `(d0.iaddrh2 << 9) | (d2.iaddrh << 3) | d3.iaddrl` of an instruction. -/
def jump_address (instruction : v128) : Nat :=
  (D0.iaddrh2 instruction._u32_0 <<< 9) ||| (D2.iaddrh instruction._u32_2 <<< 3) |||
    D3.iaddrl instruction._u32_3

/-- End of the loop body of `walk_function`: the input-stream test (`if (test_input_read)`),
the termination test, and `current_instruction++`. -/
def walk_tail (instruction : v128) (fast_exit : Bool) (current_instruction : Nat)
    (conditional_targets : List Nat) (s : walk_state) (test_input_read : Bool) : loop_ctl :=
  let d1 := instruction._u32_1
  let d2 := instruction._u32_2
  let d3 := instruction._u32_3
  let s :=
    if test_input_read &&
        ((D2.src0l d2 ||| D2.src1 d2 ||| D3.src2l d3) &&& RSX_VP_REGISTER_TYPE_INPUT) != 0 then
      { s with referenced_inputs_mask := s.referenced_inputs_mask ||| (1 <<< D1.input_src d1) }
    else s
  if (D3.end_ d3 != 0 && (fast_exit || current_instruction ≥ s.instruction_range.2)) ||
      current_instruction + 1 == max_vertex_program_instructions then
    .stop conditional_targets s
  else
    .next (current_instruction + 1) conditional_targets s

/-- Start of the loop body of `walk_function` on an unmarked slot: the instruction is
touched (mask and range) and the vec opcode analysed; yields the captured state and the
local `test_input_read`. -/
def walk_touch (instruction : v128) (current_instruction : Nat) (s : walk_state) :
    walk_state × Bool :=
  -- Touch current instruction
  let s := { s with
    instruction_mask := bitset_set s.instruction_mask current_instruction
    instruction_range :=
      (min current_instruction s.instruction_range.1,
       max current_instruction s.instruction_range.2) }
  -- Basic vec op analysis
  if D1.vec_opcode instruction._u32_1 == RSX_VEC_OPCODE_TXL then
    ({ s with referenced_textures_mask :=
        s.referenced_textures_mask ||| (1 <<< D2.tex_num instruction._u32_2) }, false)
  else
    (s, D1.input_src instruction._u32_1 != 0)

/-- The loop body of `walk_function` on an unmarked slot holding `instruction`. -/
def walk_visit (instruction : v128) (fast_exit : Bool) (current_instruction : Nat)
    (conditional_targets : List Nat) (s : walk_state) : loop_ctl :=
  let touched := walk_touch instruction current_instruction s
  let s := touched.1
  let test_input_read := touched.2
  let sca_opcode := D1.sca_opcode instruction._u32_1
  if is_branch_opcode sca_opcode then
    let static_jump : Bool :=
      sca_opcode == RSX_SCA_OPCODE_BRI && D0.cond instruction._u32_0 == 0x7
    let function_call : Bool :=
      !(sca_opcode == RSX_SCA_OPCODE_BRI || sca_opcode == RSX_SCA_OPCODE_BRB)
    -- Need to patch the jump address
    let s := { s with
      instructions_to_patch := bitset_set s.instructions_to_patch current_instruction
      has_branch_instruction := true }
    let jump_address := jump_address instruction
    if function_call then
      .next jump_address conditional_targets
        { s with call_stack := (current_instruction + 1) :: s.call_stack }
    else if static_jump then
      .next jump_address conditional_targets s
    else
      -- Set possible end address and proceed as usual
      walk_tail instruction fast_exit current_instruction
        (set_emplace jump_address conditional_targets)
        { s with instruction_range :=
            (s.instruction_range.1, max jump_address s.instruction_range.2) }
        test_input_read
  else if sca_opcode == RSX_SCA_OPCODE_RET then
    match s.call_stack with
    | [] => walk_tail instruction fast_exit current_instruction conditional_targets s
        test_input_read
    | top :: rest => .next top conditional_targets { s with call_stack := rest }
  else
    walk_tail instruction fast_exit current_instruction conditional_targets s
      (D1.input_src instruction._u32_1 != 0)

/-- One pass through the body of the `while (true)` loop of `walk_function`. -/
def walk_iteration (data : Nat → Nat) (fast_exit : Bool) (current_instruction : Nat)
    (conditional_targets : List Nat) (s : walk_state) : loop_ctl :=
  if ¬ current_instruction < max_vertex_program_instructions then .fault
  else if s.instruction_mask.testBit current_instruction then
    if !fast_exit then .next (current_instruction + 1) conditional_targets s
    else .stop conditional_targets s
  else
    walk_visit (v128.loadu data current_instruction) fast_exit current_instruction
      conditional_targets s

/-- The `while (true)` loop of `walk_function`, run for at most `fuel` passes; it yields
the local `conditional_targets` and the captured state at the `break`. -/
def walk_loop (data : Nat → Nat) (fast_exit : Bool) :
    Nat → Nat → List Nat → walk_state → outcome (List Nat × walk_state)
  | 0, _, _, _ => .out_of_fuel
  | fuel + 1, current_instruction, conditional_targets, s =>
    match walk_iteration data fast_exit current_instruction conditional_targets s with
    | .fault => .fault
    | .stop conditional_targets s => .done (conditional_targets, s)
    | .next current_instruction conditional_targets s =>
      walk_loop data fast_exit fuel current_instruction conditional_targets s

/-- What the reads of the two bitsets past their end yield. The source indexes
`result.instruction_mask` with a conditional target, and both bitsets with the slots of
the emission loop, without testing the index against 512; past the end the value read is
not defined by the language: it is given here as a function of the captured state and
of the index, one for each of the three reads. -/
structure undefined_reads where
  /-- The read `result.instruction_mask[target]` of the loop over `conditional_targets`. -/
  target_mask : walk_state → Nat → Bool
  /-- The read `result.instruction_mask[i]` of the emission loop. -/
  instruction_mask : walk_state → Nat → Bool
  /-- The read `instructions_to_patch[i]` of the emission loop. -/
  instructions_to_patch : walk_state → Nat → Bool

/-- The unchecked read `bits[i]` of a `std::bitset<512>`: bit `i` when `i` is below 512,
and `past_end i` otherwise. -/
def bitset_test (past_end : Nat → Bool) (bits i : Nat) : Bool :=
  if i < max_vertex_program_instructions then bits.testBit i else past_end i

/-- The loop `for (const u32 target : conditional_targets)` closing `walk_function`, the
recursive call `walk_function(target, true)` being `walk target`. -/
def walk_targets (oob : undefined_reads) (walk : Nat → walk_state → outcome walk_state) :
    List Nat → walk_state → outcome walk_state
  | [], s => .done s
  | target :: rest, s =>
    if !bitset_test (oob.target_mask s) s.instruction_mask target then
      match walk target s with
      | .done s => walk_targets oob walk rest s
      | .fault => .fault
      | .out_of_fuel => .out_of_fuel
    else walk_targets oob walk rest s

/-- Budget of loop passes given to each call of `walk_function`: every pass either marks
one of the 512 slots or moves `current_instruction` one step towards 512. -/
def walk_loop_fuel : Nat := 513 * 513

/-- The recursive closure `walk_function(start, fast_exit)`, nested at most `depth` deep. -/
def walk_function (oob : undefined_reads) (data : Nat → Nat) :
    Nat → Nat → Bool → walk_state → outcome walk_state
  | 0, _, _, _ => .out_of_fuel
  | depth + 1, start, fast_exit, s =>
    match walk_loop data fast_exit walk_loop_fuel start [] s with
    | .done (conditional_targets, s) =>
      walk_targets oob (fun target s => walk_function oob data depth target true s)
        conditional_targets s
    | .fault => .fault
    | .out_of_fuel => .out_of_fuel

/-- Budget of nested calls of `walk_function`: a nested call starts on an unmarked slot. -/
def walk_depth : Nat := 513

/-- The patching of a copied branch instruction in the emission loop: decode the address,
subtract `instruction_range.first`, write the three address fields back. It yields the
patched instruction and the address entered into `jump_table`. -/
def patch_instruction (inst : v128) (first : Nat) : v128 × Nat :=
  let address := u32_sub (jump_address inst) first
  ({ inst with
      _u32_0 := D0.set_iaddrh2 inst._u32_0 ((address >>> 9) &&& 0x1)
      _u32_2 := D2.set_iaddrh inst._u32_2 ((address >>> 3) &&& 0x3F)
      _u32_3 := D3.set_iaddrl inst._u32_3 (address &&& 0x7) },
   address)

/-- One pass of the emission loop `for (i = first, count = 0; i <= second; ++i, ++count)`,
on the pair of `dst_prog.data` and `dst_prog.jump_table`. -/
def emit_slot (oob : undefined_reads) (data : Nat → Nat) (s : walk_state)
    (acc : List Nat × List Nat) (count : Nat) : List Nat × List Nat :=
  let i := s.instruction_range.1 + count
  if bitset_test (oob.instruction_mask s) s.instruction_mask i then
    if bitset_test (oob.instructions_to_patch s) s.instructions_to_patch i then
      let patched := patch_instruction (v128.loadu data i) s.instruction_range.1
      (patched.1.storeu acc.1 (count * 4), set_emplace patched.2 acc.2)
    else
      ((v128.loadu data i).storeu acc.1 (count * 4), acc.2)
  else
    (v128.zero.storeu acc.1 (count * 4), acc.2)

/-- Copy `std::memcpy(dst, src + offset, words * 4)` of whole words into a vector. -/
def memcpy_words (vec : List Nat) (src : Nat → Nat) (offset words : Nat) : List Nat :=
  (List.range words).foldl (fun vec k => vec.set k (src (offset + k))) vec

/-- The part of `analyse_vertex_program` after `walk_function(entry, false)` returned. -/
def emit_program (oob : undefined_reads) (data : Nat → Nat) (entry : Nat)
    (dst_prog : RSXVertexProgram) (s : walk_state) :
    outcome (vertex_program_metadata × RSXVertexProgram) :=
  let instruction_count := u32_add (u32_sub s.instruction_range.2 s.instruction_range.1) 1
  let ucode_length := (instruction_count * 16) % 4294967296
  let dst_prog := { dst_prog with
    base_address := s.instruction_range.1
    entry := entry
    data := vector_resize dst_prog.data ((instruction_count * 4) % 4294967296)
    instruction_mask := s.instruction_mask >>> s.instruction_range.1 }
  let result : vertex_program_metadata :=
    { instruction_mask := s.instruction_mask
      ucode_length := ucode_length
      referenced_textures_mask := s.referenced_textures_mask
      referenced_inputs_mask := s.referenced_inputs_mask ||| 1 }
  if !s.has_branch_instruction then
    if s.instruction_range.1 = entry then
      .done (result,
        { dst_prog with
          data := memcpy_words dst_prog.data data (s.instruction_range.1 * 4)
            (ucode_length / 4) })
    else .fault
  else
    let emitted := (List.range (s.instruction_range.2 + 1 - s.instruction_range.1)).foldl
      (emit_slot oob data s) (dst_prog.data, dst_prog.jump_table)
    .done (result, { dst_prog with data := emitted.1, jump_table := emitted.2 })

/-- The function `vertex_program_utils::analyse_vertex_program`; it yields the returned
metadata and the populated `dst_prog`. -/
def analyse_vertex_program (oob : undefined_reads) (data : Nat → Nat) (entry : Nat)
    (dst_prog : RSXVertexProgram) : outcome (vertex_program_metadata × RSXVertexProgram) :=
  match walk_function oob data walk_depth entry false walk_state.init with
  | .done s => emit_program oob data entry dst_prog s
  | .fault => .fault
  | .out_of_fuel => .out_of_fuel

/-! ## Fragment program identity -/

/-- Modelled from the spec: the fragment program object `RSXFragmentProgram`
(`RSXFragmentProgram.h` is not among the sources), with the fields the functions use;
`data` is the buffer `get_data()` points to. -/
structure RSXFragmentProgram where
  data : Nat → Nat
  ctrl : Nat
  two_sided_lighting : Bool
  texture_state : texture_state
  texcoord_control_mask : Nat

/-- The function `fragment_program_utils::is_constant`. -/
def is_constant (sourceOperand : Nat) : Bool := (sourceOperand >>> 8) &&& 0x3 == 2

/-- Whether one of the three source operands of an instruction is a constant. -/
def has_constant (inst : v128) : Bool :=
  is_constant inst._u32_1 || is_constant inst._u32_2 || is_constant inst._u32_3

/-- The end-of-program bit `(inst._u32[0] >> 8) & 0x1` of a fragment instruction. -/
def fp_end (inst : v128) : Bool := (inst._u32_0 >>> 8) &&& 0x1 != 0

/-- The `while (true)` loop of `get_fragment_program_ucode_hash`, run for at most `fuel`
passes from slot `instIndex` with the running `hash`; `none` when the fuel is exhausted. -/
def get_fragment_program_ucode_hash_loop (instbuffer : Nat → Nat) : Nat → Nat → Nat → Option Nat
  | 0, _, _ => none
  | fuel + 1, instIndex, hash =>
    let inst := v128.loadu instbuffer instIndex
    let hash := hash_inst hash inst
    let instIndex := instIndex + 1
    -- Skip constants
    let instIndex := if has_constant inst then instIndex + 1 else instIndex
    if fp_end inst then some hash
    else get_fragment_program_ucode_hash_loop instbuffer fuel instIndex hash

/-- The function `fragment_program_utils::get_fragment_program_ucode_hash`. -/
def get_fragment_program_ucode_hash (fuel : Nat) (program : RSXFragmentProgram) : Option Nat :=
  get_fragment_program_ucode_hash_loop program.data fuel 0 0xCBF29CE484222325

/-- The function `fragment_program_storage_hash::operator()`. -/
def fragment_program_storage_hash (fuel : Nat) (program : RSXFragmentProgram) : Option Nat :=
  (get_fragment_program_ucode_hash fuel program).map fun hash =>
    (((((hash ^^^ program.ctrl) ^^^ (if program.two_sided_lighting then 1 else 0))
      ^^^ program.texture_state.texture_dimensions)
      ^^^ program.texture_state.shadow_textures)
      ^^^ program.texture_state.redirected_textures)
      ^^^ program.texcoord_control_mask

/-- The `while (true)` loop of `fragment_program_compare::operator()`, run for at most
`fuel` passes from slot `instIndex`; `none` when the fuel is exhausted. -/
def fragment_program_compare_loop (instBuffer1 instBuffer2 : Nat → Nat) :
    Nat → Nat → Option Bool
  | 0, _ => none
  | fuel + 1, instIndex =>
    let inst1 := v128.loadu instBuffer1 instIndex
    let inst2 := v128.loadu instBuffer2 instIndex
    if inst1 != inst2 then some false
    else
      let instIndex := instIndex + 1
      -- Skip constants
      let instIndex := if has_constant inst1 then instIndex + 1 else instIndex
      if fp_end inst1 && fp_end inst2 then some true
      else fragment_program_compare_loop instBuffer1 instBuffer2 fuel instIndex

/-- The function `fragment_program_compare::operator()`. -/
def fragment_program_compare (fuel : Nat) (binary1 binary2 : RSXFragmentProgram) :
    Option Bool :=
  if binary1.ctrl != binary2.ctrl || binary1.texture_state != binary2.texture_state ||
      binary1.texcoord_control_mask != binary2.texcoord_control_mask ||
      binary1.two_sided_lighting != binary2.two_sided_lighting then some false
  else fragment_program_compare_loop binary1.data binary2.data fuel 0

/-! ## Classification of instructions and of loop passes -/

/-- Whether the instruction is one of the five the walk sends to the branch handling. -/
def is_branch (inst : v128) : Bool := is_branch_opcode (D1.sca_opcode inst._u32_1)

/-- Whether the branch handling treats the instruction as a subroutine call
(`function_call`: `CAL`, `CLI`, `CLB`). -/
def is_function_call (inst : v128) : Bool :=
  is_branch inst && !(D1.sca_opcode inst._u32_1 == RSX_SCA_OPCODE_BRI ||
    D1.sca_opcode inst._u32_1 == RSX_SCA_OPCODE_BRB)

/-- Whether the instruction is a static jump (`static_jump`: `BRI` with `cond == 0x7`). -/
def is_static_jump (inst : v128) : Bool :=
  D1.sca_opcode inst._u32_1 == RSX_SCA_OPCODE_BRI && D0.cond inst._u32_0 == 0x7

/-- Whether the instruction is a conditional branch: a branch that is neither a call nor a
static jump, whose target enters `conditional_targets`. -/
def is_conditional (inst : v128) : Bool :=
  is_branch inst && !is_function_call inst && !is_static_jump inst

/-- Whether the instruction is a `RET`. -/
def is_ret (inst : v128) : Bool := D1.sca_opcode inst._u32_1 == RSX_SCA_OPCODE_RET

/-- The slot the loop examines after it marked `current_instruction`, unless it stops. -/
def visit_next (inst : v128) (current_instruction : Nat) (s : walk_state) : Nat :=
  if is_function_call inst || is_static_jump inst then jump_address inst
  else if is_ret inst && !s.call_stack.isEmpty then s.call_stack.headD 0
  else current_instruction + 1

/-- What a loop pass that marks the slot `cur`, which holds `inst`, does to
`conditional_targets` (from `ct` to `ct'`) and to the captured state (from `s` to `s'`),
the two reference masks apart. -/
structure visited (inst : v128) (cur : Nat) (ct : List Nat) (s : walk_state)
    (ct' : List Nat) (s' : walk_state) : Prop where
  mask : s'.instruction_mask = bitset_set s.instruction_mask cur
  first : s'.instruction_range.1 = min cur s.instruction_range.1
  second : s'.instruction_range.2 =
    if is_conditional inst then max (jump_address inst) (max cur s.instruction_range.2)
    else max cur s.instruction_range.2
  patch : s'.instructions_to_patch =
    if is_branch inst then bitset_set s.instructions_to_patch cur
    else s.instructions_to_patch
  branch : s'.has_branch_instruction = (s.has_branch_instruction || is_branch inst)
  targets : ct' = if is_conditional inst then set_emplace (jump_address inst) ct else ct
  stack : s'.call_stack =
    if is_function_call inst then (cur + 1) :: s.call_stack
    else if is_ret inst then s.call_stack.tail
    else s.call_stack

/-- Whether the loop pass that marks a slot holding `inst` leaves the sequential flow: a
call, a static jump, or a `RET` with a return address on the call stack. -/
def visit_jumps (inst : v128) (s : walk_state) : Bool :=
  is_function_call inst || is_static_jump inst || (is_ret inst && !s.call_stack.isEmpty)

/-- The termination test of the loop body, `second` being `instruction_range.second`. -/
def visit_stops (inst : v128) (fast_exit : Bool) (current_instruction second : Nat) : Bool :=
  (D3.end_ inst._u32_3 != 0 && (fast_exit || decide (current_instruction ≥ second))) ||
    current_instruction + 1 == max_vertex_program_instructions

/-- How the loop pass that marks the slot `cur`, holding `inst`, ends: from the state `s`
it leaves `conditional_targets` as `ct'` and the state as `s'`. -/
def visit_ctl (inst : v128) (fast_exit : Bool) (cur : Nat) (s : walk_state)
    (ct' : List Nat) (s' : walk_state) : loop_ctl :=
  if visit_jumps inst s then .next (visit_next inst cur s) ct' s'
  else if visit_stops inst fast_exit cur s'.instruction_range.2 then .stop ct' s'
  else .next (cur + 1) ct' s'

/-! ## Invariants of the walk -/

/-- Every instruction marked for patching has its branch target marked live, or still
`pending` (about to be examined, or among the conditional targets awaiting their walk),
or past the image and inside `instruction_range` (a conditional target of 512 or more,
which the loop over `conditional_targets` may pass over). -/
def targets_resolved (data : Nat → Nat) (pending : List Nat) (s : walk_state) : Prop :=
  ∀ i, s.instructions_to_patch.testBit i = true →
    s.instruction_mask.testBit (jump_address (v128.loadu data i)) = true ∨
      jump_address (v128.loadu data i) ∈ pending ∨
      (max_vertex_program_instructions ≤ jump_address (v128.loadu data i) ∧
        jump_address (v128.loadu data i) ≤ s.instruction_range.2)

/-- The end of `instruction_range` is its initial 0, a live slot, a `pending` target, or
past the image. -/
def range_end_resolved (pending : List Nat) (s : walk_state) : Prop :=
  s.instruction_range.2 = 0 ∨ s.instruction_mask.testBit s.instruction_range.2 = true ∨
    s.instruction_range.2 ∈ pending ∨
    max_vertex_program_instructions ≤ s.instruction_range.2

/-- The conditional targets still to walk lie inside `instruction_range`, whose end is
below 1024 (a branch target has ten bits). -/
def walk_bounds (pending : List Nat) (s : walk_state) : Prop :=
  s.instruction_range.2 < 1024 ∧ ∀ t ∈ pending, t ≤ s.instruction_range.2

/-- The end of `instruction_range` is its initial 0, a live slot, or the target of a live
conditional branch. -/
def range_end_source (data : Nat → Nat) (s : walk_state) : Prop :=
  s.instruction_range.2 = 0 ∨ s.instruction_mask.testBit s.instruction_range.2 = true ∨
    ∃ i, s.instruction_mask.testBit i = true ∧ is_conditional (v128.loadu data i) = true ∧
      jump_address (v128.loadu data i) = s.instruction_range.2

/-- State invariant of the walk: live slots lie in `instruction_range` and below 512; the
slots to patch are the live branch instructions; `has_branch_instruction` is set once a
live slot is a branch; the start of `instruction_range` is `umax` or a live slot. -/
def walk_inv (data : Nat → Nat) (s : walk_state) : Prop :=
  (∀ i, s.instruction_mask.testBit i = true →
    s.instruction_range.1 ≤ i ∧ i ≤ s.instruction_range.2 ∧
      i < max_vertex_program_instructions) ∧
  (∀ i, s.instructions_to_patch.testBit i = true ↔
    (s.instruction_mask.testBit i = true ∧ is_branch (v128.loadu data i) = true)) ∧
  (s.has_branch_instruction = false →
    ∀ i, s.instruction_mask.testBit i = true → is_branch (v128.loadu data i) = false) ∧
  (s.instruction_range.1 = umax ∨ s.instruction_mask.testBit s.instruction_range.1 = true)

/-- Invariant at the head of the loop of a walk, `entry` being the slot the outermost walk
started from and `outer` the targets pending in the enclosing walks. -/
def walk_head_inv (data : Nat → Nat) (entry : Nat) (outer : List Nat) (cur : Nat)
    (ct : List Nat) (s : walk_state) : Prop :=
  walk_inv data s ∧ targets_resolved data (cur :: (ct ++ outer)) s ∧
  range_end_resolved (cur :: (ct ++ outer)) s ∧
  (s.instruction_mask.testBit entry = true ∨ cur = entry)

/-- Invariant between the walks, `pending` being the conditional targets still to walk. -/
def walk_done_inv (data : Nat → Nat) (entry : Nat) (pending : List Nat) (s : walk_state) :
    Prop :=
  walk_inv data s ∧ targets_resolved data pending s ∧ range_end_resolved pending s ∧
  s.instruction_mask.testBit entry = true

/-- Invariant at the head of the loop of the outermost walk for as long as no branch
instruction was met: the live slots are exactly those from `entry` up to `cur`. -/
def no_branch_head (entry cur : Nat) (ct : List Nat) (s : walk_state) : Prop :=
  s.has_branch_instruction = false →
    ct = [] ∧ s.call_stack = [] ∧ entry ≤ cur ∧
    (∀ i, s.instruction_mask.testBit i = true ↔ (entry ≤ i ∧ i < cur)) ∧
    s.instruction_range = (if cur = entry then (umax, 0) else (entry, cur - 1))

/-- What holds when the loop of the outermost walk stops without having met a branch
instruction: the live slots are a contiguous run from `entry`. -/
def no_branch_done (entry : Nat) (ct : List Nat) (s : walk_state) : Prop :=
  s.has_branch_instruction = false →
    ct = [] ∧ ∃ last, entry ≤ last ∧
    (∀ i, s.instruction_mask.testBit i = true ↔ (entry ≤ i ∧ i ≤ last)) ∧
    s.instruction_range = (entry, last)

/-- Number of the 512 slots whose bit is not set in a live mask. -/
def unmarked (mask : Nat) : Nat :=
  (List.range max_vertex_program_instructions).countP (fun i => !mask.testBit i)

/-! ## The analysed program -/

/-- The instruction the emission loop writes to slot `count` of `dst_prog.data`. -/
def emitted_inst (oob : undefined_reads) (data : Nat → Nat) (s : walk_state) (count : Nat) :
    v128 :=
  if bitset_test (oob.instruction_mask s) s.instruction_mask (s.instruction_range.1 + count) then
    if bitset_test (oob.instructions_to_patch s) s.instructions_to_patch
        (s.instruction_range.1 + count) then
      (patch_instruction (v128.loadu data (s.instruction_range.1 + count))
        s.instruction_range.1).1
    else v128.loadu data (s.instruction_range.1 + count)
  else v128.zero

/-- What the emission loop does to `dst_prog.jump_table` at slot `count`. -/
def emitted_jump (oob : undefined_reads) (data : Nat → Nat) (s : walk_state)
    (jump_table : List Nat) (count : Nat) : List Nat :=
  if bitset_test (oob.instruction_mask s) s.instruction_mask
        (s.instruction_range.1 + count) = true ∧
      bitset_test (oob.instructions_to_patch s) s.instructions_to_patch
        (s.instruction_range.1 + count) = true then
    set_emplace (u32_sub (jump_address (v128.loadu data (s.instruction_range.1 + count)))
      s.instruction_range.1) jump_table
  else jump_table

/-- Slot `i` of a vector of words, as `v128::loadu(vec.data(), i)` reads it. -/
def vector_slot (vec : List Nat) (i : Nat) : v128 := v128.loadu (fun k => vec.getD k 0) i

/-- What `analyse_vertex_program` returns (`result`) and leaves in `dst_prog` (`prog`) when
the outermost walk ended in the state `s`, `dst` being the object passed in. -/
structure analysed (oob : undefined_reads) (data : Nat → Nat) (entry : Nat)
    (dst : RSXVertexProgram) (s : walk_state) (result : vertex_program_metadata)
    (prog : RSXVertexProgram) : Prop where
  result_mask : result.instruction_mask = s.instruction_mask
  ucode_length : result.ucode_length =
    (s.instruction_range.2 - s.instruction_range.1 + 1) * 16
  textures : result.referenced_textures_mask = s.referenced_textures_mask
  inputs : result.referenced_inputs_mask = s.referenced_inputs_mask ||| 1
  base : prog.base_address = s.instruction_range.1
  entry_eq : prog.entry = entry
  mask : prog.instruction_mask = s.instruction_mask >>> s.instruction_range.1
  output_mask : prog.output_mask = dst.output_mask
  texture : prog.texture_state = dst.texture_state
  length : prog.data.length = (s.instruction_range.2 - s.instruction_range.1 + 1) * 4
  slots : ∀ c, c < s.instruction_range.2 - s.instruction_range.1 + 1 →
    vector_slot prog.data c = emitted_inst oob data s c
  jumps : prog.jump_table =
    if s.has_branch_instruction then
      (List.range (s.instruction_range.2 - s.instruction_range.1 + 1)).foldl
        (emitted_jump oob data s) dst.jump_table
    else dst.jump_table

/-- The local `instruction_count` of `analyse_vertex_program`, recovered from the returned
`ucode_length = instruction_count * 16`. -/
def instruction_count (result : vertex_program_metadata) : Nat := result.ucode_length / 16

/-- Number of bits set in a bitset of 512 bits (`std::bitset<512>::count`). -/
def bitset_count (bits : Nat) : Nat :=
  ((List.range max_vertex_program_instructions).filter (fun i => bits.testBit i)).length

/-! ## Relocation -/

/-- The instruction `instB` is the instruction `instA` moved up by `k` slots: the same
words, except that for a branch instruction (`BRI`, `BRB`, `CAL`, `CLI`, `CLB`) the encoded
branch target is `k` higher, the words agreeing outside the three address fields. -/
def slot_relocated (k : Nat) (instA instB : v128) : Prop :=
  if is_branch instA then
    instB._u32_1 = instA._u32_1 ∧
    jump_address instB = jump_address instA + k ∧
    D0.set_iaddrh2 instB._u32_0 0 = D0.set_iaddrh2 instA._u32_0 0 ∧
    D2.set_iaddrh instB._u32_2 0 = D2.set_iaddrh instA._u32_2 0 ∧
    D3.set_iaddrl instB._u32_3 0 = D3.set_iaddrl instA._u32_3 0
  else instB = instA

instance (k : Nat) (instA instB : v128) : Decidable (slot_relocated k instA instB) := by
  unfold slot_relocated
  infer_instance

/-- The captured state `sB` is the captured state `sA` moved up by `k` slots (the two
reference masks apart). -/
structure relocated (k : Nat) (sA sB : walk_state) : Prop where
  mask : sB.instruction_mask = sA.instruction_mask <<< k
  patch : sB.instructions_to_patch = sA.instructions_to_patch <<< k
  range : (sA.instruction_range = (umax, 0) ∧ sB.instruction_range = (umax, 0)) ∨
    (sA.instruction_range.1 < max_vertex_program_instructions ∧
      sB.instruction_range = (sA.instruction_range.1 + k, sA.instruction_range.2 + k))
  branch : sB.has_branch_instruction = sA.has_branch_instruction
  stack : sB.call_stack = sA.call_stack.map (· + k)

/-! ## Fragment program analysis -/

/-- Modelled from the spec: `fragment_program_utils::fragment_program_metadata`
(`ProgramStateCache.h` is not among the sources), with the fields of section 3 of the
specification; the offset and the two lengths are `u32`. -/
structure fragment_program_metadata where
  program_start_offset : Nat
  program_ucode_length : Nat
  program_constants_buffer_length : Nat
  referenced_textures_mask : Nat
  has_pack_instructions : Bool
  has_branch_instructions : Bool
  is_nop_shader : Bool
  deriving DecidableEq, Repr

/-- The value `result{}` with `result.program_start_offset = -1` that
`analyse_fragment_program` starts from. -/
def fragment_program_metadata.init : fragment_program_metadata :=
  ⟨umax, 0, 0, 0, false, false, false⟩

/-- Modelled from the spec: the fragment opcode enumeration (`RSXFragmentProgram.h`) is not
among the sources; the opcodes are those section 4.2 of the specification names, with the
emulator's values. The seven texture opcodes of the `switch`: `TEX` (`0x17`), `TEXBEM`
(`0x33`), `TXP` (`0x18`), `TXPBEM` (`0x34`), `TXD` (`0x19`), `TXB` (`0x31`), `TXL` (`0x2F`). -/
def is_texture_opcode (opcode : Nat) : Bool :=
  opcode == 0x17 || opcode == 0x33 || opcode == 0x18 || opcode == 0x34 || opcode == 0x19 ||
    opcode == 0x31 || opcode == 0x2F

/-- Modelled from the spec: the ten pack and unpack opcodes of the `switch` (see
`is_texture_opcode`): `PK4` (`0x13`), `UP4` (`0x14`), `PK2` (`0x24`), `UP2` (`0x25`), `PKB`
(`0x27`), `UPB` (`0x28`), `PK16` (`0x29`), `UP16` (`0x2A`), `PKG` (`0x2C`), `UPG` (`0x2D`). -/
def is_pack_opcode (opcode : Nat) : Bool :=
  opcode == 0x13 || opcode == 0x14 || opcode == 0x24 || opcode == 0x25 || opcode == 0x27 ||
    opcode == 0x28 || opcode == 0x29 || opcode == 0x2A || opcode == 0x2C || opcode == 0x2D

/-- The branch marker `inst._u32[2] & (1 << 23)` of a fragment instruction (the high bit
of the opcode). -/
def fp_branch (inst : v128) : Bool := inst._u32_2 &&& (1 <<< 23) != 0

/-- The opcode field `(inst._u32[0] >> 16) & 0x3F` of a fragment instruction. -/
def fp_opcode (inst : v128) : Nat := (inst._u32_0 >>> 16) &&& 0x3F

/-- The opcode dispatch of `analyse_fragment_program` on a non-branch instruction with a
nonzero opcode: the start offset is assigned once, then the `switch`. -/
def analyse_fragment_opcode (inst : v128) (index : Nat) (result : fragment_program_metadata) :
    fragment_program_metadata :=
  let opcode := fp_opcode inst
  let result :=
    if result.program_start_offset == umax then
      { result with program_start_offset := (index * 16) % 4294967296 }
    else result
  if is_texture_opcode opcode then
    let tex_num := (inst._u32_0 >>> 25) &&& 15
    { result with referenced_textures_mask := result.referenced_textures_mask ||| (1 <<< tex_num) }
  else if is_pack_opcode opcode then
    { result with has_pack_instructions := true }
  else result

/-- The loop body of `analyse_fragment_program` down to the end-bit test: the branch
marker, the opcode dispatch, the skip of a constant slot, and the length of the current
instruction. It yields the local `index` and `result`. -/
def analyse_fragment_slot (inst : v128) (index : Nat) (result : fragment_program_metadata) :
    Nat × fragment_program_metadata :=
  let step : Nat × fragment_program_metadata :=
    if fp_branch inst then
      (index, { result with has_branch_instructions := true })
    else
      let result := if fp_opcode inst != 0 then analyse_fragment_opcode inst index result
        else result
      if has_constant inst then
        -- Instruction references constant, skip one slot occupied by data
        (index + 1, { result with
          program_ucode_length := u32_add result.program_ucode_length 16
          program_constants_buffer_length :=
            u32_add result.program_constants_buffer_length 16 })
      else (index, result)
  if step.2.program_start_offset != umax then
    (step.1, { step.2 with program_ucode_length := u32_add step.2.program_ucode_length 16 })
  else step

/-- The `while (true)` loop of `analyse_fragment_program`, run for at most `fuel` passes
from slot `index`; it yields the local `index` at the `break` together with `result`, and
`none` when the fuel is exhausted. The counter `index` is an `s32` in the source, whose
overflow is undefined; here it is a `Nat`, and `index * 16` is reduced to a `u32` when it
is assigned to `program_start_offset`. -/
def analyse_fragment_program_loop (instBuffer : Nat → Nat) :
    Nat → Nat → fragment_program_metadata → Option (Nat × fragment_program_metadata)
  | 0, _, _ => none
  | fuel + 1, index, result =>
    let inst := v128.loadu instBuffer index
    let step := analyse_fragment_slot inst index result
    let index := step.1
    let result := step.2
    if fp_end inst then
      if result.program_start_offset == umax then
        some (index, { result with
          program_start_offset := (index * 16) % 4294967296
          program_ucode_length := 16
          is_nop_shader := true })
      else some (index, result)
    else analyse_fragment_program_loop instBuffer fuel (index + 1) result

/-- The function `fragment_program_utils::analyse_fragment_program`. -/
def analyse_fragment_program (fuel : Nat) (ptr : Nat → Nat) :
    Option fragment_program_metadata :=
  (analyse_fragment_program_loop ptr fuel 0 fragment_program_metadata.init).map (·.2)

/-- The `while (true)` loop of `get_fragment_program_ucode_size`, run for at most `fuel`
passes from slot `instIndex`; `none` when the fuel is exhausted. -/
def get_fragment_program_ucode_size_loop (instBuffer : Nat → Nat) : Nat → Nat → Option Nat
  | 0, _ => none
  | fuel + 1, instIndex =>
    let inst := v128.loadu instBuffer instIndex
    let isSRC0Constant := is_constant inst._u32_1
    let isSRC1Constant := is_constant inst._u32_2
    let isSRC2Constant := is_constant inst._u32_3
    let end_ := fp_end inst
    if isSRC0Constant || isSRC1Constant || isSRC2Constant then
      let instIndex := instIndex + 2
      if end_ then some ((instIndex * 4 * 4) % 2 ^ 64)
      else get_fragment_program_ucode_size_loop instBuffer fuel instIndex
    else
      let instIndex := instIndex + 1
      if end_ then some ((instIndex * 4 * 4) % 2 ^ 64)
      else get_fragment_program_ucode_size_loop instBuffer fuel instIndex

/-- The function `fragment_program_utils::get_fragment_program_ucode_size`. -/
def get_fragment_program_ucode_size (fuel : Nat) (ptr : Nat → Nat) : Option Nat :=
  get_fragment_program_ucode_size_loop ptr fuel 0

/-! ## Walks over a fragment stream -/

/-- Whether the loop body of `analyse_fragment_program` skips the slot after the
instruction as constant data: the constant test is reached only without the branch
marker. -/
def analyse_fragment_skips (inst : v128) : Bool := !fp_branch inst && has_constant inst

/-- The slots a walk over a fragment stream loads as instructions, in order, from slot
`index` on: the walk skips the slot after each instruction of which `skips` holds, and
stops after an instruction with the end bit, or after `fuel` instructions. -/
def fp_instruction_slots (skips : v128 → Bool) (instBuffer : Nat → Nat) :
    Nat → Nat → List Nat
  | 0, _ => []
  | fuel + 1, index =>
    let inst := v128.loadu instBuffer index
    index :: (if fp_end inst then []
      else fp_instruction_slots skips instBuffer fuel (if skips inst then index + 2 else index + 1))

/-- The slot of the instruction with the end bit at which a walk over a fragment stream
from slot `index` stops, the slot after each instruction with a source operand marked
constant being skipped; `none` when no such instruction is met within `fuel`
instructions. A stream is terminated when this is `some` slot for some `fuel`. -/
def fp_end_slot (instBuffer : Nat → Nat) : Nat → Nat → Option Nat
  | 0, _ => none
  | fuel + 1, index =>
    let inst := v128.loadu instBuffer index
    if fp_end inst then some index
    else fp_end_slot instBuffer fuel (if has_constant inst then index + 2 else index + 1)

/-! ## Walks that stay inside the image -/

/-- What keeps a loop pass of a walk inside the image: the slot to examine, the pending
conditional targets and the return addresses on the call stack are below 512, and for the
outermost walk (`fast_exit = false`) slot 511 is not live yet. -/
def walk_safe (fast_exit : Bool) (cur : Nat) (ct : List Nat) (s : walk_state) : Prop :=
  cur < max_vertex_program_instructions ∧
  (∀ t ∈ ct, t < max_vertex_program_instructions) ∧
  (∀ a ∈ s.call_stack, a < max_vertex_program_instructions) ∧
  (fast_exit = false → s.instruction_mask.testBit 511 = false)

/-- What `walk_safe` leaves when the loop stops: the conditional targets and the return
addresses on the call stack are below 512. -/
def walk_safe_done (ct : List Nat) (s : walk_state) : Prop :=
  (∀ t ∈ ct, t < max_vertex_program_instructions) ∧
  (∀ a ∈ s.call_stack, a < max_vertex_program_instructions)

/-! ## FNV-1a, as a reference for the ucode hashes -/

/-- The 64-bit FNV-1a hash (the hash the comments of the two hash functions name) of a
sequence of 64-bit words: from the offset basis `0xCBF29CE484222325`, each word is xor-ed
into the hash, which is then multiplied by the FNV prime `0x100000001B3` modulo `2 ^ 64`. -/
def fnv1a_64 (words : List Nat) : Nat :=
  words.foldl (fun h x => ((h ^^^ x) * 0x100000001B3) % 2 ^ 64) 0xCBF29CE484222325

/-- The two 64-bit halves of an instruction, the low half first. -/
def v128.halves (inst : v128) : List Nat := [inst._u64_0, inst._u64_1]

/-- The 64-bit words a vertex program is hashed over: the two halves of each live slot
below `data.size() / 4`, in slot order. -/
def live_halves (program : RSXVertexProgram) : List Nat :=
  ((List.range (program.data.length / 4)).filter
    (fun i => program.instruction_mask.testBit i)).flatMap
    (fun i => (v128.loadu (fun k => program.data.getD k 0) i).halves)

/-! ## Sample inputs -/

/-- The reads past the end that yield the bits of the `Nat` standing for the bitset. -/
def reads_bits : undefined_reads :=
  ⟨fun s i => s.instruction_mask.testBit i, fun s i => s.instruction_mask.testBit i,
    fun s i => s.instructions_to_patch.testBit i⟩

/-- A vertex instruction whose scalar opcode is `sca_opcode`, with condition field `cond`
and branch target `target`, every other field being zero. -/
def encode_branch (sca_opcode cond target : Nat) : v128 :=
  ⟨(cond <<< 10) ||| (((target >>> 9) &&& 0x1) <<< 23), sca_opcode <<< 27,
    (target >>> 3) &&& 0x3F, (target &&& 0x7) <<< 29⟩

/-- The all-zero instruction `[0, 0, 0, 0]`: a `NOP`. -/
def nop : v128 := ⟨0, 0, 0, 0⟩

/-- The instruction `[0, 0, 0, 1]`: a `NOP` with the end bit. -/
def nop_end : v128 := ⟨0, 0, 0, 1⟩

/-- The image that holds the given instructions in the given slots and `fill` in every
word of the other slots. -/
def image_of_slots (slots : List (Nat × v128)) (fill : Nat) : Nat → Nat := fun k =>
  match slots.lookup (k / 4) with
  | some inst =>
    if k % 4 = 0 then inst._u32_0 else if k % 4 = 1 then inst._u32_1
    else if k % 4 = 2 then inst._u32_2 else inst._u32_3
  | none => fill

/-- The image of the minimal program: the single slot `[0, 0, 0, 1]`, zero elsewhere. -/
def minimal_image : Nat → Nat := image_of_slots [(0, nop_end)] 0

/-- The image of the forward static branch, moved up by `k` slots: slot `k` is a `BRI` with
`cond = 0x7` to slot `k + 5`, slot `k + 5` is a `NOP` with the end bit, and every other
word of the image is `fill`. -/
def static_branch_image (k fill : Nat) : Nat → Nat :=
  image_of_slots [(k, encode_branch RSX_SCA_OPCODE_BRI 0x7 (k + 5)), (k + 5, nop_end)] fill

/-- The image of the CALL/RET program: slot 0 is a `CAL` to slot 10, slot 1 a `NOP` with
the end bit, slot 10 a `NOP`, slot 11 a `RET`, every other slot a `NOP` without end bit. -/
def call_ret_image : Nat → Nat :=
  image_of_slots [(0, encode_branch RSX_SCA_OPCODE_CAL 0 10), (1, nop_end), (10, nop),
    (11, encode_branch RSX_SCA_OPCODE_RET 0 0)] 0

/-- The captured state in which the walk of the CALL/RET program ends: every slot live,
slot 0 to patch, `instruction_range = (0, 511)`. -/
def call_ret_final : walk_state := ⟨2 ^ 512 - 1, 0, 0, 1, (0, 511), true, []⟩

/-- A fragment stream: a constant-referencing instruction, its constant slot,
and an instruction with the end bit. -/
def fp_witness_stream (payload : Nat) : Nat → Nat := fun k =>
  if k = 0 then 0x10000 else if k = 1 then 0x200
  else if 4 ≤ k ∧ k < 8 then payload else if k = 8 then 0x100 else 0

/-- A fragment stream whose first slot `[0x100, 0x200, 0, 0]` has opcode 0, the end bit,
and a first source operand marked constant. -/
def fp_nop_constant_stream : Nat → Nat := image_of_slots [(0, ⟨0x100, 0x200, 0, 0⟩)] 0

/-- A fragment stream of three slots: an opcode-0 instruction `[0, 0x200, 0, 0]` whose first
source operand is marked constant, its constant slot, and the instruction
`[0x10100, 0, 0, 0]` (opcode 1 with the end bit). -/
def fp_leading_constant_stream : Nat → Nat :=
  image_of_slots [(0, ⟨0, 0x200, 0, 0⟩), (2, ⟨0x10100, 0, 0, 0⟩)] 0

/-- The fragment stream of the `TEX` scenario: slot 0 is a `TEX` (opcode `0x17`) on
texture unit 3 whose first source operand is marked constant, slot 1 its constant slot
holding `payload` in every word, slot 2 the instruction `[0x10100, 0, 0, 0]` (opcode 1 with
the end bit). -/
def fp_tex_constant_stream (payload : Nat) : Nat → Nat :=
  image_of_slots [(0, ⟨0x6170000, 0x200, 0, 0⟩), (1, ⟨payload, payload, payload, payload⟩),
    (2, ⟨0x10100, 0, 0, 0⟩)] 0

/-- A fragment stream of four slots: `[0x10000, 0, 0, 0]` (opcode 1), then
`[0, 0x200, 0x800000, 0]` (branch marker set, first source operand marked constant), then
two instructions `[0x100, 0, 0, 0]` (opcode 0 with the end bit). -/
def fp_branch_constant_stream : Nat → Nat :=
  image_of_slots [(0, ⟨0x10000, 0, 0, 0⟩), (1, ⟨0, 0x200, 0x800000, 0⟩),
    (2, ⟨0x100, 0, 0, 0⟩), (3, ⟨0x100, 0, 0, 0⟩)] 0

/-- The image of the self-loop: slot 0 is a `BRI` with `cond = 0x7` to slot 0 itself, slot 1
a `NOP` with the end bit, every other word zero. -/
def self_loop_image : Nat → Nat :=
  image_of_slots [(0, encode_branch RSX_SCA_OPCODE_BRI 0x7 0), (1, nop_end)] 0

/-- The image whose last slot, 511, is a `BRI` with `cond = 0x7` to slot 511 itself, every
other word zero. -/
def last_slot_loop_image : Nat → Nat :=
  image_of_slots [(511, encode_branch RSX_SCA_OPCODE_BRI 0x7 511)] 0

/-- The image whose slot 0 is a `BRB` to slot 581, every other word zero. -/
def past_end_branch_image : Nat → Nat :=
  image_of_slots [(0, encode_branch RSX_SCA_OPCODE_BRB 0 581)] 0

/-- The captured state in which the loop of the walk of `past_end_branch_image` from slot 0
stops: every slot live, slot 0 to patch, `instruction_range = (0, 581)`. -/
def past_end_branch_final : walk_state := ⟨2 ^ 512 - 1, 0, 0, 1, (0, 581), true, []⟩

/-- The image whose slot 510 is a `CAL` to slot 511 and whose slot 511 is a `RET`, every
other word zero. -/
def last_slot_ret_image : Nat → Nat :=
  image_of_slots [(510, encode_branch RSX_SCA_OPCODE_CAL 0 511),
    (511, encode_branch RSX_SCA_OPCODE_RET 0 0)] 0

/-! # Theorems -/

/-! ## Program identity -/

theorem compare_loop_fold (p q : RSXVertexProgram) (l : List Nat) :
    vertex_program_compare_loop p q l = true →
    ∀ h, l.foldl (fun hash i =>
        if p.instruction_mask.testBit i then
          hash_inst hash (v128.loadu (fun k => p.data.getD k 0) i)
        else hash) h
      = l.foldl (fun hash i =>
        if q.instruction_mask.testBit i then
          hash_inst hash (v128.loadu (fun k => q.data.getD k 0) i)
        else hash) h := by
  induction l with
  | nil => intro _ h; rfl
  | cons i rest ih =>
    intro hc h
    simp only [vertex_program_compare_loop] at hc
    split at hc
    · simp at hc
    · rename_i hmask
      split at hc
      · simp at hc
      · rename_i hinst
        simp only [List.foldl_cons]
        have hm : p.instruction_mask.testBit i = q.instruction_mask.testBit i := by
          simpa using hmask
        rw [← hm]
        cases hb : p.instruction_mask.testBit i with
        | false => simpa using ih hc h
        | true =>
          have he : v128.loadu (fun k => p.data.getD k 0) i
              = v128.loadu (fun k => q.data.getD k 0) i := by
            simpa [hb] using hinst
          simp only [if_true, he]
          exact ih hc _

theorem vertex_program_compare_hash (p q : RSXVertexProgram)
    (h : vertex_program_compare p q = true) :
    vertex_program_storage_hash p = vertex_program_storage_hash q := by
  unfold vertex_program_compare at h
  split at h
  · simp at h
  · rename_i ho
    split at h
    · simp at h
    · rename_i ht
      split at h
      · simp at h
      · rename_i hl
        split at h
        · simp at h
        · have ho' : p.output_mask = q.output_mask := by simpa using ho
          have ht' : p.texture_state = q.texture_state := by simpa using ht
          have hl' : p.data.length = q.data.length := by simpa using hl
          unfold vertex_program_storage_hash get_vertex_program_ucode_hash
          rw [compare_loop_fold p q _ h, ho', ht', hl']

/-- C1: for vertex programs `p` and `q` whose data holds at most 512 slots, if
`vertex_program_compare(p, q)` returns true then the two programs have the same
`vertex_program_storage_hash`. -/
theorem vertex_program_compare_imp_hash_eq (p q : RSXVertexProgram)
    (_hp : p.data.length ≤ 4 * max_vertex_program_instructions)
    (_hq : q.data.length ≤ 4 * max_vertex_program_instructions)
    (h : vertex_program_compare p q = true) :
    vertex_program_storage_hash p = vertex_program_storage_hash q :=
  vertex_program_compare_hash p q h

/-- Witness of C1: a one-slot live program compared with itself. -/
theorem vertex_program_compare_imp_hash_eq_witness :
    vertex_program_compare ⟨[0, 0, 0, 1], ⟨0, 0, 0⟩, 0, 0, 0, 1, []⟩
        ⟨[0, 0, 0, 1], ⟨0, 0, 0⟩, 0, 7, 7, 1, []⟩ = true ∧
    vertex_program_storage_hash ⟨[0, 0, 0, 1], ⟨0, 0, 0⟩, 0, 0, 0, 1, []⟩
      = vertex_program_storage_hash ⟨[0, 0, 0, 1], ⟨0, 0, 0⟩, 0, 7, 7, 1, []⟩ :=
  ⟨by decide, vertex_program_compare_imp_hash_eq _ _ (by decide) (by decide) (by decide)⟩

theorem foldl_congr_mem {α : Type} (f g : α → Nat → α) (l : List Nat)
    (h : ∀ a, ∀ i ∈ l, f a i = g a i) (a : α) : l.foldl f a = l.foldl g a := by
  induction l generalizing a with
  | nil => rfl
  | cons i rest ih =>
    simp only [List.foldl_cons]
    rw [h a i (List.mem_cons_self _ _)]
    exact ih (fun a j hj => h a j (List.mem_cons_of_mem _ hj)) _

/-- C6: `vertex_program_storage_hash` depends only on the live content. Two vertex programs
with the same data size, the same `instruction_mask` bits on the slots below
`data.size() / 4`, the same four words in every slot whose mask bit is set, and the same
`output_mask` and `texture_dimensions` have the same hash, whatever their `entry`,
`base_address`, `jump_table` and the words of the slots whose mask bit is 0. -/
theorem vertex_program_storage_hash_live_content (p q : RSXVertexProgram)
    (hlen : p.data.length = q.data.length)
    (hmask : ∀ i, i < p.data.length / 4 →
      p.instruction_mask.testBit i = q.instruction_mask.testBit i)
    (hdata : ∀ i, i < p.data.length / 4 → p.instruction_mask.testBit i = true →
      ∀ j, j < 4 → p.data.getD (i * 4 + j) 0 = q.data.getD (i * 4 + j) 0)
    (hout : p.output_mask = q.output_mask)
    (htex : p.texture_state.texture_dimensions = q.texture_state.texture_dimensions) :
    vertex_program_storage_hash p = vertex_program_storage_hash q := by
  have hu : get_vertex_program_ucode_hash p = get_vertex_program_ucode_hash q := by
    unfold get_vertex_program_ucode_hash
    rw [← hlen]
    apply foldl_congr_mem
    intro a i hi
    have hi' : i < p.data.length / 4 := List.mem_range.mp hi
    rw [← hmask i hi']
    by_cases hb : p.instruction_mask.testBit i = true
    · have h0 := hdata i hi' hb 0 (by omega)
      have h1 := hdata i hi' hb 1 (by omega)
      have h2 := hdata i hi' hb 2 (by omega)
      have h3 := hdata i hi' hb 3 (by omega)
      have e : v128.loadu (fun k => p.data.getD k 0) i
          = v128.loadu (fun k => q.data.getD k 0) i := by
        unfold v128.loadu
        beta_reduce
        rw [show p.data.getD (i * 4) 0 = q.data.getD (i * 4) 0 from h0, h1, h2, h3]
      rw [if_pos hb, if_pos hb, e]
    · rw [if_neg hb, if_neg hb]
  unfold vertex_program_storage_hash
  rw [hu, hout, htex]

/-- Witness of C6: two programs that differ in `entry`, `base_address`, `jump_table` and in
the words of the dead slot 1. -/
theorem vertex_program_storage_hash_live_content_witness :
    vertex_program_storage_hash ⟨[5, 6, 7, 8, 1, 2, 3, 4], ⟨3, 0, 0⟩, 9, 0, 0, 1, []⟩
      = vertex_program_storage_hash ⟨[5, 6, 7, 8, 0, 0, 0, 0], ⟨3, 1, 1⟩, 9, 4, 6, 1, [1]⟩ :=
  vertex_program_storage_hash_live_content _ _ (by decide)
    (by decide) (by decide) (by decide) (by decide)

theorem fp_hash_loop_mono (buf : Nat → Nat) (fuel k : Nat) :
    ∀ (i h x : Nat), get_fragment_program_ucode_hash_loop buf fuel i h = some x →
      get_fragment_program_ucode_hash_loop buf (fuel + k) i h = some x := by
  induction fuel with
  | zero => intro i h x hx; simp [get_fragment_program_ucode_hash_loop] at hx
  | succ n ih =>
    intro i h x hx
    rw [Nat.add_right_comm]
    simp only [get_fragment_program_ucode_hash_loop] at hx ⊢
    split
    · rename_i he; simpa [he] using hx
    · rename_i he
      simp only [he] at hx
      exact ih _ _ _ hx

theorem fp_compare_loop_hash (a b : Nat → Nat) (fuel : Nat) :
    ∀ (i : Nat), fragment_program_compare_loop a b fuel i = some true →
      ∀ h, ∃ x, get_fragment_program_ucode_hash_loop a fuel i h = some x ∧
        get_fragment_program_ucode_hash_loop b fuel i h = some x := by
  induction fuel with
  | zero => intro i hc; simp [fragment_program_compare_loop] at hc
  | succ n ih =>
    intro i hc h
    simp only [fragment_program_compare_loop] at hc
    split at hc
    · simp at hc
    · rename_i hne
      have he : v128.loadu a i = v128.loadu b i := by simpa using hne
      simp only [get_fragment_program_ucode_hash_loop, ← he]
      rw [← he] at hc
      cases hend : fp_end (v128.loadu a i) with
      | true => exact ⟨_, rfl, rfl⟩
      | false =>
        simp only [hend, Bool.and_self, Bool.false_eq_true, if_false] at hc ⊢
        exact ih _ hc _

/-- C5: for two fragment programs `a` and `b` whose instruction streams are terminated (the
hash walk of each reaches an instruction with bit 8 of `w0` set, so that the hash returns),
if `fragment_program_compare(a, b)` returns true then the two programs have the same
`fragment_program_storage_hash`. -/
theorem fragment_program_compare_imp_hash_eq (a b : RSXFragmentProgram)
    (fuel fa fb x y : Nat)
    (hc : fragment_program_compare fuel a b = some true)
    (ha : fragment_program_storage_hash fa a = some x)
    (hb : fragment_program_storage_hash fb b = some y) : x = y := by
  unfold fragment_program_compare at hc
  split at hc
  · simp at hc
  · rename_i hf
    simp only [Bool.or_eq_true, bne_iff_ne, ne_eq, not_or, not_not] at hf
    obtain ⟨⟨⟨h1, h2⟩, h3⟩, h4⟩ := hf
    obtain ⟨z, hza, hzb⟩ := fp_compare_loop_hash a.data b.data fuel 0 hc 0xCBF29CE484222325
    have hza' := fp_hash_loop_mono a.data fuel fa _ _ _ hza
    have hzb' := fp_hash_loop_mono b.data fuel fb _ _ _ hzb
    unfold fragment_program_storage_hash get_fragment_program_ucode_hash at ha hb
    cases hxa : get_fragment_program_ucode_hash_loop a.data fa 0 0xCBF29CE484222325 with
    | none => simp [hxa] at ha
    | some xa =>
      cases hxb : get_fragment_program_ucode_hash_loop b.data fb 0 0xCBF29CE484222325 with
      | none => simp [hxb] at hb
      | some xb =>
        have e1 := fp_hash_loop_mono a.data fa fuel _ _ _ hxa
        have e2 := fp_hash_loop_mono b.data fb fuel _ _ _ hxb
        rw [Nat.add_comm] at e1 e2
        rw [hza'] at e1
        rw [hzb'] at e2
        have e1' : z = xa := by simpa using e1
        have e2' : z = xb := by simpa using e2
        simp only [hxa, Option.map_some', Option.some.injEq] at ha
        simp only [hxb, Option.map_some', Option.some.injEq] at hb
        rw [← ha, ← hb, ← e1', ← e2', h1, h2, h3, h4]

/-- Witness of C5: two terminated streams that differ only in a skipped constant slot. -/
theorem fragment_program_compare_imp_hash_eq_witness :
    fragment_program_compare 2 ⟨fp_witness_stream 1, 0, false, ⟨0, 0, 0⟩, 0⟩
        ⟨fp_witness_stream 2, 0, false, ⟨0, 0, 0⟩, 0⟩ = some true ∧
    fragment_program_storage_hash 2 ⟨fp_witness_stream 1, 0, false, ⟨0, 0, 0⟩, 0⟩
      = some 7007863482812721909 ∧
    fragment_program_storage_hash 2 ⟨fp_witness_stream 2, 0, false, ⟨0, 0, 0⟩, 0⟩
      = some 7007863482812721909 ∧
    (7007863482812721909 : Nat) = 7007863482812721909 :=
  ⟨by decide, by decide, by decide, fragment_program_compare_imp_hash_eq
    ⟨fp_witness_stream 1, 0, false, ⟨0, 0, 0⟩, 0⟩ ⟨fp_witness_stream 2, 0, false, ⟨0, 0, 0⟩, 0⟩
    2 2 2 _ _ (by decide) (by decide) (by decide)⟩

/-! ## The loop pass of the walk -/

theorem walk_tail_eq (inst : v128) (fe : Bool) (cur : Nat) (ct : List Nat) (s : walk_state)
    (t : Bool) :
    ∃ s', walk_tail inst fe cur ct s t =
        (if visit_stops inst fe cur s.instruction_range.2 then .stop ct s'
         else .next (cur + 1) ct s') ∧
      s'.instruction_mask = s.instruction_mask ∧
      s'.instruction_range = s.instruction_range ∧
      s'.instructions_to_patch = s.instructions_to_patch ∧
      s'.has_branch_instruction = s.has_branch_instruction ∧
      s'.call_stack = s.call_stack := by
  unfold walk_tail visit_stops
  dsimp only
  split
  · exact ⟨_, rfl, rfl, rfl, rfl, rfl, rfl⟩
  · exact ⟨_, rfl, rfl, rfl, rfl, rfl, rfl⟩

theorem walk_touch_state (inst : v128) (cur : Nat) (s : walk_state) :
    (walk_touch inst cur s).1.instruction_mask = bitset_set s.instruction_mask cur ∧
    (walk_touch inst cur s).1.instruction_range =
      (min cur s.instruction_range.1, max cur s.instruction_range.2) ∧
    (walk_touch inst cur s).1.instructions_to_patch = s.instructions_to_patch ∧
    (walk_touch inst cur s).1.has_branch_instruction = s.has_branch_instruction ∧
    (walk_touch inst cur s).1.call_stack = s.call_stack := by
  unfold walk_touch
  dsimp only
  split <;> simp

theorem is_ret_of_is_branch (inst : v128) (h : is_branch inst = true) :
    is_ret inst = false := by
  simp only [is_branch, is_ret, is_branch_opcode, RSX_SCA_OPCODE_BRI, RSX_SCA_OPCODE_BRB,
    RSX_SCA_OPCODE_CAL, RSX_SCA_OPCODE_CLI, RSX_SCA_OPCODE_CLB, RSX_SCA_OPCODE_RET,
    Bool.or_eq_true, beq_iff_eq] at h ⊢
  rcases h with (((h | h) | h) | h) | h <;> simp [h]

theorem is_static_jump_imp_is_branch (inst : v128) (h : is_static_jump inst = true) :
    is_branch inst = true := by
  simp only [is_static_jump, Bool.and_eq_true, beq_iff_eq] at h
  simp [is_branch, is_branch_opcode, h.1]

theorem walk_visit_eq (inst : v128) (fe : Bool) (cur : Nat) (ct : List Nat)
    (s : walk_state) :
    ∃ ct' s', visited inst cur ct s ct' s' ∧
      walk_visit inst fe cur ct s = visit_ctl inst fe cur s ct' s' := by
  unfold walk_visit visit_ctl
  dsimp only
  obtain ⟨t1, t2, t3, t4, t5⟩ := walk_touch_state inst cur s
  generalize walk_touch inst cur s = touched at t1 t2 t3 t4 t5 ⊢
  have tf : touched.1.instruction_range.1 = min cur s.instruction_range.1 := by rw [t2]
  have ts : touched.1.instruction_range.2 = max cur s.instruction_range.2 := by rw [t2]
  by_cases hb : is_branch_opcode (D1.sca_opcode inst._u32_1) = true
  · rw [if_pos hb]
    have hbr : is_branch inst = true := hb
    have hnr : is_ret inst = false := is_ret_of_is_branch inst hbr
    by_cases hcall : (!(D1.sca_opcode inst._u32_1 == RSX_SCA_OPCODE_BRI ||
        D1.sca_opcode inst._u32_1 == RSX_SCA_OPCODE_BRB)) = true
    · rw [if_pos hcall]
      have hc : is_function_call inst = true := by
        simp only [is_function_call, hbr, hcall, Bool.and_self]
      have hcond : is_conditional inst = false := by simp [is_conditional, hc]
      have hj : visit_jumps inst s = true := by simp [visit_jumps, hc]
      have hvn : visit_next inst cur s = jump_address inst := by
        simp only [visit_next, hc, Bool.true_or, if_true]
      simp only [hj, if_true, hvn]
      refine ⟨ct, _, ?_, rfl⟩
      refine ⟨t1, tf, ?_, ?_, ?_, ?_, ?_⟩
      · rw [hcond]; exact ts
      · rw [hbr, if_pos rfl]; exact congrArg (bitset_set · cur) t3
      · rw [hbr, Bool.or_true]
      · rw [hcond]; rfl
      · rw [hc, if_pos rfl]; exact congrArg (List.cons (cur + 1)) t5
    · rw [if_neg hcall]
      have hc : is_function_call inst = false := by
        simp only [is_function_call, hbr, Bool.true_and]
        simpa using hcall
      by_cases hstat : (D1.sca_opcode inst._u32_1 == RSX_SCA_OPCODE_BRI &&
          D0.cond inst._u32_0 == 0x7) = true
      · rw [if_pos hstat]
        have hs : is_static_jump inst = true := hstat
        have hcond : is_conditional inst = false := by simp [is_conditional, hs]
        have hj : visit_jumps inst s = true := by simp [visit_jumps, hs]
        have hvn : visit_next inst cur s = jump_address inst := by
          simp only [visit_next, hs, Bool.or_true, if_true]
        simp only [hj, if_true, hvn]
        refine ⟨ct, _, ?_, rfl⟩
        refine ⟨t1, tf, ?_, ?_, ?_, ?_, ?_⟩
        · rw [hcond]; exact ts
        · rw [hbr, if_pos rfl]; exact congrArg (bitset_set · cur) t3
        · rw [hbr, Bool.or_true]
        · rw [hcond]; rfl
        · rw [hc, hnr]; exact t5
      · rw [if_neg hstat]
        have hs : is_static_jump inst = false := by
          simpa [is_static_jump] using hstat
        have hcond : is_conditional inst = true := by
          simp only [is_conditional, hbr, hc, hs, Bool.not_false, Bool.and_self]
        have hj : visit_jumps inst s = false := by simp [visit_jumps, hc, hs, hnr]
        obtain ⟨s', hs', h1, h2, h3, h4, h5⟩ := walk_tail_eq inst fe cur
          (set_emplace (jump_address inst) ct)
          { touched.1 with
            instructions_to_patch := bitset_set touched.1.instructions_to_patch cur
            has_branch_instruction := true
            instruction_range :=
              (touched.1.instruction_range.1,
               max (jump_address inst) touched.1.instruction_range.2) }
          touched.2
        refine ⟨set_emplace (jump_address inst) ct, s', ⟨?_, ?_, ?_, ?_, ?_, ?_, ?_⟩, ?_⟩
        · rw [h1]; exact t1
        · rw [h2]; exact tf
        · rw [h2, hcond, if_pos rfl]; exact congrArg (max (jump_address inst)) ts
        · rw [h3, hbr, if_pos rfl]; exact congrArg (bitset_set · cur) t3
        · rw [h4, hbr, Bool.or_true]
        · rw [hcond, if_pos rfl]
        · rw [h5, hc, hnr]; exact t5
        · rw [hj, if_neg (by simp), h2]; exact hs'
  · rw [if_neg hb]
    have hbf : is_branch inst = false := by simpa [is_branch] using hb
    have hc : is_function_call inst = false := by
      simp [is_function_call, hbf]
    have hcond : is_conditional inst = false := by
      simp [is_conditional, hbf]
    have hs : is_static_jump inst = false := by
      cases h : is_static_jump inst with
      | false => rfl
      | true => rw [is_static_jump_imp_is_branch inst h] at hbf; exact absurd hbf (by simp)
    by_cases hret : (D1.sca_opcode inst._u32_1 == RSX_SCA_OPCODE_RET) = true
    · rw [if_pos hret]
      have hr : is_ret inst = true := hret
      cases hstk : touched.1.call_stack with
      | nil =>
        have hstk' : s.call_stack = [] := by rw [← t5, hstk]
        have hj : visit_jumps inst s = false := by simp [visit_jumps, hc, hs, hstk']
        obtain ⟨s', hs', h1, h2, h3, h4, h5⟩ := walk_tail_eq inst fe cur
          ct touched.1 touched.2
        refine ⟨ct, s', ⟨?_, ?_, ?_, ?_, ?_, ?_, ?_⟩, ?_⟩
        · rw [h1]; exact t1
        · rw [h2]; exact tf
        · rw [h2, hcond]; exact ts
        · rw [h3, hbf]; exact t3
        · rw [h4, hbf, Bool.or_false]; exact t4
        · rw [hcond]; rfl
        · rw [h5, hc, hr, hstk', hstk]; rfl
        · rw [hj, if_neg (by simp), h2]; exact hs'
      | cons top rest =>
        have hstk' : s.call_stack = top :: rest := by rw [← t5, hstk]
        have hj : visit_jumps inst s = true := by simp [visit_jumps, hr, hstk']
        have hvn : visit_next inst cur s = top := by
          simp [visit_next, hc, hs, hr, hstk']
        simp only [hj, if_true, hvn]
        refine ⟨ct, _, ?_, rfl⟩
        refine ⟨t1, tf, ?_, ?_, ?_, ?_, ?_⟩
        · rw [hcond]; exact ts
        · rw [hbf]; exact t3
        · rw [hbf, Bool.or_false]; exact t4
        · rw [hcond]; rfl
        · rw [hc, hr, hstk']; rfl
    · rw [if_neg hret]
      have hr : is_ret inst = false := by simpa [is_ret] using hret
      have hj : visit_jumps inst s = false := by simp [visit_jumps, hc, hs, hr]
      obtain ⟨s', hs', h1, h2, h3, h4, h5⟩ := walk_tail_eq inst fe cur
        ct touched.1 (D1.input_src inst._u32_1 != 0)
      refine ⟨ct, s', ⟨?_, ?_, ?_, ?_, ?_, ?_, ?_⟩, ?_⟩
      · rw [h1]; exact t1
      · rw [h2]; exact tf
      · rw [h2, hcond]; exact ts
      · rw [h3, hbf]; exact t3
      · rw [h4, hbf, Bool.or_false]; exact t4
      · rw [hcond]; rfl
      · rw [h5, hc, hr]; exact t5
      · rw [hj, if_neg (by simp), h2]; exact hs'

theorem visit_next_of_not_jumps (inst : v128) (cur : Nat) (s : walk_state)
    (h : visit_jumps inst s = false) :
    visit_next inst cur s = cur + 1 ∧ is_function_call inst = false ∧
      is_static_jump inst = false := by
  simp only [visit_jumps, Bool.or_eq_false_iff] at h
  obtain ⟨⟨hc, hs⟩, hr⟩ := h
  refine ⟨?_, hc, hs⟩
  simp only [visit_next, hc, hs, Bool.or_self, Bool.false_eq_true, if_false, hr]

theorem walk_visit_cases (inst : v128) (fe : Bool) (cur : Nat) (ct : List Nat)
    (s : walk_state) :
    ∃ ct' s', visited inst cur ct s ct' s' ∧
      (walk_visit inst fe cur ct s = .next (visit_next inst cur s) ct' s' ∨
       (walk_visit inst fe cur ct s = .stop ct' s' ∧
        is_function_call inst = false ∧ is_static_jump inst = false)) := by
  obtain ⟨ct', s', hv, he⟩ := walk_visit_eq inst fe cur ct s
  refine ⟨ct', s', hv, ?_⟩
  rw [he]
  unfold visit_ctl
  cases hj : visit_jumps inst s with
  | true => left; simp
  | false =>
    obtain ⟨h1, h2, h3⟩ := visit_next_of_not_jumps inst cur s hj
    simp only [Bool.false_eq_true, if_false]
    split
    · right; exact ⟨rfl, h2, h3⟩
    · left; rw [h1]

theorem walk_iteration_cases (data : Nat → Nat) (fe : Bool) (cur : Nat) (ct : List Nat)
    (s : walk_state) :
    (¬ cur < max_vertex_program_instructions ∧ walk_iteration data fe cur ct s = .fault) ∨
    (cur < max_vertex_program_instructions ∧ s.instruction_mask.testBit cur = true ∧
      fe = false ∧ walk_iteration data fe cur ct s = .next (cur + 1) ct s) ∨
    (cur < max_vertex_program_instructions ∧ s.instruction_mask.testBit cur = true ∧
      fe = true ∧ walk_iteration data fe cur ct s = .stop ct s) ∨
    (cur < max_vertex_program_instructions ∧ s.instruction_mask.testBit cur = false ∧
      ∃ ct' s', visited (v128.loadu data cur) cur ct s ct' s' ∧
      (walk_iteration data fe cur ct s = .next (visit_next (v128.loadu data cur) cur s) ct' s' ∨
       (walk_iteration data fe cur ct s = .stop ct' s' ∧
        is_function_call (v128.loadu data cur) = false ∧
        is_static_jump (v128.loadu data cur) = false))) := by
  by_cases hlt : cur < max_vertex_program_instructions
  swap
  · left; exact ⟨hlt, by simp [walk_iteration, hlt]⟩
  right
  by_cases hlive : s.instruction_mask.testBit cur = true
  · cases fe with
    | false => left; exact ⟨hlt, hlive, rfl, by simp [walk_iteration, hlt, hlive]⟩
    | true => right; left; exact ⟨hlt, hlive, rfl, by simp [walk_iteration, hlt, hlive]⟩
  right; right
  have hfresh : s.instruction_mask.testBit cur = false := by simpa using hlive
  have hw : walk_iteration data fe cur ct s = walk_visit (v128.loadu data cur) fe cur ct s := by
    unfold walk_iteration
    rw [if_neg (not_not.mpr hlt), if_neg hlive]
  rw [hw]
  exact ⟨hlt, hfresh, walk_visit_cases _ fe cur ct s⟩

/-! ## Induction over the walk -/

theorem bitset_test_lt (past_end : Nat → Bool) (bits i : Nat)
    (h : i < max_vertex_program_instructions) :
    bitset_test past_end bits i = bits.testBit i := by
  unfold bitset_test
  rw [if_pos h]

theorem bitset_test_ge (past_end : Nat → Bool) (bits i : Nat)
    (h : max_vertex_program_instructions ≤ i) :
    bitset_test past_end bits i = past_end i := by
  unfold bitset_test
  rw [if_neg (Nat.not_lt.2 h)]

theorem bitset_test_reads_bits (bits i : Nat) :
    bitset_test (fun i => bits.testBit i) bits i = bits.testBit i := by
  unfold bitset_test
  split <;> rfl

theorem target_mask_reads_bits (s : walk_state) (i : Nat) :
    bitset_test (reads_bits.target_mask s) s.instruction_mask i
      = s.instruction_mask.testBit i :=
  bitset_test_reads_bits _ _

theorem emitted_inst_reads_bits (data : Nat → Nat) (s : walk_state) (count : Nat) :
    emitted_inst reads_bits data s count =
      if s.instruction_mask.testBit (s.instruction_range.1 + count) then
        if s.instructions_to_patch.testBit (s.instruction_range.1 + count) then
          (patch_instruction (v128.loadu data (s.instruction_range.1 + count))
            s.instruction_range.1).1
        else v128.loadu data (s.instruction_range.1 + count)
      else v128.zero := by
  unfold emitted_inst reads_bits
  simp only [bitset_test_reads_bits]

theorem emitted_jump_reads_bits (data : Nat → Nat) (s : walk_state) (jump_table : List Nat)
    (count : Nat) :
    emitted_jump reads_bits data s jump_table count =
      if s.instruction_mask.testBit (s.instruction_range.1 + count) = true ∧
          s.instructions_to_patch.testBit (s.instruction_range.1 + count) = true then
        set_emplace (u32_sub (jump_address (v128.loadu data (s.instruction_range.1 + count)))
          s.instruction_range.1) jump_table
      else jump_table := by
  unfold emitted_jump reads_bits
  simp only [bitset_test_reads_bits]

theorem walk_loop_induction (data : Nat → Nat) (fe : Bool)
    (J : Nat → List Nat → walk_state → Prop) (K : List Nat → walk_state → Prop)
    (hnext : ∀ cur ct s cur' ct' s', J cur ct s →
      walk_iteration data fe cur ct s = .next cur' ct' s' → J cur' ct' s')
    (hstop : ∀ cur ct s ct' s', J cur ct s →
      walk_iteration data fe cur ct s = .stop ct' s' → K ct' s') :
    ∀ fuel cur ct s ct' s', J cur ct s →
      walk_loop data fe fuel cur ct s = .done (ct', s') → K ct' s' := by
  intro fuel
  induction fuel with
  | zero => intro cur ct s ct' s' _ h; simp [walk_loop] at h
  | succ n ih =>
    intro cur ct s ct' s' hJ h
    simp only [walk_loop] at h
    split at h
    · simp at h
    · rename_i ct1 s1 heq
      simp only [outcome.done.injEq, Prod.mk.injEq] at h
      obtain ⟨rfl, rfl⟩ := h
      exact hstop _ _ _ _ _ hJ heq
    · rename_i cur1 ct1 s1 heq
      exact ih _ _ _ _ _ (hnext _ _ _ _ _ _ hJ heq) h

/-- Induction over the loop on `conditional_targets`: a target is passed over when its bit
reads 1, which for a target below 512 means that the slot is live (`hskip`) and for a
target of 512 or more is up to the undefined read (`hpast`); otherwise it is walked. -/
theorem walk_targets_induction (oob : undefined_reads)
    (walk : Nat → walk_state → outcome walk_state)
    (K : List Nat → walk_state → Prop)
    (hskip : ∀ X t s, K (t :: X) s → s.instruction_mask.testBit t = true → K X s)
    (hpast : ∀ X t s, K (t :: X) s → max_vertex_program_instructions ≤ t → K X s)
    (hwalk : ∀ X t s s', K (t :: X) s →
      bitset_test (oob.target_mask s) s.instruction_mask t = false →
      walk t s = .done s' → K X s') :
    ∀ (l X : List Nat) (s s' : walk_state), K (l ++ X) s →
      walk_targets oob walk l s = .done s' → K X s' := by
  intro l
  induction l with
  | nil =>
    intro X s s' hK h
    simp only [walk_targets, outcome.done.injEq] at h
    subst h
    simpa using hK
  | cons t rest ih =>
    intro X s s' hK h
    simp only [walk_targets] at h
    by_cases hl : bitset_test (oob.target_mask s) s.instruction_mask t = true
    · simp only [hl, Bool.not_true, Bool.false_eq_true, if_false] at h
      by_cases ht : t < max_vertex_program_instructions
      · rw [bitset_test_lt _ _ _ ht] at hl
        exact ih X s s' (hskip _ _ _ hK hl) h
      · exact ih X s s' (hpast _ _ _ hK (Nat.not_lt.1 ht)) h
    · have hl' : bitset_test (oob.target_mask s) s.instruction_mask t = false := by
        simpa using hl
      simp only [hl', Bool.not_false, if_true] at h
      split at h
      · rename_i s1 heq
        exact ih X s1 s' (hwalk _ _ _ _ hK hl' heq) h
      · simp at h
      · simp at h

/-- A walk started on a slot of 512 or more does not return: the bounds assertion fails
on the first pass of its loop. -/
theorem walk_function_past_end (oob : undefined_reads) (data : Nat → Nat) (depth start : Nat)
    (fe : Bool) (s s' : walk_state) (h : max_vertex_program_instructions ≤ start) :
    walk_function oob data depth start fe s ≠ .done s' := by
  cases depth with
  | zero => simp [walk_function]
  | succ d =>
    have hf : walk_loop data fe walk_loop_fuel start [] s = .fault := by
      have e : walk_loop_fuel = (513 * 513 - 1) + 1 := rfl
      rw [e]
      simp only [walk_loop, walk_iteration, Nat.not_lt.2 h, not_false_eq_true, if_true]
    simp only [walk_function, hf]
    simp

theorem walk_function_induction (oob : undefined_reads) (data : Nat → Nat)
    (J : List Nat → Nat → List Nat → walk_state → Prop)
    (K : List Nat → walk_state → Prop)
    (hnext : ∀ fe X cur ct s cur' ct' s', J X cur ct s →
      walk_iteration data fe cur ct s = .next cur' ct' s' → J X cur' ct' s')
    (hstop : ∀ fe X cur ct s ct' s', J X cur ct s →
      walk_iteration data fe cur ct s = .stop ct' s' → K (ct' ++ X) s')
    (hskip : ∀ X t s, K (t :: X) s → s.instruction_mask.testBit t = true → K X s)
    (hpast : ∀ X t s, K (t :: X) s → max_vertex_program_instructions ≤ t → K X s)
    (henter : ∀ X t s, K (t :: X) s → s.instruction_mask.testBit t = false → J X t [] s) :
    ∀ depth X start fe s s', J X start [] s →
      walk_function oob data depth start fe s = .done s' → K X s' := by
  intro depth
  induction depth with
  | zero => intro X start fe s s' _ h; simp [walk_function] at h
  | succ d ih =>
    intro X start fe s s' hJ h
    simp only [walk_function] at h
    split at h
    · rename_i ct1 s1 heq
      have hK : K (ct1 ++ X) s1 :=
        walk_loop_induction data fe (J X) (fun ct s => K (ct ++ X) s)
          (hnext fe X) (hstop fe X) _ _ _ _ _ _ hJ heq
      refine walk_targets_induction oob _ K hskip hpast ?_ ct1 X s1 s' hK h
      intro X t s s' hK hl hw
      by_cases ht : t < max_vertex_program_instructions
      · rw [bitset_test_lt _ _ _ ht] at hl
        exact ih X t true s s' (henter X t s hK hl) hw
      · exact absurd hw (walk_function_past_end oob data d t true s s' (Nat.not_lt.1 ht))
    · simp at h
    · simp at h

/-! ## Codec lemmas -/

theorem bitfield_lt (w off width : Nat) : bitfield w off width < 2 ^ width :=
  Nat.mod_lt _ (Nat.two_pow_pos _)

theorem jump_address_eq (inst : v128) :
    jump_address inst =
      D0.iaddrh2 inst._u32_0 * 512 + D2.iaddrh inst._u32_2 * 8 + D3.iaddrl inst._u32_3 := by
  have h0 : D0.iaddrh2 inst._u32_0 < 2 := bitfield_lt _ 23 1
  have h2 : D2.iaddrh inst._u32_2 < 64 := bitfield_lt _ 0 6
  have h3 : D3.iaddrl inst._u32_3 < 8 := bitfield_lt _ 29 3
  unfold jump_address
  rw [Nat.or_assoc, Nat.shiftLeft_eq, Nat.shiftLeft_eq, Nat.mul_comm _ (2 ^ 3),
    Nat.mul_comm _ (2 ^ 9), ← Nat.mul_add_lt_is_or h3,
    ← Nat.mul_add_lt_is_or (show 2 ^ 3 * D2.iaddrh inst._u32_2 + D3.iaddrl inst._u32_3 < 2 ^ 9
      by omega)]
  omega

theorem jump_address_lt (inst : v128) : jump_address inst < 1024 := by
  have h0 : D0.iaddrh2 inst._u32_0 < 2 := bitfield_lt _ 23 1
  have h2 : D2.iaddrh inst._u32_2 < 64 := bitfield_lt _ 0 6
  have h3 : D3.iaddrl inst._u32_3 < 8 := bitfield_lt _ 29 3
  rw [jump_address_eq]; omega

theorem bitfield_set_bitfield (w off width v : Nat) :
    bitfield (set_bitfield w off width v) off width = v % 2 ^ width := by
  unfold bitfield set_bitfield
  rw [Nat.shiftRight_eq_div_pow, Nat.shiftRight_eq_div_pow, Nat.pow_add]
  have hp : 0 < 2 ^ off := Nat.two_pow_pos _
  have hlt : w % 2 ^ off < 2 ^ off := Nat.mod_lt _ hp
  have e : w % 2 ^ off + v % 2 ^ width * 2 ^ off + w / (2 ^ off * 2 ^ width) * (2 ^ off * 2 ^ width)
      = w % 2 ^ off + 2 ^ off * (v % 2 ^ width + w / (2 ^ off * 2 ^ width) * 2 ^ width) := by
    ring
  rw [e, Nat.add_mul_div_left _ _ hp, Nat.div_eq_of_lt hlt, Nat.zero_add,
    Nat.add_mul_mod_self_right, Nat.mod_mod]

theorem jump_address_patch (inst : v128) (first : Nat) :
    jump_address (patch_instruction inst first).1 = u32_sub (jump_address inst) first % 1024 := by
  rw [jump_address_eq]
  simp only [patch_instruction, D0.iaddrh2, D0.set_iaddrh2, D2.iaddrh, D2.set_iaddrh,
    D3.iaddrl, D3.set_iaddrl, bitfield_set_bitfield]
  generalize u32_sub (jump_address inst) first = a
  have e1 : a >>> 9 &&& 1 = a / 512 % 2 := by
    rw [Nat.and_one_is_mod, Nat.shiftRight_eq_div_pow]
  have e2 : a >>> 3 &&& 63 = a / 8 % 64 := by
    rw [show (63 : Nat) = 2 ^ 6 - 1 from rfl, Nat.and_pow_two_sub_one_eq_mod,
      Nat.shiftRight_eq_div_pow]
  have e3 : a &&& 7 = a % 8 := by
    rw [show (7 : Nat) = 2 ^ 3 - 1 from rfl, Nat.and_pow_two_sub_one_eq_mod]
  rw [e1, e2, e3]
  omega

theorem patch_instruction_u32_1 (inst : v128) (first : Nat) :
    (patch_instruction inst first).1._u32_1 = inst._u32_1 := rfl

theorem patch_instruction_address (inst : v128) (first : Nat) :
    (patch_instruction inst first).2 = u32_sub (jump_address inst) first := rfl

/-! ## Invariants of the walk -/

theorem testBit_bitset_set (m i j : Nat) :
    (bitset_set m i).testBit j = (m.testBit j || decide (i = j)) := by
  simp [bitset_set, Nat.one_shiftLeft, Nat.testBit_two_pow]

theorem mem_set_emplace (x y : Nat) (l : List Nat) :
    x ∈ set_emplace y l ↔ x = y ∨ x ∈ l := by
  induction l with
  | nil => simp [set_emplace]
  | cons z zs ih =>
    simp only [set_emplace]
    split
    · simp
    · split
      · rename_i h; subst h; simp
      · simp only [List.mem_cons, ih]; tauto

theorem visited_live (inst : v128) (cur : Nat) (ct : List Nat) (s : walk_state)
    (ct' : List Nat) (s' : walk_state) (hv : visited inst cur ct s ct' s') (i : Nat) :
    s'.instruction_mask.testBit i = true ↔
      (s.instruction_mask.testBit i = true ∨ cur = i) := by
  rw [hv.mask, testBit_bitset_set]; simp

theorem visited_targets_mono (inst : v128) (cur : Nat) (ct : List Nat) (s : walk_state)
    (ct' : List Nat) (s' : walk_state) (hv : visited inst cur ct s ct' s') (x : Nat)
    (hx : x ∈ ct) : x ∈ ct' := by
  rw [hv.targets]
  split
  · exact (mem_set_emplace _ _ _).2 (Or.inr hx)
  · exact hx

theorem visited_second_mono (inst : v128) (cur : Nat) (ct : List Nat) (s : walk_state)
    (ct' : List Nat) (s' : walk_state) (hv : visited inst cur ct s ct' s') :
    max cur s.instruction_range.2 ≤ s'.instruction_range.2 := by
  rw [hv.second]; split <;> omega

theorem visited_walk_inv (data : Nat → Nat) (cur : Nat) (ct : List Nat) (s : walk_state)
    (ct' : List Nat) (s' : walk_state) (hlt : cur < max_vertex_program_instructions)
    (hv : visited (v128.loadu data cur) cur ct s ct' s') (hi : walk_inv data s) :
    walk_inv data s' := by
  obtain ⟨h1, h2, h3, h4⟩ := hi
  have hlive := visited_live _ _ _ _ _ _ hv
  have hsec : max cur s.instruction_range.2 ≤ s'.instruction_range.2 := by
    rw [hv.second]; split <;> omega
  have hfst := hv.first
  have hlt' : cur < 512 := hlt
  have hfl : s'.instruction_range.1 ≤ cur ∧ s'.instruction_range.1 ≤ s.instruction_range.1 := by
    rw [hfst]; exact ⟨Nat.min_le_left _ _, Nat.min_le_right _ _⟩
  refine ⟨?_, ?_, ?_, ?_⟩
  · intro i hi
    show _ ∧ _ ∧ i < 512
    rcases (hlive i).1 hi with h | h
    · have := h1 i h
      have h512 : i < 512 := this.2.2
      omega
    · omega
  · intro i
    rw [hv.patch, hlive]
    by_cases hb : is_branch (v128.loadu data cur) = true
    · rw [if_pos hb, testBit_bitset_set]
      simp only [Bool.or_eq_true, decide_eq_true_eq, h2 i]
      constructor
      · rintro (⟨a, b⟩ | rfl)
        · exact ⟨Or.inl a, b⟩
        · exact ⟨Or.inr rfl, hb⟩
      · rintro ⟨a | rfl, b⟩
        · exact Or.inl ⟨a, b⟩
        · exact Or.inr rfl
    · rw [if_neg hb, h2 i]
      constructor
      · rintro ⟨a, b⟩; exact ⟨Or.inl a, b⟩
      · rintro ⟨a | rfl, b⟩
        · exact ⟨a, b⟩
        · exact absurd b hb
  · intro hbr i hi
    rw [hv.branch] at hbr
    simp only [Bool.or_eq_false_iff] at hbr
    rcases (hlive i).1 hi with h | rfl
    · exact h3 hbr.1 i h
    · exact hbr.2
  · by_cases hc : cur ≤ s.instruction_range.1
    · right
      rw [hfst, Nat.min_eq_left hc]
      exact (hlive cur).2 (Or.inr rfl)
    · right
      have hne : s.instruction_range.1 ≠ umax := by
        intro h; rw [h] at hc; simp only [umax] at hc; omega
      rw [hfst, Nat.min_eq_right (by omega)]
      exact (hlive _).2 (Or.inl (h4.resolve_left hne))

theorem visited_resolved (data : Nat → Nat) (X : List Nat) (cur : Nat) (ct : List Nat)
    (s : walk_state) (ct' : List Nat) (s' : walk_state) (P : List Nat)
    (hv : visited (v128.loadu data cur) cur ct s ct' s')
    (ht : targets_resolved data (cur :: (ct ++ X)) s)
    (hr : range_end_resolved (cur :: (ct ++ X)) s)
    (hP : ∀ x, x ∈ ct' ++ X → x ∈ P)
    (hjump : (is_function_call (v128.loadu data cur) ||
      is_static_jump (v128.loadu data cur)) = true → jump_address (v128.loadu data cur) ∈ P) :
    targets_resolved data P s' ∧ range_end_resolved P s' := by
  have hlive := visited_live _ _ _ _ _ _ hv
  have hmono := visited_targets_mono _ _ _ _ _ _ hv
  have hsec := visited_second_mono _ _ _ _ _ _ hv
  have hsub : ∀ x, x ∈ ct ++ X → x ∈ P := by
    intro x h
    apply hP
    rcases List.mem_append.1 h with h | h
    · exact List.mem_append_left _ (hmono _ h)
    · exact List.mem_append_right _ h
  have hct : is_conditional (v128.loadu data cur) = true →
      jump_address (v128.loadu data cur) ∈ P := by
    intro hcond
    apply hP
    apply List.mem_append_left
    rw [hv.targets, if_pos hcond]
    exact (mem_set_emplace _ _ _).2 (Or.inl rfl)
  constructor
  · intro i hp
    rw [hv.patch] at hp
    have hold : s.instructions_to_patch.testBit i = true →
        s'.instruction_mask.testBit (jump_address (v128.loadu data i)) = true ∨
        jump_address (v128.loadu data i) ∈ P ∨
        (max_vertex_program_instructions ≤ jump_address (v128.loadu data i) ∧
          jump_address (v128.loadu data i) ≤ s'.instruction_range.2) := by
      intro hp
      rcases ht i hp with h | h | h
      · exact Or.inl ((hlive _).2 (Or.inl h))
      · rcases List.mem_cons.1 h with h | h
        · exact Or.inl ((hlive _).2 (Or.inr h.symm))
        · exact Or.inr (Or.inl (hsub _ h))
      · exact Or.inr (Or.inr ⟨h.1, by omega⟩)
    by_cases hb : is_branch (v128.loadu data cur) = true
    · rw [if_pos hb, testBit_bitset_set] at hp
      simp only [Bool.or_eq_true, decide_eq_true_eq] at hp
      rcases hp with hp | rfl
      · exact hold hp
      · right; left
        by_cases hj : (is_function_call (v128.loadu data cur) ||
            is_static_jump (v128.loadu data cur)) = true
        · exact hjump hj
        · apply hct
          simp only [Bool.or_eq_true, not_or, Bool.not_eq_true] at hj
          simp [is_conditional, hb, hj.1, hj.2]
    · rw [if_neg hb] at hp
      exact hold hp
  · unfold range_end_resolved
    rw [hv.second]
    have hold : s'.instruction_mask.testBit (max cur s.instruction_range.2) = true ∨
        max cur s.instruction_range.2 = 0 ∨ max cur s.instruction_range.2 ∈ P ∨
        max_vertex_program_instructions ≤ max cur s.instruction_range.2 := by
      by_cases hc : s.instruction_range.2 ≤ cur
      · rw [Nat.max_eq_left hc]
        exact Or.inl ((hlive _).2 (Or.inr rfl))
      · rw [Nat.max_eq_right (by omega)]
        rcases hr with h | h | h | h
        · omega
        · exact Or.inl ((hlive _).2 (Or.inl h))
        · rcases List.mem_cons.1 h with h | h
          · omega
          · exact Or.inr (Or.inr (Or.inl (hsub _ h)))
        · exact Or.inr (Or.inr (Or.inr h))
    by_cases hcond : is_conditional (v128.loadu data cur) = true
    · rw [if_pos hcond]
      by_cases hc : max cur s.instruction_range.2 ≤ jump_address (v128.loadu data cur)
      · rw [Nat.max_eq_left hc]
        exact Or.inr (Or.inr (Or.inl (hct hcond)))
      · rw [Nat.max_eq_right (by omega)]
        rcases hold with h | h | h
        · exact Or.inr (Or.inl h)
        · exact Or.inl h
        · exact Or.inr (Or.inr h)
    · rw [if_neg hcond]
      rcases hold with h | h | h
      · exact Or.inr (Or.inl h)
      · exact Or.inl h
      · exact Or.inr (Or.inr h)

/-- A pending slot is dropped from the invariants once it is live, or when it lies past
the image and inside `instruction_range`. -/
theorem revisit_resolved (data : Nat → Nat) (cur : Nat) (Y P : List Nat) (s : walk_state)
    (hlive : s.instruction_mask.testBit cur = true ∨
      (max_vertex_program_instructions ≤ cur ∧ cur ≤ s.instruction_range.2))
    (ht : targets_resolved data (cur :: Y) s) (hr : range_end_resolved (cur :: Y) s)
    (hP : ∀ x, x ∈ Y → x ∈ P) :
    targets_resolved data P s ∧ range_end_resolved P s := by
  constructor
  · intro i hp
    rcases ht i hp with h | h | h
    · exact Or.inl h
    · rcases List.mem_cons.1 h with h | h
      · rcases hlive with hl | hl
        · left; rw [h]; exact hl
        · right; right; rw [h]; exact hl
      · exact Or.inr (Or.inl (hP _ h))
    · exact Or.inr (Or.inr h)
  · rcases hr with h | h | h | h
    · exact Or.inl h
    · exact Or.inr (Or.inl h)
    · rcases List.mem_cons.1 h with h | h
      · rcases hlive with hl | hl
        · right; left; rw [h]; exact hl
        · right; right; right; rw [h]; exact hl.1
      · exact Or.inr (Or.inr (Or.inl (hP _ h)))
    · exact Or.inr (Or.inr (Or.inr h))

theorem walk_head_inv_next (data : Nat → Nat) (entry : Nat) (fe : Bool) (X : List Nat)
    (cur : Nat) (ct : List Nat) (s : walk_state) (cur' : Nat) (ct' : List Nat)
    (s' : walk_state) (hJ : walk_head_inv data entry X cur ct s)
    (h : walk_iteration data fe cur ct s = .next cur' ct' s') :
    walk_head_inv data entry X cur' ct' s' := by
  obtain ⟨hi, ht, hr, he⟩ := hJ
  rcases walk_iteration_cases data fe cur ct s with
    ⟨_, hf⟩ | ⟨hlt, hlive, _, hn⟩ | ⟨_, _, _, hs⟩ | ⟨hlt, hfresh, ct1, s1, hv, hn | ⟨hs, _⟩⟩
  · rw [hf] at h; simp at h
  · rw [hn] at h
    simp only [loop_ctl.next.injEq] at h
    obtain ⟨rfl, rfl, rfl⟩ := h
    obtain ⟨a, b⟩ := revisit_resolved data cur (ct ++ X) ((cur + 1) :: (ct ++ X)) s
      (Or.inl hlive) ht hr (fun x hx => List.mem_cons_of_mem _ hx)
    refine ⟨hi, a, b, ?_⟩
    rcases he with h | h
    · exact Or.inl h
    · left; rw [← h]; exact hlive
  · rw [hs] at h; simp at h
  · rw [hn] at h
    simp only [loop_ctl.next.injEq] at h
    obtain ⟨rfl, rfl, rfl⟩ := h
    have hlive := visited_live _ _ _ _ _ _ hv
    obtain ⟨a, b⟩ := visited_resolved data X cur ct s ct1 s1
      (visit_next (v128.loadu data cur) cur s :: (ct1 ++ X)) hv ht hr
      (fun x hx => List.mem_cons_of_mem _ hx)
      (fun hj => by simp only [visit_next, hj, if_true, List.mem_cons, true_or])
    refine ⟨visited_walk_inv data cur ct s ct1 s1 hlt hv hi, a, b, ?_⟩
    left
    rcases he with h | h
    · exact (hlive _).2 (Or.inl h)
    · exact (hlive _).2 (Or.inr h)
  · rw [hs] at h; simp at h

theorem walk_head_inv_stop (data : Nat → Nat) (entry : Nat) (fe : Bool) (X : List Nat)
    (cur : Nat) (ct : List Nat) (s : walk_state) (ct' : List Nat)
    (s' : walk_state) (hJ : walk_head_inv data entry X cur ct s)
    (h : walk_iteration data fe cur ct s = .stop ct' s') :
    walk_done_inv data entry (ct' ++ X) s' := by
  obtain ⟨hi, ht, hr, he⟩ := hJ
  rcases walk_iteration_cases data fe cur ct s with
    ⟨_, hf⟩ | ⟨_, _, _, hn⟩ | ⟨hlt, hlive, _, hs⟩ |
    ⟨hlt, hfresh, ct1, s1, hv, hn | ⟨hs, hc, hst⟩⟩
  · rw [hf] at h; simp at h
  · rw [hn] at h; simp at h
  · rw [hs] at h
    simp only [loop_ctl.stop.injEq] at h
    obtain ⟨rfl, rfl⟩ := h
    obtain ⟨a, b⟩ := revisit_resolved data cur (ct ++ X) (ct ++ X) s (Or.inl hlive) ht hr
      (fun x hx => hx)
    refine ⟨hi, a, b, ?_⟩
    rcases he with h | h
    · exact h
    · rw [← h]; exact hlive
  · rw [hn] at h; simp at h
  · rw [hs] at h
    simp only [loop_ctl.stop.injEq] at h
    obtain ⟨rfl, rfl⟩ := h
    have hlive := visited_live _ _ _ _ _ _ hv
    obtain ⟨a, b⟩ := visited_resolved data X cur ct s ct1 s1 (ct1 ++ X) hv ht hr
      (fun x hx => hx) (fun hj => by simp [hc, hst] at hj)
    refine ⟨visited_walk_inv data cur ct s ct1 s1 hlt hv hi, a, b, ?_⟩
    rcases he with h | h
    · exact (hlive _).2 (Or.inl h)
    · exact (hlive _).2 (Or.inr h)

theorem visited_bounds (inst : v128) (cur : Nat) (ct : List Nat) (s : walk_state)
    (ct' : List Nat) (s' : walk_state) (X : List Nat)
    (hlt : cur < max_vertex_program_instructions)
    (hv : visited inst cur ct s ct' s') (hb : walk_bounds (ct ++ X) s) :
    walk_bounds (ct' ++ X) s' := by
  obtain ⟨h1, h2⟩ := hb
  have hj := jump_address_lt inst
  have hlt' : cur < 512 := hlt
  have hsec := hv.second
  have hmono := visited_second_mono _ _ _ _ _ _ hv
  constructor
  · rw [hsec]; split <;> omega
  · intro t ht
    rcases List.mem_append.1 ht with h | h
    · rw [hv.targets] at h
      by_cases hcond : is_conditional inst = true
      · rw [if_pos hcond] at h
        rcases (mem_set_emplace _ _ _).1 h with h | h
        · rw [h, hsec, if_pos hcond]; omega
        · have := h2 t (List.mem_append_left _ h); omega
      · rw [if_neg hcond] at h
        have := h2 t (List.mem_append_left _ h); omega
    · have := h2 t (List.mem_append_right _ h); omega

theorem walk_bounds_next (data : Nat → Nat) (fe : Bool) (X : List Nat) (cur : Nat)
    (ct : List Nat) (s : walk_state) (cur' : Nat) (ct' : List Nat) (s' : walk_state)
    (hb : walk_bounds (ct ++ X) s)
    (h : walk_iteration data fe cur ct s = .next cur' ct' s') :
    walk_bounds (ct' ++ X) s' := by
  rcases walk_iteration_cases data fe cur ct s with
    ⟨_, hf⟩ | ⟨hlt, hlive, _, hn⟩ | ⟨_, _, _, hs⟩ | ⟨hlt, hfresh, ct1, s1, hv, hn | ⟨hs, _⟩⟩
  · rw [hf] at h; simp at h
  · rw [hn] at h
    simp only [loop_ctl.next.injEq] at h
    obtain ⟨rfl, rfl, rfl⟩ := h
    exact hb
  · rw [hs] at h; simp at h
  · rw [hn] at h
    simp only [loop_ctl.next.injEq] at h
    obtain ⟨rfl, rfl, rfl⟩ := h
    exact visited_bounds _ cur ct s ct1 s1 X hlt hv hb
  · rw [hs] at h; simp at h

theorem walk_bounds_stop (data : Nat → Nat) (fe : Bool) (X : List Nat) (cur : Nat)
    (ct : List Nat) (s : walk_state) (ct' : List Nat) (s' : walk_state)
    (hb : walk_bounds (ct ++ X) s)
    (h : walk_iteration data fe cur ct s = .stop ct' s') :
    walk_bounds (ct' ++ X) s' := by
  rcases walk_iteration_cases data fe cur ct s with
    ⟨_, hf⟩ | ⟨_, _, _, hn⟩ | ⟨hlt, hlive, _, hs⟩ |
    ⟨hlt, hfresh, ct1, s1, hv, hn | ⟨hs, hc, hst⟩⟩
  · rw [hf] at h; simp at h
  · rw [hn] at h; simp at h
  · rw [hs] at h
    simp only [loop_ctl.stop.injEq] at h
    obtain ⟨rfl, rfl⟩ := h
    exact hb
  · rw [hn] at h; simp at h
  · rw [hs] at h
    simp only [loop_ctl.stop.injEq] at h
    obtain ⟨rfl, rfl⟩ := h
    exact visited_bounds _ cur ct s ct1 s1 X hlt hv hb

theorem walk_bounds_tail (t : Nat) (X : List Nat) (s : walk_state)
    (hb : walk_bounds (t :: X) s) : walk_bounds X s :=
  ⟨hb.1, fun x hx => hb.2 x (List.mem_cons_of_mem _ hx)⟩

theorem walk_function_inv (oob : undefined_reads) (data : Nat → Nat) (entry : Nat) :
    ∀ depth X start fe s s', walk_head_inv data entry X start [] s ∧ walk_bounds ([] ++ X) s →
      walk_function oob data depth start fe s = .done s' →
      walk_done_inv data entry X s' ∧ walk_bounds X s' := by
  apply walk_function_induction oob data
    (fun X cur ct s => walk_head_inv data entry X cur ct s ∧ walk_bounds (ct ++ X) s)
    (fun X s => walk_done_inv data entry X s ∧ walk_bounds X s)
  · intro fe X cur ct s cur' ct' s' hJ h
    exact ⟨walk_head_inv_next data entry fe X cur ct s cur' ct' s' hJ.1 h,
      walk_bounds_next data fe X cur ct s cur' ct' s' hJ.2 h⟩
  · intro fe X cur ct s ct' s' hJ h
    exact ⟨walk_head_inv_stop data entry fe X cur ct s ct' s' hJ.1 h,
      walk_bounds_stop data fe X cur ct s ct' s' hJ.2 h⟩
  · intro X t s hK hl
    obtain ⟨⟨hi, ht, hr, he⟩, hb⟩ := hK
    obtain ⟨a, b⟩ := revisit_resolved data t X X s (Or.inl hl) ht hr (fun x hx => hx)
    exact ⟨⟨hi, a, b, he⟩, walk_bounds_tail t X s hb⟩
  · intro X t s hK hl
    obtain ⟨⟨hi, ht, hr, he⟩, hb⟩ := hK
    obtain ⟨a, b⟩ := revisit_resolved data t X X s
      (Or.inr ⟨hl, hb.2 t (List.mem_cons_self _ _)⟩) ht hr (fun x hx => hx)
    exact ⟨⟨hi, a, b, he⟩, walk_bounds_tail t X s hb⟩
  · intro X t s hK _
    obtain ⟨⟨hi, ht, hr, he⟩, hb⟩ := hK
    exact ⟨⟨hi, by simpa using ht, by simpa using hr, Or.inl he⟩,
      by simpa using walk_bounds_tail t X s hb⟩

theorem walk_head_inv_init (data : Nat → Nat) (entry : Nat) :
    walk_head_inv data entry [] entry [] walk_state.init := by
  refine ⟨⟨?_, ?_, ?_, Or.inl rfl⟩, ?_, Or.inl rfl, Or.inr rfl⟩
  · intro i hi; simp [walk_state.init] at hi
  · intro i; simp [walk_state.init]
  · intro _ i hi; simp [walk_state.init] at hi
  · intro i hi; simp [walk_state.init] at hi

theorem walk_bounds_init : walk_bounds [] walk_state.init :=
  ⟨by simp [walk_state.init], fun t ht => by simp at ht⟩

/-- Facts on the captured state when the outermost `walk_function(entry, false)` returns. -/
theorem walk_done (oob : undefined_reads) (data : Nat → Nat) (entry : Nat) (depth : Nat)
    (s : walk_state)
    (h : walk_function oob data depth entry false walk_state.init = .done s) :
    walk_done_inv data entry [] s :=
  (walk_function_inv oob data entry depth [] entry false _ s
    ⟨walk_head_inv_init data entry, walk_bounds_init⟩ h).1

/-- The end of `instruction_range` is below 1024 when the outermost walk returns. -/
theorem walk_done_bounds (oob : undefined_reads) (data : Nat → Nat) (entry : Nat)
    (depth : Nat) (s : walk_state)
    (h : walk_function oob data depth entry false walk_state.init = .done s) :
    s.instruction_range.2 < 1024 :=
  (walk_function_inv oob data entry depth [] entry false _ s
    ⟨walk_head_inv_init data entry, walk_bounds_init⟩ h).2.1

/-! ## Emission -/

theorem getD_set (l : List Nat) (i a j : Nat) :
    (l.set i a).getD j 0 = if i = j ∧ i < l.length then a else l.getD j 0 := by
  simp only [List.getD_eq_getElem?_getD, List.getElem?_set]
  by_cases h : i = j
  · subst h
    by_cases h2 : i < l.length
    · simp [h2]
    · simp [h2, List.getElem?_eq_none (Nat.le_of_not_lt h2)]
  · simp [h]

theorem storeu_length (v : v128) (vec : List Nat) (idx : Nat) :
    (v.storeu vec idx).length = vec.length := by
  simp [v128.storeu]

theorem storeu_getD (v : v128) (vec : List Nat) (idx k : Nat) (h : idx + 3 < vec.length) :
    (v.storeu vec idx).getD k 0 =
      if k = idx then v._u32_0 else if k = idx + 1 then v._u32_1
      else if k = idx + 2 then v._u32_2 else if k = idx + 3 then v._u32_3
      else vec.getD k 0 := by
  simp only [v128.storeu, getD_set, List.length_set]
  by_cases h0 : k = idx
  · subst h0
    simp [show k < vec.length by omega]
  by_cases h1 : k = idx + 1
  · subst h1
    simp [show idx + 1 < vec.length by omega]
  by_cases h2 : k = idx + 2
  · subst h2
    simp [show idx + 2 < vec.length by omega]
  by_cases h3 : k = idx + 3
  · subst h3
    simp [h]
  have e0 : ¬ idx = k := fun e => h0 e.symm
  have e1 : ¬ idx + 1 = k := fun e => h1 e.symm
  have e2 : ¬ idx + 2 = k := fun e => h2 e.symm
  have e3 : ¬ idx + 3 = k := fun e => h3 e.symm
  simp [h0, h1, h2, h3, e0, e1, e2, e3]

theorem vector_slot_storeu_same (v : v128) (vec : List Nat) (c : Nat)
    (h : c * 4 + 3 < vec.length) : vector_slot (v.storeu vec (c * 4)) c = v := by
  simp only [vector_slot, v128.loadu, storeu_getD v vec (c * 4) _ h]
  simp

theorem vector_slot_storeu_other (v : v128) (vec : List Nat) (c c' : Nat)
    (h : c * 4 + 3 < vec.length) (hne : c' ≠ c) :
    vector_slot (v.storeu vec (c * 4)) c' = vector_slot vec c' := by
  simp only [vector_slot, v128.loadu, storeu_getD v vec (c * 4) _ h]
  have a0 : ¬ c' * 4 = c * 4 := by omega
  have a1 : ¬ c' * 4 = c * 4 + 1 := by omega
  have a2 : ¬ c' * 4 = c * 4 + 2 := by omega
  have a3 : ¬ c' * 4 = c * 4 + 3 := by omega
  have b0 : ¬ c' * 4 + 1 = c * 4 := by omega
  have b1 : ¬ c' * 4 + 1 = c * 4 + 1 := by omega
  have b2 : ¬ c' * 4 + 1 = c * 4 + 2 := by omega
  have b3 : ¬ c' * 4 + 1 = c * 4 + 3 := by omega
  have c0 : ¬ c' * 4 + 2 = c * 4 := by omega
  have c1 : ¬ c' * 4 + 2 = c * 4 + 1 := by omega
  have c2 : ¬ c' * 4 + 2 = c * 4 + 2 := by omega
  have c3 : ¬ c' * 4 + 2 = c * 4 + 3 := by omega
  have d0 : ¬ c' * 4 + 3 = c * 4 := by omega
  have d1 : ¬ c' * 4 + 3 = c * 4 + 1 := by omega
  have d2 : ¬ c' * 4 + 3 = c * 4 + 2 := by omega
  have d3 : ¬ c' * 4 + 3 = c * 4 + 3 := by omega
  simp only [a0, a1, a2, a3, b0, b1, b2, b3, c0, c1, c2, c3, d0, d1, d2, d3, if_false]

theorem emit_slot_eq (oob : undefined_reads) (data : Nat → Nat)
    (s : walk_state) (acc : List Nat × List Nat)
    (count : Nat) :
    emit_slot oob data s acc count =
      ((emitted_inst oob data s count).storeu acc.1 (count * 4),
       emitted_jump oob data s acc.2 count) := by
  unfold emit_slot emitted_inst emitted_jump
  dsimp only
  by_cases h1 : bitset_test (oob.instruction_mask s) s.instruction_mask
      (s.instruction_range.1 + count) = true
  · by_cases h2 : bitset_test (oob.instructions_to_patch s) s.instructions_to_patch
        (s.instruction_range.1 + count) = true
    · simp [h1, h2, patch_instruction_address]
    · simp [h1, h2]
  · simp [h1]

theorem emit_fold (oob : undefined_reads) (data : Nat → Nat)
    (s : walk_state) (n : Nat) (acc : List Nat × List Nat)
    (hlen : n * 4 ≤ acc.1.length) :
    ((List.range n).foldl (emit_slot oob data s) acc).1.length = acc.1.length ∧
    (∀ c, c < n →
      vector_slot ((List.range n).foldl (emit_slot oob data s) acc).1 c =
        emitted_inst oob data s c) ∧
    ((List.range n).foldl (emit_slot oob data s) acc).2 =
      (List.range n).foldl (emitted_jump oob data s) acc.2 := by
  induction n with
  | zero => simp
  | succ m ih =>
    obtain ⟨h1, h2, h3⟩ := ih (by omega)
    rw [List.range_succ, List.foldl_append, List.foldl_append]
    simp only [List.foldl_cons, List.foldl_nil]
    rw [emit_slot_eq]
    have hm : m * 4 + 3 < ((List.range m).foldl (emit_slot oob data s) acc).1.length := by
      rw [h1]; omega
    refine ⟨by rw [storeu_length, h1], ?_, by rw [h3]⟩
    intro c hc
    by_cases hcm : c = m
    · subst hcm
      exact vector_slot_storeu_same _ _ _ hm
    · rw [vector_slot_storeu_other _ _ _ _ hm hcm]
      exact h2 c (by omega)

theorem mem_emitted_jump_fold (oob : undefined_reads) (data : Nat → Nat)
    (s : walk_state) (n : Nat) (jt : List Nat)
    (t : Nat) :
    t ∈ (List.range n).foldl (emitted_jump oob data s) jt ↔
      t ∈ jt ∨ ∃ c, c < n ∧
        bitset_test (oob.instruction_mask s) s.instruction_mask
          (s.instruction_range.1 + c) = true ∧
        bitset_test (oob.instructions_to_patch s) s.instructions_to_patch
          (s.instruction_range.1 + c) = true ∧
        t = u32_sub (jump_address (v128.loadu data (s.instruction_range.1 + c)))
          s.instruction_range.1 := by
  induction n with
  | zero => simp
  | succ m ih =>
    rw [List.range_succ, List.foldl_append]
    simp only [List.foldl_cons, List.foldl_nil]
    generalize (List.range m).foldl (emitted_jump oob data s) jt = acc at ih ⊢
    unfold emitted_jump
    split
    · rename_i hc
      rw [mem_set_emplace, ih]
      constructor
      · rintro (h | h | ⟨c, hc1, hc2⟩)
        · exact Or.inr ⟨m, by omega, hc.1, hc.2, h⟩
        · exact Or.inl h
        · exact Or.inr ⟨c, by omega, hc2⟩
      · rintro (h | ⟨c, hc1, hc2, hc3, hc4⟩)
        · exact Or.inr (Or.inl h)
        · by_cases hcm : c = m
          · subst hcm; exact Or.inl hc4
          · exact Or.inr (Or.inr ⟨c, by omega, hc2, hc3, hc4⟩)
    · rename_i hc
      rw [ih]
      constructor
      · rintro (h | ⟨c, hc1, hc2⟩)
        · exact Or.inl h
        · exact Or.inr ⟨c, by omega, hc2⟩
      · rintro (h | ⟨c, hc1, hc2, hc3, hc4⟩)
        · exact Or.inl h
        · by_cases hcm : c = m
          · subst hcm; exact absurd ⟨hc2, hc3⟩ hc
          · exact Or.inr ⟨c, by omega, hc2, hc3, hc4⟩

/-- Below slot 512 the emission loop reads the two bitsets inside their bounds. -/
theorem emitted_inst_lt (oob : undefined_reads) (data : Nat → Nat) (s : walk_state)
    (count : Nat) (h : s.instruction_range.1 + count < max_vertex_program_instructions) :
    emitted_inst oob data s count =
      if s.instruction_mask.testBit (s.instruction_range.1 + count) then
        if s.instructions_to_patch.testBit (s.instruction_range.1 + count) then
          (patch_instruction (v128.loadu data (s.instruction_range.1 + count))
            s.instruction_range.1).1
        else v128.loadu data (s.instruction_range.1 + count)
      else v128.zero := by
  rw [emitted_inst, bitset_test_lt _ _ _ h, bitset_test_lt _ _ _ h]

theorem emitted_jump_lt (oob : undefined_reads) (data : Nat → Nat) (s : walk_state)
    (jump_table : List Nat) (count : Nat)
    (h : s.instruction_range.1 + count < max_vertex_program_instructions) :
    emitted_jump oob data s jump_table count =
      if s.instruction_mask.testBit (s.instruction_range.1 + count) = true ∧
          s.instructions_to_patch.testBit (s.instruction_range.1 + count) = true then
        set_emplace (u32_sub (jump_address (v128.loadu data (s.instruction_range.1 + count)))
          s.instruction_range.1) jump_table
      else jump_table := by
  rw [emitted_jump, bitset_test_lt _ _ _ h, bitset_test_lt _ _ _ h]

theorem memcpy_words_spec (src : Nat → Nat) (offset : Nat) (n : Nat) (vec : List Nat)
    (hlen : n ≤ vec.length) :
    (memcpy_words vec src offset n).length = vec.length ∧
    ∀ k, (memcpy_words vec src offset n).getD k 0 =
      if k < n then src (offset + k) else vec.getD k 0 := by
  unfold memcpy_words
  induction n with
  | zero => simp
  | succ m ih =>
    obtain ⟨h1, h2⟩ := ih (by omega)
    rw [List.range_succ, List.foldl_append]
    simp only [List.foldl_cons, List.foldl_nil]
    refine ⟨by rw [List.length_set, h1], ?_⟩
    intro k
    rw [getD_set, h1, h2]
    by_cases hk : m = k
    · subst hk
      simp [show m < vec.length by omega]
    · by_cases hk2 : k < m
      · simp [hk, hk2, show k < m + 1 by omega]
      · simp [hk, hk2, show ¬ k < m + 1 by omega]

theorem vector_resize_length (vec : List Nat) (n : Nat) : (vector_resize vec n).length = n := by
  simp only [vector_resize, List.length_append, List.length_take, List.length_replicate]
  omega

/-! ## Walks that meet no branch instruction -/

theorem is_branch_false_imp (inst : v128) (h : is_branch inst = false) :
    is_function_call inst = false ∧ is_static_jump inst = false ∧
      is_conditional inst = false := by
  refine ⟨by simp [is_function_call, h], ?_, by simp [is_conditional, h]⟩
  cases hs : is_static_jump inst with
  | false => rfl
  | true => rw [is_static_jump_imp_is_branch inst hs] at h; exact absurd h (by simp)

theorem visited_no_branch (inst : v128) (entry cur : Nat) (ct : List Nat) (s : walk_state)
    (ct' : List Nat) (s' : walk_state) (hlt : cur < max_vertex_program_instructions)
    (hv : visited inst cur ct s ct' s') (hJ : no_branch_head entry cur ct s)
    (hb : s'.has_branch_instruction = false) :
    visit_next inst cur s = cur + 1 ∧ ct' = [] ∧ s'.call_stack = [] ∧
    (∀ i, s'.instruction_mask.testBit i = true ↔ (entry ≤ i ∧ i ≤ cur)) ∧
    s'.instruction_range = (entry, cur) ∧ entry ≤ cur := by
  have hb' := hb
  rw [hv.branch] at hb'
  simp only [Bool.or_eq_false_iff] at hb'
  obtain ⟨hct, hstk, hle, hlive, hrange⟩ := hJ hb'.1
  obtain ⟨hc, hs, hcond⟩ := is_branch_false_imp inst hb'.2
  have hlt' : cur < 512 := hlt
  refine ⟨?_, ?_, ?_, ?_, ?_, hle⟩
  · simp [visit_next, hc, hs, hstk]
  · rw [hv.targets, hcond, hct]; rfl
  · rw [hv.stack, hc, hstk]; simp
  · intro i
    rw [visited_live _ _ _ _ _ _ hv, hlive]
    omega
  · have h1 := hv.first
    have h2 := hv.second
    rw [hcond] at h2
    simp only [Bool.false_eq_true, if_false] at h2
    rw [hrange] at h1 h2
    apply Prod.ext
    · rw [h1]
      by_cases he : cur = entry
      · simp only [he, if_true, umax]
        rw [he] at hlt'
        exact Nat.min_eq_left (by omega)
      · simp only [he, if_false]
        exact Nat.min_eq_right hle
    · rw [h2]
      by_cases he : cur = entry
      · simp only [he, if_true]
        exact Nat.max_eq_left (Nat.zero_le _)
      · simp only [he, if_false]
        exact Nat.max_eq_left (Nat.sub_le _ _)

theorem no_branch_loop (data : Nat → Nat) (entry : Nat) :
    ∀ fuel cur ct s ct' s', no_branch_head entry cur ct s →
      walk_loop data false fuel cur ct s = .done (ct', s') → no_branch_done entry ct' s' := by
  apply walk_loop_induction data false (no_branch_head entry) (no_branch_done entry)
  · intro cur ct s cur' ct' s' hJ h
    rcases walk_iteration_cases data false cur ct s with
      ⟨_, hf⟩ | ⟨hlt, hlive, _, hn⟩ | ⟨_, _, hfe, _⟩ |
      ⟨hlt, hfresh, ct1, s1, hv, hn | ⟨hs, _⟩⟩
    · rw [hf] at h; simp at h
    · rw [hn] at h
      simp only [loop_ctl.next.injEq] at h
      obtain ⟨rfl, rfl, rfl⟩ := h
      intro hb
      obtain ⟨_, _, _, hl, _⟩ := hJ hb
      have := (hl cur).1 hlive
      omega
    · simp at hfe
    · rw [hn] at h
      simp only [loop_ctl.next.injEq] at h
      obtain ⟨rfl, rfl, rfl⟩ := h
      intro hb
      obtain ⟨h1, h2, h3, h4, h5, h6⟩ :=
        visited_no_branch _ entry cur ct s ct1 s1 hlt hv hJ hb
      rw [h1]
      refine ⟨h2, h3, by omega, ?_, ?_⟩
      · intro i; rw [h4]; omega
      · rw [h5, if_neg (by omega)]; rfl
    · rw [hs] at h; simp at h
  · intro cur ct s ct' s' hJ h
    rcases walk_iteration_cases data false cur ct s with
      ⟨_, hf⟩ | ⟨_, _, _, hn⟩ | ⟨_, _, hfe, _⟩ |
      ⟨hlt, hfresh, ct1, s1, hv, hn | ⟨hs, _⟩⟩
    · rw [hf] at h; simp at h
    · rw [hn] at h; simp at h
    · simp at hfe
    · rw [hn] at h; simp at h
    · rw [hs] at h
      simp only [loop_ctl.stop.injEq] at h
      obtain ⟨rfl, rfl⟩ := h
      intro hb
      obtain ⟨_, h2, _, h4, h5, h6⟩ :=
        visited_no_branch _ entry cur ct s ct1 s1 hlt hv hJ hb
      exact ⟨h2, cur, h6, h4, h5⟩

theorem walk_function_branch_mono (oob : undefined_reads) (data : Nat → Nat) :
    ∀ depth (_X : List Nat) start fe s s', s.has_branch_instruction = true →
      walk_function oob data depth start fe s = .done s' → s'.has_branch_instruction = true := by
  apply walk_function_induction oob data (fun _ _ _ s => s.has_branch_instruction = true)
    (fun _ s => s.has_branch_instruction = true)
  · intro fe X cur ct s cur' ct' s' hJ h
    rcases walk_iteration_cases data fe cur ct s with
      ⟨_, hf⟩ | ⟨_, _, _, hn⟩ | ⟨_, _, _, hs⟩ | ⟨_, _, ct1, s1, hv, hn | ⟨hs, _⟩⟩
    · rw [hf] at h; simp at h
    · rw [hn] at h
      simp only [loop_ctl.next.injEq] at h
      obtain ⟨rfl, rfl, rfl⟩ := h
      exact hJ
    · rw [hs] at h; simp at h
    · rw [hn] at h
      simp only [loop_ctl.next.injEq] at h
      obtain ⟨rfl, rfl, rfl⟩ := h
      rw [hv.branch, hJ]; rfl
    · rw [hs] at h; simp at h
  · intro fe X cur ct s ct' s' hJ h
    rcases walk_iteration_cases data fe cur ct s with
      ⟨_, hf⟩ | ⟨_, _, _, hn⟩ | ⟨_, _, _, hs⟩ | ⟨_, _, ct1, s1, hv, hn | ⟨hs, _⟩⟩
    · rw [hf] at h; simp at h
    · rw [hn] at h; simp at h
    · rw [hs] at h
      simp only [loop_ctl.stop.injEq] at h
      obtain ⟨rfl, rfl⟩ := h
      exact hJ
    · rw [hn] at h; simp at h
    · rw [hs] at h
      simp only [loop_ctl.stop.injEq] at h
      obtain ⟨rfl, rfl⟩ := h
      rw [hv.branch, hJ]; rfl
  · intro X t s hK _; exact hK
  · intro X t s hK _; exact hK
  · intro X t s hK _; exact hK

/-- When the outermost walk returns without having met a branch instruction, the live
slots are exactly those of `instruction_range`, which starts at `entry`. -/
theorem walk_no_branch (oob : undefined_reads) (data : Nat → Nat)
    (entry depth : Nat) (s : walk_state)
    (h : walk_function oob data depth entry false walk_state.init = .done s)
    (hb : s.has_branch_instruction = false) :
    s.instruction_range.1 = entry ∧ entry ≤ s.instruction_range.2 ∧
    ∀ i, s.instruction_mask.testBit i = true ↔
      (entry ≤ i ∧ i ≤ s.instruction_range.2) := by
  cases depth with
  | zero => simp [walk_function] at h
  | succ d =>
    simp only [walk_function] at h
    split at h
    · rename_i ct1 s1 heq
      have hK := no_branch_loop data entry _ _ _ _ _ _ (by
        intro _
        refine ⟨rfl, rfl, Nat.le_refl _, ?_, by simp [walk_state.init]⟩
        intro i; simp [walk_state.init]) heq
      have hb1 : s1.has_branch_instruction = false := by
        cases hx : s1.has_branch_instruction with
        | false => rfl
        | true =>
          have := walk_targets_induction oob
            (fun target s => walk_function oob data d target true s)
            (fun _ s => s.has_branch_instruction = true)
            (fun _ _ _ hK _ => hK) (fun _ _ _ hK _ => hK)
            (fun X t s s' hK _ hw => walk_function_branch_mono oob data d X t true s s' hK hw)
            ct1 [] s1 s hx h
          rw [this] at hb; simp at hb
      obtain ⟨hct, last, hle, hlive, hrange⟩ := hK hb1
      subst hct
      simp only [walk_targets, outcome.done.injEq] at h
      subst h
      rw [hrange]
      exact ⟨rfl, hle, hlive⟩
    · simp at h
    · simp at h

/-! ## The analysed program -/

/-- When the outermost walk returns, `instruction_range` holds `entry`, starts on a live
slot, and ends on a live slot or past the image. -/
theorem walk_done_range (data : Nat → Nat) (entry : Nat) (s : walk_state)
    (hinv : walk_done_inv data entry [] s) :
    s.instruction_range.1 ≤ entry ∧ entry ≤ s.instruction_range.2 ∧
    entry < 512 ∧
    s.instruction_mask.testBit s.instruction_range.1 = true ∧
    (s.instruction_mask.testBit s.instruction_range.2 = true ∨
      512 ≤ s.instruction_range.2) := by
  obtain ⟨⟨h1, _, _, h4⟩, _, hr, he⟩ := hinv
  obtain ⟨a, b, c⟩ := h1 entry he
  have c' : entry < 512 := c
  have hf : s.instruction_mask.testBit s.instruction_range.1 = true := by
    rcases h4 with h | h
    · rw [h] at a; simp only [umax] at a; omega
    · exact h
  have hs : s.instruction_mask.testBit s.instruction_range.2 = true ∨
      512 ≤ s.instruction_range.2 := by
    rcases hr with h | h | h | h
    · have e : entry = s.instruction_range.2 := by omega
      rw [← e]; exact Or.inl he
    · exact Or.inl h
    · simp at h
    · exact Or.inr h
  exact ⟨a, b, c', hf, hs⟩

/-- When the outermost walk returns with the end of `instruction_range` below 512, that
end is a live slot. -/
theorem walk_done_range_end (data : Nat → Nat) (entry : Nat) (s : walk_state)
    (hinv : walk_done_inv data entry [] s) (hin : s.instruction_range.2 < 512) :
    s.instruction_mask.testBit s.instruction_range.2 = true := by
  rcases (walk_done_range data entry s hinv).2.2.2.2 with h | h
  · exact h
  · omega

theorem instruction_count_eq (first second : Nat) (h1 : first ≤ second) (h2 : second < 1024) :
    u32_add (u32_sub second first) 1 = second - first + 1 := by
  unfold u32_add u32_sub
  omega

theorem emit_program_spec (oob : undefined_reads) (data : Nat → Nat) (entry : Nat)
    (dst : RSXVertexProgram) (s : walk_state) (hinv : walk_done_inv data entry [] s)
    (h3 : s.instruction_range.2 < 1024)
    (hnb : s.has_branch_instruction = false →
      s.instruction_range.1 = entry ∧
      ∀ i, s.instruction_mask.testBit i = true ↔ (entry ≤ i ∧ i ≤ s.instruction_range.2)) :
    ∃ r p, emit_program oob data entry dst s = .done (r, p) ∧
      analysed oob data entry dst s r p := by
  obtain ⟨h1, h2, _, h4, h5⟩ := walk_done_range data entry s hinv
  have hcount := instruction_count_eq _ _ (Nat.le_trans h1 h2) h3
  have hle : s.instruction_range.1 ≤ s.instruction_range.2 := Nat.le_trans h1 h2
  have e16 : (s.instruction_range.2 - s.instruction_range.1 + 1) * 16 % 4294967296
      = (s.instruction_range.2 - s.instruction_range.1 + 1) * 16 := by omega
  have e4 : (s.instruction_range.2 - s.instruction_range.1 + 1) * 4 % 4294967296
      = (s.instruction_range.2 - s.instruction_range.1 + 1) * 4 := by omega
  have ediv : (s.instruction_range.2 - s.instruction_range.1 + 1) * 16 / 4
      = (s.instruction_range.2 - s.instruction_range.1 + 1) * 4 := by omega
  have esub : s.instruction_range.2 + 1 - s.instruction_range.1
      = s.instruction_range.2 - s.instruction_range.1 + 1 := by omega
  unfold emit_program
  simp only [hcount, e16, e4, ediv, esub]
  cases hb : s.has_branch_instruction with
  | false =>
    obtain ⟨hfe, hlive⟩ := hnb hb
    simp only [Bool.not_false, if_true, hfe]
    refine ⟨_, _, rfl, ?_⟩
    obtain ⟨m1, m2⟩ := memcpy_words_spec data (entry * 4)
      ((s.instruction_range.2 - entry + 1) * 4)
      (vector_resize dst.data ((s.instruction_range.2 - entry + 1) * 4))
      (by rw [vector_resize_length])
    refine ⟨rfl, by rw [hfe], rfl, rfl, by rw [hfe], rfl, by rw [hfe], rfl, rfl, ?_, ?_, ?_⟩
    · show (memcpy_words _ _ _ _).length = _
      rw [m1, vector_resize_length, hfe]
    · intro c hc
      rw [hfe] at hc
      show vector_slot (memcpy_words _ _ _ _) c = _
      have hl : s.instruction_mask.testBit (s.instruction_range.1 + c) = true := by
        rw [hlive, hfe]; omega
      have hlt : s.instruction_range.1 + c < max_vertex_program_instructions :=
        (hinv.1.1 _ hl).2.2
      rw [emitted_inst_lt oob data s c hlt]
      have hp : s.instructions_to_patch.testBit (s.instruction_range.1 + c) = false := by
        cases hx : s.instructions_to_patch.testBit (s.instruction_range.1 + c) with
        | false => rfl
        | true =>
          have := (hinv.1.2.1 _).1 hx
          rw [hinv.1.2.2.1 hb _ this.1] at this
          simp at this
      simp only [hl, hp, if_true, Bool.false_eq_true, if_false]
      simp only [vector_slot, v128.loadu, m2, hfe]
      rw [if_pos (by omega), if_pos (by omega), if_pos (by omega), if_pos (by omega)]
      have a0 : entry * 4 + c * 4 = (entry + c) * 4 := by omega
      have a1 : entry * 4 + (c * 4 + 1) = (entry + c) * 4 + 1 := by omega
      have a2 : entry * 4 + (c * 4 + 2) = (entry + c) * 4 + 2 := by omega
      have a3 : entry * 4 + (c * 4 + 3) = (entry + c) * 4 + 3 := by omega
      rw [a0, a1, a2, a3]
    · rw [hb]; rfl
  | true =>
    simp only [Bool.not_true, Bool.false_eq_true, if_false]
    refine ⟨_, _, rfl, ?_⟩
    obtain ⟨f1, f2, f3⟩ := emit_fold oob data s
      (s.instruction_range.2 - s.instruction_range.1 + 1)
      (vector_resize dst.data ((s.instruction_range.2 - s.instruction_range.1 + 1) * 4),
        dst.jump_table) (by rw [vector_resize_length])
    refine ⟨rfl, rfl, rfl, rfl, rfl, rfl, rfl, rfl, rfl, ?_, ?_, ?_⟩
    · exact f1.trans (vector_resize_length _ _)
    · intro c hc
      exact f2 c hc
    · rw [hb, if_pos rfl]; exact f3

/-- When `analyse_vertex_program` returns, the outermost walk returned in a state `s` that
satisfies the invariants of the walk and determines the returned metadata and program. -/
theorem analyse_vertex_program_done (oob : undefined_reads) (data : Nat → Nat)
    (entry : Nat) (dst : RSXVertexProgram)
    (r : vertex_program_metadata) (p : RSXVertexProgram)
    (h : analyse_vertex_program oob data entry dst = .done (r, p)) :
    ∃ s, walk_function oob data walk_depth entry false walk_state.init = .done s ∧
      walk_done_inv data entry [] s ∧ analysed oob data entry dst s r p := by
  unfold analyse_vertex_program at h
  split at h
  · rename_i s hs
    have hinv := walk_done oob data entry walk_depth s hs
    obtain ⟨r', p', he, ha⟩ := emit_program_spec oob data entry dst s hinv
      (walk_done_bounds oob data entry walk_depth s hs)
      (fun hb => by
        obtain ⟨a, _, c⟩ := walk_no_branch oob data entry walk_depth s hs hb
        exact ⟨a, c⟩)
    rw [he] at h
    simp only [outcome.done.injEq, Prod.mk.injEq] at h
    obtain ⟨rfl, rfl⟩ := h
    exact ⟨s, hs, hinv, ha⟩
  · simp at h
  · simp at h

/-- When the outermost walk returns, so does `analyse_vertex_program`: the assertion
`ensure(instruction_range.first == entry)` of the emission cannot fail. -/
theorem analyse_vertex_program_of_walk (oob : undefined_reads) (data : Nat → Nat) (entry : Nat)
    (dst : RSXVertexProgram) (s : walk_state)
    (hs : walk_function oob data walk_depth entry false walk_state.init = .done s) :
    ∃ r p, analyse_vertex_program oob data entry dst = .done (r, p) ∧
      analysed oob data entry dst s r p := by
  have hinv := walk_done oob data entry walk_depth s hs
  obtain ⟨r', p', he, ha⟩ := emit_program_spec oob data entry dst s hinv
    (walk_done_bounds oob data entry walk_depth s hs)
    (fun hb => by
      obtain ⟨a, _, c⟩ := walk_no_branch oob data entry walk_depth s hs hb
      exact ⟨a, c⟩)
  refine ⟨r', p', ?_, ha⟩
  unfold analyse_vertex_program
  rw [hs]
  exact he

/-! ## Independence from the undefined reads -/

theorem walk_loop_targets_le (data : Nat → Nat) (fe : Bool) :
    ∀ fuel cur ct s ct' s', (∀ t ∈ ct, t ≤ s.instruction_range.2) →
      walk_loop data fe fuel cur ct s = .done (ct', s') →
      ∀ t ∈ ct', t ≤ s'.instruction_range.2 := by
  apply walk_loop_induction data fe (fun _ ct s => ∀ t ∈ ct, t ≤ s.instruction_range.2)
    (fun ct s => ∀ t ∈ ct, t ≤ s.instruction_range.2)
  · intro cur ct s cur' ct' s' hJ h
    rcases walk_iteration_cases data fe cur ct s with
      ⟨_, hf⟩ | ⟨_, _, _, hn⟩ | ⟨_, _, _, hs⟩ | ⟨_, _, ct1, s1, hv, hn | ⟨hs, _⟩⟩
    · rw [hf] at h; simp at h
    · rw [hn] at h
      simp only [loop_ctl.next.injEq] at h
      obtain ⟨rfl, rfl, rfl⟩ := h
      exact hJ
    · rw [hs] at h; simp at h
    · rw [hn] at h
      simp only [loop_ctl.next.injEq] at h
      obtain ⟨rfl, rfl, rfl⟩ := h
      intro t ht
      have hmono := visited_second_mono _ _ _ _ _ _ hv
      rw [hv.targets] at ht
      by_cases hcond : is_conditional (v128.loadu data cur) = true
      · rw [if_pos hcond] at ht
        rcases (mem_set_emplace _ _ _).1 ht with h | h
        · rw [h, hv.second, if_pos hcond]; omega
        · have := hJ t h; omega
      · rw [if_neg hcond] at ht
        have := hJ t ht; omega
    · rw [hs] at h; simp at h
  · intro cur ct s ct' s' hJ h
    rcases walk_iteration_cases data fe cur ct s with
      ⟨_, hf⟩ | ⟨_, _, _, hn⟩ | ⟨_, _, _, hs⟩ | ⟨_, _, ct1, s1, hv, hn | ⟨hs, _⟩⟩
    · rw [hf] at h; simp at h
    · rw [hn] at h; simp at h
    · rw [hs] at h
      simp only [loop_ctl.stop.injEq] at h
      obtain ⟨rfl, rfl⟩ := h
      exact hJ
    · rw [hn] at h; simp at h
    · rw [hs] at h
      simp only [loop_ctl.stop.injEq] at h
      obtain ⟨rfl, rfl⟩ := h
      intro t ht
      have hmono := visited_second_mono _ _ _ _ _ _ hv
      rw [hv.targets] at ht
      by_cases hcond : is_conditional (v128.loadu data cur) = true
      · rw [if_pos hcond] at ht
        rcases (mem_set_emplace _ _ _).1 ht with h | h
        · rw [h, hv.second, if_pos hcond]; omega
        · have := hJ t h; omega
      · rw [if_neg hcond] at ht
        have := hJ t ht; omega

/-- The end of `instruction_range` never decreases during a walk. -/
theorem walk_function_second_mono (oob : undefined_reads) (data : Nat → Nat) (n : Nat) :
    ∀ depth (_X : List Nat) start fe s s', n ≤ s.instruction_range.2 →
      walk_function oob data depth start fe s = .done s' → n ≤ s'.instruction_range.2 := by
  apply walk_function_induction oob data (fun _ _ _ s => n ≤ s.instruction_range.2)
    (fun _ s => n ≤ s.instruction_range.2)
  · intro fe X cur ct s cur' ct' s' hJ h
    rcases walk_iteration_cases data fe cur ct s with
      ⟨_, hf⟩ | ⟨_, _, _, hn⟩ | ⟨_, _, _, hs⟩ | ⟨_, _, ct1, s1, hv, hn | ⟨hs, _⟩⟩
    · rw [hf] at h; simp at h
    · rw [hn] at h
      simp only [loop_ctl.next.injEq] at h
      obtain ⟨rfl, rfl, rfl⟩ := h
      exact hJ
    · rw [hs] at h; simp at h
    · rw [hn] at h
      simp only [loop_ctl.next.injEq] at h
      obtain ⟨rfl, rfl, rfl⟩ := h
      have hmono := visited_second_mono _ _ _ _ _ _ hv
      show n ≤ _
      omega
    · rw [hs] at h; simp at h
  · intro fe X cur ct s ct' s' hJ h
    rcases walk_iteration_cases data fe cur ct s with
      ⟨_, hf⟩ | ⟨_, _, _, hn⟩ | ⟨_, _, _, hs⟩ | ⟨_, _, ct1, s1, hv, hn | ⟨hs, _⟩⟩
    · rw [hf] at h; simp at h
    · rw [hn] at h; simp at h
    · rw [hs] at h
      simp only [loop_ctl.stop.injEq] at h
      obtain ⟨rfl, rfl⟩ := h
      exact hJ
    · rw [hn] at h; simp at h
    · rw [hs] at h
      simp only [loop_ctl.stop.injEq] at h
      obtain ⟨rfl, rfl⟩ := h
      have hmono := visited_second_mono _ _ _ _ _ _ hv
      show n ≤ _
      omega
  · intro X t s hK _; exact hK
  · intro X t s hK _; exact hK
  · intro X t s hK _; exact hK

theorem walk_targets_second_mono (oob : undefined_reads) (data : Nat → Nat) (d n : Nat)
    (l : List Nat) (s s' : walk_state) (hn : n ≤ s.instruction_range.2)
    (h : walk_targets oob (fun target s => walk_function oob data d target true s) l s
      = .done s') :
    n ≤ s'.instruction_range.2 :=
  walk_targets_induction oob (fun target s => walk_function oob data d target true s)
    (fun _ s => n ≤ s.instruction_range.2)
    (fun _ _ _ hK _ => hK) (fun _ _ _ hK _ => hK)
    (fun X t s s' hK _ hw => walk_function_second_mono oob data n d X t true s s' hK hw)
    l [] s s' hn h

theorem walk_targets_reads (oob oob' : undefined_reads) (data : Nat → Nat) (d : Nat)
    (ih : ∀ start fe s s', walk_function oob data d start fe s = .done s' →
      s'.instruction_range.2 < max_vertex_program_instructions →
      walk_function oob' data d start fe s = .done s') :
    ∀ (l : List Nat) (s s' : walk_state), (∀ t ∈ l, t ≤ s.instruction_range.2) →
      walk_targets oob (fun target s => walk_function oob data d target true s) l s
        = .done s' →
      s'.instruction_range.2 < max_vertex_program_instructions →
      walk_targets oob' (fun target s => walk_function oob' data d target true s) l s
        = .done s' := by
  intro l
  induction l with
  | nil =>
    intro s s' _ h _
    simpa only [walk_targets] using h
  | cons t rest ihl =>
    intro s s' hle h hin
    have hmono := walk_targets_second_mono oob data d s.instruction_range.2 (t :: rest) s s'
      (Nat.le_refl _) h
    have ht : t < max_vertex_program_instructions := by
      have := hle t (List.mem_cons_self _ _)
      omega
    simp only [walk_targets, bitset_test_lt _ _ _ ht] at h ⊢
    by_cases hl : s.instruction_mask.testBit t = true
    · simp only [hl, Bool.not_true, Bool.false_eq_true, if_false] at h ⊢
      exact ihl s s' (fun x hx => hle x (List.mem_cons_of_mem _ hx)) h hin
    · have hl' : s.instruction_mask.testBit t = false := by simpa using hl
      simp only [hl', Bool.not_false, if_true] at h ⊢
      split at h
      · rename_i s1 heq
        have h1 := walk_function_second_mono oob data s.instruction_range.2 d [] t true s s1
          (Nat.le_refl _) heq
        have h2 := walk_targets_second_mono oob data d s1.instruction_range.2 rest s1 s'
          (Nat.le_refl _) h
        rw [ih t true s s1 heq (by omega)]
        exact ihl s1 s' (fun x hx => by
          have := hle x (List.mem_cons_of_mem _ hx)
          omega) h hin
      · simp at h
      · simp at h

/-- A walk that returns with the end of `instruction_range` below 512 has read no bitset
past its end: it returns the same state whatever such reads yield. -/
theorem walk_function_reads (oob oob' : undefined_reads) (data : Nat → Nat) :
    ∀ depth start fe s s', walk_function oob data depth start fe s = .done s' →
      s'.instruction_range.2 < max_vertex_program_instructions →
      walk_function oob' data depth start fe s = .done s' := by
  intro depth
  induction depth with
  | zero => intro start fe s s' h; simp [walk_function] at h
  | succ d ih =>
    intro start fe s s' h hin
    simp only [walk_function] at h ⊢
    split at h
    · rename_i ct1 s1 heq
      exact walk_targets_reads oob oob' data d ih ct1 s1 s'
        (walk_loop_targets_le data fe _ _ _ _ _ _ (fun t ht => by simp at ht) heq) h hin
    · simp at h
    · simp at h

theorem emit_slot_reads (oob oob' : undefined_reads) (data : Nat → Nat) (s : walk_state)
    (acc : List Nat × List Nat) (count : Nat)
    (h : s.instruction_range.1 + count < max_vertex_program_instructions) :
    emit_slot oob data s acc count = emit_slot oob' data s acc count := by
  simp only [emit_slot, bitset_test_lt _ _ _ h]

theorem emit_program_reads (oob oob' : undefined_reads) (data : Nat → Nat) (entry : Nat)
    (dst : RSXVertexProgram) (s : walk_state)
    (hin : s.instruction_range.2 < max_vertex_program_instructions) :
    emit_program oob data entry dst s = emit_program oob' data entry dst s := by
  have hin' : s.instruction_range.2 < 512 := hin
  unfold emit_program
  have e : ∀ acc, (List.range (s.instruction_range.2 + 1 - s.instruction_range.1)).foldl
      (emit_slot oob data s) acc =
      (List.range (s.instruction_range.2 + 1 - s.instruction_range.1)).foldl
      (emit_slot oob' data s) acc := by
    intro acc
    apply List.foldl_ext
    intro a b hb
    apply emit_slot_reads
    have := List.mem_range.1 hb
    show _ < 512
    omega
  simp only [e]

/-- The extracted range ends inside the image exactly when the end of `instruction_range`
is below 512. -/
theorem analysed_in_range (oob : undefined_reads) (data : Nat → Nat) (entry : Nat)
    (dst : RSXVertexProgram) (s : walk_state) (r : vertex_program_metadata)
    (p : RSXVertexProgram) (hinv : walk_done_inv data entry [] s)
    (ha : analysed oob data entry dst s r p) :
    p.base_address + instruction_count r ≤ max_vertex_program_instructions ↔
      s.instruction_range.2 < max_vertex_program_instructions := by
  obtain ⟨h1, h2, _⟩ := walk_done_range data entry s hinv
  have hc : instruction_count r = s.instruction_range.2 - s.instruction_range.1 + 1 := by
    unfold instruction_count
    rw [ha.ucode_length]
    omega
  rw [ha.base, hc]
  show _ ≤ 512 ↔ _ < 512
  omega

/-- When `analyse_vertex_program` returns a range that ends inside the image, it has read
no bitset past its end: it returns the same whatever such reads yield. -/
theorem analyse_vertex_program_reads (oob oob' : undefined_reads) (data : Nat → Nat)
    (entry : Nat) (dst : RSXVertexProgram) (r : vertex_program_metadata)
    (p : RSXVertexProgram) (h : analyse_vertex_program oob data entry dst = .done (r, p))
    (hin : p.base_address + instruction_count r ≤ max_vertex_program_instructions) :
    analyse_vertex_program oob' data entry dst = .done (r, p) := by
  obtain ⟨s, hs, hinv, ha⟩ := analyse_vertex_program_done oob data entry dst r p h
  have hsec := (analysed_in_range oob data entry dst s r p hinv ha).1 hin
  have hs' := walk_function_reads oob oob' data walk_depth entry false _ s hs hsec
  unfold analyse_vertex_program at h ⊢
  rw [hs] at h
  rw [hs']
  simp only at h ⊢
  rw [← emit_program_reads oob oob' data entry dst s hsec]
  exact h

theorem visited_range_end_source (data : Nat → Nat) (cur : Nat) (ct : List Nat)
    (s : walk_state) (ct' : List Nat) (s' : walk_state)
    (hv : visited (v128.loadu data cur) cur ct s ct' s') (h : range_end_source data s) :
    range_end_source data s' := by
  have hlive := visited_live _ _ _ _ _ _ hv
  have hold : s'.instruction_mask.testBit (max cur s.instruction_range.2) = true ∨
      max cur s.instruction_range.2 = 0 ∨
      ∃ i, s'.instruction_mask.testBit i = true ∧ is_conditional (v128.loadu data i) = true ∧
        jump_address (v128.loadu data i) = max cur s.instruction_range.2 := by
    by_cases hc : s.instruction_range.2 ≤ cur
    · rw [Nat.max_eq_left hc]
      exact Or.inl ((hlive _).2 (Or.inr rfl))
    · rw [Nat.max_eq_right (by omega)]
      rcases h with h | h | ⟨i, hi, hci, hji⟩
      · exact Or.inr (Or.inl h)
      · exact Or.inl ((hlive _).2 (Or.inl h))
      · exact Or.inr (Or.inr ⟨i, (hlive _).2 (Or.inl hi), hci, hji⟩)
  unfold range_end_source
  rw [hv.second]
  by_cases hcond : is_conditional (v128.loadu data cur) = true
  · rw [if_pos hcond]
    by_cases hc : max cur s.instruction_range.2 ≤ jump_address (v128.loadu data cur)
    · rw [Nat.max_eq_left hc]
      exact Or.inr (Or.inr ⟨cur, (hlive _).2 (Or.inr rfl), hcond, rfl⟩)
    · rw [Nat.max_eq_right (by omega)]
      rcases hold with h | h | h
      · exact Or.inr (Or.inl h)
      · exact Or.inl h
      · exact Or.inr (Or.inr h)
  · rw [if_neg hcond]
    rcases hold with h | h | h
    · exact Or.inr (Or.inl h)
    · exact Or.inl h
    · exact Or.inr (Or.inr h)

theorem walk_function_range_end_source (oob : undefined_reads) (data : Nat → Nat) :
    ∀ depth (_X : List Nat) start fe s s', range_end_source data s →
      walk_function oob data depth start fe s = .done s' → range_end_source data s' := by
  apply walk_function_induction oob data (fun _ _ _ s => range_end_source data s)
    (fun _ s => range_end_source data s)
  · intro fe X cur ct s cur' ct' s' hJ h
    rcases walk_iteration_cases data fe cur ct s with
      ⟨_, hf⟩ | ⟨_, _, _, hn⟩ | ⟨_, _, _, hs⟩ | ⟨_, _, ct1, s1, hv, hn | ⟨hs, _⟩⟩
    · rw [hf] at h; simp at h
    · rw [hn] at h
      simp only [loop_ctl.next.injEq] at h
      obtain ⟨rfl, rfl, rfl⟩ := h
      exact hJ
    · rw [hs] at h; simp at h
    · rw [hn] at h
      simp only [loop_ctl.next.injEq] at h
      obtain ⟨rfl, rfl, rfl⟩ := h
      exact visited_range_end_source data cur ct s ct1 s1 hv hJ
    · rw [hs] at h; simp at h
  · intro fe X cur ct s ct' s' hJ h
    rcases walk_iteration_cases data fe cur ct s with
      ⟨_, hf⟩ | ⟨_, _, _, hn⟩ | ⟨_, _, _, hs⟩ | ⟨_, _, ct1, s1, hv, hn | ⟨hs, _⟩⟩
    · rw [hf] at h; simp at h
    · rw [hn] at h; simp at h
    · rw [hs] at h
      simp only [loop_ctl.stop.injEq] at h
      obtain ⟨rfl, rfl⟩ := h
      exact hJ
    · rw [hn] at h; simp at h
    · rw [hs] at h
      simp only [loop_ctl.stop.injEq] at h
      obtain ⟨rfl, rfl⟩ := h
      exact visited_range_end_source data cur ct s ct1 s1 hv hJ
  · intro X t s hK _; exact hK
  · intro X t s hK _; exact hK
  · intro X t s hK _; exact hK

/-- When every conditional branch the walk met has its target below 512, the extracted
range ends inside the image: no bitset was read past its end. -/
theorem analyse_vertex_program_in_range (oob : undefined_reads) (data : Nat → Nat)
    (entry : Nat) (dst : RSXVertexProgram) (r : vertex_program_metadata) (p : RSXVertexProgram)
    (h : analyse_vertex_program oob data entry dst = .done (r, p))
    (hcond : ∀ i, r.instruction_mask.testBit i = true →
      is_conditional (v128.loadu data i) = true →
      jump_address (v128.loadu data i) < max_vertex_program_instructions) :
    p.base_address + instruction_count r ≤ max_vertex_program_instructions := by
  obtain ⟨s, hs, hinv, ha⟩ := analyse_vertex_program_done oob data entry dst r p h
  rw [analysed_in_range oob data entry dst s r p hinv ha]
  have hsrc := walk_function_range_end_source oob data walk_depth [] entry false _ s
    (Or.inl rfl) hs
  rw [ha.result_mask] at hcond
  rcases hsrc with h0 | hl | ⟨i, hi, hci, hji⟩
  · rw [h0]; decide
  · exact (hinv.1.1 _ hl).2.2
  · rw [← hji]; exact hcond i hi hci

/-! ## Claims on the analysed vertex program -/

theorem analysed_live (oob : undefined_reads) (data : Nat → Nat)
    (entry : Nat) (dst : RSXVertexProgram)
    (s : walk_state) (r : vertex_program_metadata) (p : RSXVertexProgram)
    (hinv : walk_done_inv data entry [] s) (ha : analysed oob data entry dst s r p) (i : Nat)
    (hi : p.instruction_mask.testBit i = true) :
    s.instruction_mask.testBit (s.instruction_range.1 + i) = true ∧
    i < s.instruction_range.2 - s.instruction_range.1 + 1 := by
  rw [ha.mask, Nat.testBit_shiftRight] at hi
  have := hinv.1.1 _ hi
  exact ⟨hi, by omega⟩

/-- C3: after `analyse_vertex_program` completes without a hard fault, for every bit `i`
set in `dst.instruction_mask` the four words `dst.data[4i..4i+3]` (which lie inside
`dst.data`) equal the source words `data[4(base+i)..4(base+i)+3]`, unless the slot
`base+i` was marked for patching (its scalar opcode is `BRI`, `BRB`, `CAL`, `CLI` or
`CLB`), in which case word 1 is unchanged and the address decoded from the output slot
is the original decoded target minus `base`, without wrap-around (`base` is at most the
original target). -/
theorem analyse_vertex_program_live_slots (oob : undefined_reads) (data : Nat → Nat)
    (entry : Nat) (dst : RSXVertexProgram) (r : vertex_program_metadata) (p : RSXVertexProgram)
    (h : analyse_vertex_program oob data entry dst = .done (r, p)) (i : Nat)
    (hi : p.instruction_mask.testBit i = true) :
    i * 4 + 3 < p.data.length ∧
    (if is_branch (v128.loadu data (p.base_address + i)) then
      (vector_slot p.data i)._u32_1 = (v128.loadu data (p.base_address + i))._u32_1 ∧
      p.base_address ≤ jump_address (v128.loadu data (p.base_address + i)) ∧
      jump_address (vector_slot p.data i) =
        jump_address (v128.loadu data (p.base_address + i)) - p.base_address
    else vector_slot p.data i = v128.loadu data (p.base_address + i)) := by
  obtain ⟨s, _, hinv, ha⟩ := analyse_vertex_program_done oob data entry dst r p h
  obtain ⟨hl, hc⟩ := analysed_live oob data entry dst s r p hinv ha i hi
  refine ⟨by rw [ha.length]; omega, ?_⟩
  have hl512 : s.instruction_range.1 + i < max_vertex_program_instructions :=
    (hinv.1.1 _ hl).2.2
  rw [ha.slots i hc, ha.base, emitted_inst_lt oob data s i hl512]
  have hpatch := hinv.1.2.1 (s.instruction_range.1 + i)
  by_cases hb : is_branch (v128.loadu data (s.instruction_range.1 + i)) = true
  · have hp : s.instructions_to_patch.testBit (s.instruction_range.1 + i) = true :=
      hpatch.2 ⟨hl, hb⟩
    rw [if_pos hb]
    simp only [hl, hp, if_true]
    have hge : s.instruction_range.1 ≤
        jump_address (v128.loadu data (s.instruction_range.1 + i)) := by
      rcases hinv.2.1 _ hp with h | h | h
      · exact (hinv.1.1 _ h).1
      · simp at h
      · exact Nat.le_trans (Nat.le_trans (Nat.le_add_right _ i) (Nat.le_of_lt hl512)) h.1
    have hlt := jump_address_lt (v128.loadu data (s.instruction_range.1 + i))
    refine ⟨rfl, hge, ?_⟩
    rw [jump_address_patch]
    unfold u32_sub
    omega
  · have hp : s.instructions_to_patch.testBit (s.instruction_range.1 + i) = false := by
      cases hx : s.instructions_to_patch.testBit (s.instruction_range.1 + i) with
      | false => rfl
      | true => exact absurd (hpatch.1 hx).2 hb
    rw [if_neg hb]
    simp only [hl, hp, if_true, Bool.false_eq_true, if_false]

set_option maxRecDepth 100000 in
/-- Witness of C3: the forward static branch uploaded at slot 3; its slot 0 is a patched
branch, whose target 8 becomes 5. -/
theorem analyse_vertex_program_live_slots_witness :
    analyse_vertex_program reads_bits (static_branch_image 3 0xFFFFFFFF) 3 RSXVertexProgram.fresh
      = .done (⟨264, 96, 0, 1⟩,
        ⟨[7168, 1207959552, 0, 2684354560, 0, 0, 0, 0, 0, 0, 0, 0, 0, 0, 0, 0, 0, 0, 0, 0,
          0, 0, 0, 1], ⟨0, 0, 0⟩, 0, 3, 3, 33, [5]⟩) ∧
    is_branch (v128.loadu (static_branch_image 3 0xFFFFFFFF) (3 + 0)) = true ∧
    jump_address (v128.loadu (static_branch_image 3 0xFFFFFFFF) (3 + 0)) = 8 ∧
    0 * 4 + 3 < 24 ∧
    (if is_branch (v128.loadu (static_branch_image 3 0xFFFFFFFF) (3 + 0)) then
      (vector_slot [7168, 1207959552, 0, 2684354560, 0, 0, 0, 0, 0, 0, 0, 0, 0, 0, 0, 0, 0,
          0, 0, 0, 0, 0, 0, 1] 0)._u32_1
        = (v128.loadu (static_branch_image 3 0xFFFFFFFF) (3 + 0))._u32_1 ∧
      3 ≤ jump_address (v128.loadu (static_branch_image 3 0xFFFFFFFF) (3 + 0)) ∧
      jump_address (vector_slot [7168, 1207959552, 0, 2684354560, 0, 0, 0, 0, 0, 0, 0, 0, 0,
          0, 0, 0, 0, 0, 0, 0, 0, 0, 0, 1] 0)
        = jump_address (v128.loadu (static_branch_image 3 0xFFFFFFFF) (3 + 0)) - 3
    else vector_slot [7168, 1207959552, 0, 2684354560, 0, 0, 0, 0, 0, 0, 0, 0, 0, 0, 0, 0,
        0, 0, 0, 0, 0, 0, 0, 1] 0
      = v128.loadu (static_branch_image 3 0xFFFFFFFF) (3 + 0)) :=
  ⟨by decide, by decide, by decide,
    analyse_vertex_program_live_slots reads_bits (static_branch_image 3 0xFFFFFFFF) 3
      RSXVertexProgram.fresh ⟨264, 96, 0, 1⟩
      ⟨[7168, 1207959552, 0, 2684354560, 0, 0, 0, 0, 0, 0, 0, 0, 0, 0, 0, 0, 0, 0, 0, 0,
        0, 0, 0, 1], ⟨0, 0, 0⟩, 0, 3, 3, 33, [5]⟩ (by decide) 0 (by decide)⟩

theorem instruction_count_analysed (oob : undefined_reads) (data : Nat → Nat) (entry : Nat)
    (dst : RSXVertexProgram) (s : walk_state) (r : vertex_program_metadata) (p : RSXVertexProgram)
    (ha : analysed oob data entry dst s r p) :
    instruction_count r = s.instruction_range.2 - s.instruction_range.1 + 1 := by
  unfold instruction_count
  rw [ha.ucode_length]
  omega

/-- C4, as the code has it: after `analyse_vertex_program` completes without a hard fault
on an output object whose jump table was empty on entry, and with the extracted range
ending inside the image (`base_address + instruction_count ≤ 512`), every target `t` in
`dst.jump_table` satisfies `t < instruction_count` and `dst.instruction_mask[t] = 1`, so
the verification loop never meets an unresolved branch target. -/
theorem analyse_vertex_program_jump_table_resolved (oob : undefined_reads) (data : Nat → Nat)
    (entry : Nat) (dst : RSXVertexProgram) (r : vertex_program_metadata) (p : RSXVertexProgram)
    (hdst : dst.jump_table = [])
    (h : analyse_vertex_program oob data entry dst = .done (r, p))
    (hin : p.base_address + instruction_count r ≤ max_vertex_program_instructions) (t : Nat)
    (ht : t ∈ p.jump_table) :
    t < instruction_count r ∧ p.instruction_mask.testBit t = true := by
  obtain ⟨s, _, hinv, ha⟩ := analyse_vertex_program_done oob data entry dst r p h
  have hsec := (analysed_in_range oob data entry dst s r p hinv ha).1 hin
  have hsec' : s.instruction_range.2 < 512 := hsec
  rw [instruction_count_analysed oob data entry dst s r p ha]
  rw [ha.jumps, hdst] at ht
  split at ht
  swap
  · simp at ht
  rw [mem_emitted_jump_fold] at ht
  rcases ht with ht | ⟨c, hc, hl, hp, rfl⟩
  · simp at ht
  obtain ⟨hr1, hr2, _⟩ := walk_done_range data entry s hinv
  have hlt : s.instruction_range.1 + c < max_vertex_program_instructions := by
    show _ < 512
    omega
  rw [bitset_test_lt _ _ _ hlt] at hl hp
  have htl : s.instruction_mask.testBit
      (jump_address (v128.loadu data (s.instruction_range.1 + c))) = true := by
    rcases hinv.2.1 _ hp with h | h | h
    · exact h
    · simp at h
    · exact absurd (Nat.le_trans h.1 h.2) (Nat.not_le.2 hsec)
  obtain ⟨h1, h2, h3⟩ := hinv.1.1 _ htl
  have h3' : jump_address (v128.loadu data (s.instruction_range.1 + c)) < 512 := h3
  have e : u32_sub (jump_address (v128.loadu data (s.instruction_range.1 + c)))
      s.instruction_range.1
      = jump_address (v128.loadu data (s.instruction_range.1 + c)) - s.instruction_range.1 := by
    unfold u32_sub; omega
  rw [e, ha.mask, Nat.testBit_shiftRight]
  refine ⟨by omega, ?_⟩
  rw [show s.instruction_range.1 +
      (jump_address (v128.loadu data (s.instruction_range.1 + c)) - s.instruction_range.1)
      = jump_address (v128.loadu data (s.instruction_range.1 + c)) by omega]
  exact htl

set_option maxRecDepth 100000 in
/-- Witness of C4: the forward static branch, whose jump table is `{5}`. -/
theorem analyse_vertex_program_jump_table_resolved_witness :
    analyse_vertex_program reads_bits (static_branch_image 0 0xFFFFFFFF) 0
        RSXVertexProgram.fresh
      = .done (⟨33, 96, 0, 1⟩,
        ⟨[7168, 1207959552, 0, 2684354560, 0, 0, 0, 0, 0, 0, 0, 0, 0, 0, 0, 0, 0, 0, 0, 0,
          0, 0, 0, 1], ⟨0, 0, 0⟩, 0, 0, 0, 33, [5]⟩) ∧
    0 + instruction_count ⟨33, 96, 0, 1⟩ ≤ max_vertex_program_instructions ∧
    5 < instruction_count ⟨33, 96, 0, 1⟩ ∧ (33 : Nat).testBit 5 = true :=
  ⟨by decide, by decide,
    analyse_vertex_program_jump_table_resolved reads_bits (static_branch_image 0 0xFFFFFFFF) 0
      RSXVertexProgram.fresh ⟨33, 96, 0, 1⟩
      ⟨[7168, 1207959552, 0, 2684354560, 0, 0, 0, 0, 0, 0, 0, 0, 0, 0, 0, 0, 0, 0, 0, 0,
        0, 0, 0, 1], ⟨0, 0, 0⟩, 0, 0, 0, 33, [5]⟩ rfl (by decide) (by decide) 5 (by decide)⟩

set_option maxRecDepth 100000 in
/-- C4 as stated fails: `analyse_vertex_program` only adds to `dst.jump_table`. Analysing
the forward static branch (slot 0 a `BRI` with `cond` 0x7 to slot 5, slot 5 with the end
bit) at entry 0 into an output object whose jump table already holds 7 completes, whatever
the undefined reads yield, with `instruction_count` 6 and the jump table `{5, 7}`: the
target 7 is not below `instruction_count` and its mask bit is 0. -/
theorem analyse_vertex_program_jump_table_counterexample :
    ∃ r p,
      (∀ oob, analyse_vertex_program oob (static_branch_image 0 0xFFFFFFFF) 0
        { RSXVertexProgram.fresh with jump_table := [7] } = .done (r, p)) ∧
      instruction_count r = 6 ∧ p.jump_table = [5, 7] ∧
      ¬ (7 < instruction_count r ∧ p.instruction_mask.testBit 7 = true) :=
  ⟨⟨33, 96, 0, 1⟩,
    ⟨[7168, 1207959552, 0, 2684354560, 0, 0, 0, 0, 0, 0, 0, 0, 0, 0, 0, 0, 0, 0, 0, 0,
      0, 0, 0, 1], ⟨0, 0, 0⟩, 0, 0, 0, 33, [5, 7]⟩,
    fun oob => analyse_vertex_program_reads reads_bits oob _ _ _ _ _ (by decide) (by decide),
    by decide, rfl, by decide⟩

/-- C7: for every image and every `entry < 512` on which the walk completes,
`analyse_vertex_program` completes and the analysed program satisfies
`base_address ≤ entry ≤ base_address + instruction_count - 1`; and if the walk met no
`BRI`/`BRB`/`CAL`/`CLI`/`CLB` instruction then `base_address = entry`, so the assertion
`ensure(instruction_range.first == entry)` of the no-branch emission cannot fail. -/
theorem analyse_vertex_program_entry_in_range (oob : undefined_reads) (data : Nat → Nat)
    (entry : Nat) (dst : RSXVertexProgram) (s : walk_state)
    (_he : entry < max_vertex_program_instructions)
    (hs : walk_function oob data walk_depth entry false walk_state.init = .done s) :
    ∃ r p, analyse_vertex_program oob data entry dst = .done (r, p) ∧
      p.base_address ≤ entry ∧ entry ≤ p.base_address + instruction_count r - 1 ∧
      (s.has_branch_instruction = false → p.base_address = entry) := by
  obtain ⟨r, p, h, ha⟩ := analyse_vertex_program_of_walk oob data entry dst s hs
  have hinv := walk_done oob data entry walk_depth s hs
  obtain ⟨h1, h2, h3, _, _⟩ := walk_done_range data entry s hinv
  refine ⟨r, p, h, ?_, ?_, ?_⟩
  · rw [ha.base]; exact h1
  · rw [ha.base, instruction_count_analysed oob data entry dst s r p ha]; omega
  · intro hb
    rw [ha.base]
    exact (walk_no_branch oob data entry walk_depth s hs hb).1

set_option maxRecDepth 100000 in
/-- Witness of C7: the minimal program at entry 0. -/
theorem analyse_vertex_program_entry_in_range_witness :
    walk_function reads_bits minimal_image walk_depth 0 false walk_state.init
      = .done ⟨1, 0, 0, 0, (0, 0), false, []⟩ ∧
    ∃ r p, analyse_vertex_program reads_bits minimal_image 0 RSXVertexProgram.fresh
        = .done (r, p) ∧
      p.base_address ≤ 0 ∧ 0 ≤ p.base_address + instruction_count r - 1 ∧
      ((⟨1, 0, 0, 0, (0, 0), false, []⟩ : walk_state).has_branch_instruction = false →
        p.base_address = 0) :=
  ⟨by decide, analyse_vertex_program_entry_in_range reads_bits minimal_image 0
    RSXVertexProgram.fresh ⟨1, 0, 0, 0, (0, 0), false, []⟩ (by decide) (by decide)⟩

theorem count_lt_range (n m : Nat) :
    ((List.range m).filter (fun i => decide (i < n))).length = min n m := by
  induction m with
  | zero => simp
  | succ k ih =>
    rw [List.range_succ, List.filter_append, List.length_append, ih]
    by_cases h : k < n
    · simp [h]; omega
    · simp [h]; omega

theorem bitset_count_low_bits (n : Nat) (h : n ≤ max_vertex_program_instructions) :
    bitset_count (2 ^ n - 1) = n := by
  unfold bitset_count
  simp only [Nat.testBit_two_pow_sub_one]
  rw [count_lt_range]
  exact Nat.min_eq_left h

theorem list_eq_of_getD (l1 l2 : List Nat) (hlen : l1.length = l2.length)
    (h : ∀ k, k < l1.length → l1.getD k 0 = l2.getD k 0) : l1 = l2 := by
  apply List.ext_getElem hlen
  intro k h1 h2
  have := h k h1
  rw [List.getD_eq_getElem _ _ h1, List.getD_eq_getElem _ _ h2] at this
  exact this

theorem getD_of_vector_slot (l : List Nat) (c : Nat) (v : v128) (h : vector_slot l c = v) :
    l.getD (c * 4) 0 = v._u32_0 ∧ l.getD (c * 4 + 1) 0 = v._u32_1 ∧
    l.getD (c * 4 + 2) 0 = v._u32_2 ∧ l.getD (c * 4 + 3) 0 = v._u32_3 := by
  subst h
  exact ⟨rfl, rfl, rfl, rfl⟩

theorem list_eq_of_slots (l1 l2 : List Nat) (n : Nat) (h1 : l1.length = n * 4)
    (h2 : l2.length = n * 4) (h : ∀ c, c < n → vector_slot l1 c = vector_slot l2 c) :
    l1 = l2 := by
  apply list_eq_of_getD l1 l2 (by rw [h1, h2])
  intro k hk
  obtain ⟨a0, a1, a2, a3⟩ := getD_of_vector_slot l1 (k / 4) _ (h (k / 4) (by omega))
  have hk4 : k % 4 = 0 ∨ k % 4 = 1 ∨ k % 4 = 2 ∨ k % 4 = 3 := by omega
  rcases hk4 with e | e | e | e
  · rw [show k = k / 4 * 4 by omega]; exact a0
  · rw [show k = k / 4 * 4 + 1 by omega]; exact a1
  · rw [show k = k / 4 * 4 + 2 by omega]; exact a2
  · rw [show k = k / 4 * 4 + 3 by omega]; exact a3

theorem vector_slot_map (f : Nat → Nat) (n c : Nat) (hc : c < n) :
    vector_slot ((List.range (4 * n)).map f) c = v128.loadu f c := by
  have e : ∀ j, j < 4 → ((List.range (4 * n)).map f).getD (c * 4 + j) 0 = f (c * 4 + j) := by
    intro j hj
    rw [List.getD_eq_getElem _ _ (by simp; omega)]
    simp
  have e0 := e 0 (by omega)
  simp only [Nat.add_zero] at e0
  simp only [vector_slot, v128.loadu, e0, e 1 (by omega), e 2 (by omega), e 3 (by omega)]

set_option maxRecDepth 100000 in
/-- C8: for every vertex program whose walk meets no branch or call instruction and
completes, `analyse_vertex_program` completes, `dst.instruction_mask` is exactly the
contiguous run of bits `0 .. instruction_count-1`, so that
`instruction_count = popcount(dst.instruction_mask)`, `base_address = entry`, and
`dst.data` is a verbatim copy of the source slots `entry .. entry+instruction_count-1`.
And the single slot `[0, 0, 0, 1]` at entry 0 gives `base_address` 0, `data.size()` 4, the
mask bit 0 only, an empty jump table, `referenced_inputs_mask` 1 and
`referenced_textures_mask` 0. Both hold whatever the undefined reads yield. -/
theorem analyse_vertex_program_no_branch :
    (∀ (oob : undefined_reads) (data : Nat → Nat) (entry : Nat) (dst : RSXVertexProgram)
      (s : walk_state),
      walk_function oob data walk_depth entry false walk_state.init = .done s →
      s.has_branch_instruction = false →
      ∃ r p, analyse_vertex_program oob data entry dst = .done (r, p) ∧
        p.instruction_mask = 2 ^ instruction_count r - 1 ∧
        instruction_count r = bitset_count p.instruction_mask ∧
        p.base_address = entry ∧
        p.data = (List.range (4 * instruction_count r)).map
          (fun k => data (entry * 4 + k))) ∧
    (∀ oob : undefined_reads,
      analyse_vertex_program oob minimal_image 0 RSXVertexProgram.fresh
        = .done (
          { instruction_mask := 1, ucode_length := 16, referenced_textures_mask := 0,
            referenced_inputs_mask := 1 },
          { RSXVertexProgram.fresh with
            base_address := 0, entry := 0, data := [0, 0, 0, 1], instruction_mask := 1,
            jump_table := [] })) := by
  refine ⟨?_, fun oob =>
    analyse_vertex_program_reads reads_bits oob _ _ _ _ _ (by decide) (by decide)⟩
  intro oob data entry dst s hs hb
  obtain ⟨r, p, h, ha⟩ := analyse_vertex_program_of_walk oob data entry dst s hs
  have hinv := walk_done oob data entry walk_depth s hs
  obtain ⟨h1, h2, _, _, _⟩ := walk_done_range data entry s hinv
  obtain ⟨hf, hle, hlive⟩ := walk_no_branch oob data entry walk_depth s hs hb
  have h3 : s.instruction_range.2 < 512 :=
    (hinv.1.1 _ ((hlive s.instruction_range.2).2 ⟨hle, Nat.le_refl _⟩)).2.2
  have hcount := instruction_count_analysed oob data entry dst s r p ha
  have hmask : p.instruction_mask = 2 ^ instruction_count r - 1 := by
    apply Nat.eq_of_testBit_eq
    intro i
    rw [ha.mask, Nat.testBit_shiftRight, Nat.testBit_two_pow_sub_one, hcount, hf]
    by_cases hi : i < s.instruction_range.2 - entry + 1
    · rw [(hlive _).2 (by omega)]; simp [hi]
    · have : ¬ s.instruction_mask.testBit (entry + i) = true := by
        rw [hlive]; omega
      simp [hi, this]
  refine ⟨r, p, h, hmask, ?_, by rw [ha.base, hf], ?_⟩
  · rw [hmask, bitset_count_low_bits _ (by
      rw [hcount]; show _ ≤ 512; omega)]
  · apply list_eq_of_slots _ _ (instruction_count r)
    · rw [ha.length, hcount]
    · simp; omega
    · intro c hc
      rw [ha.slots c (by rw [← hcount]; exact hc), vector_slot_map _ _ _ hc]
      have hl : s.instruction_mask.testBit (s.instruction_range.1 + c) = true := by
        rw [hlive, hf]; rw [hcount, hf] at hc; omega
      have hp : s.instructions_to_patch.testBit (s.instruction_range.1 + c) = false := by
        cases hx : s.instructions_to_patch.testBit (s.instruction_range.1 + c) with
        | false => rfl
        | true =>
          have := (hinv.1.2.1 _).1 hx
          rw [hinv.1.2.2.1 hb _ this.1] at this
          simp at this
      rw [emitted_inst_lt oob data s c (hinv.1.1 _ hl).2.2]
      simp only [hl, hp, if_true, Bool.false_eq_true, if_false]
      simp only [v128.loadu, hf]
      have a0 : entry * 4 + c * 4 = (entry + c) * 4 := by omega
      have a1 : entry * 4 + (c * 4 + 1) = (entry + c) * 4 + 1 := by omega
      have a2 : entry * 4 + (c * 4 + 2) = (entry + c) * 4 + 2 := by omega
      have a3 : entry * 4 + (c * 4 + 3) = (entry + c) * 4 + 3 := by omega
      rw [a0, a1, a2, a3]

set_option maxRecDepth 100000 in
/-- Witness of C8: the general statement at a two-slot program uploaded at slot 2. -/
theorem analyse_vertex_program_no_branch_witness :
    walk_function reads_bits (image_of_slots [(2, nop), (3, nop_end)] 7) walk_depth 2 false
      walk_state.init = .done ⟨12, 0, 0, 0, (2, 3), false, []⟩ ∧
    ∃ r p, analyse_vertex_program reads_bits (image_of_slots [(2, nop), (3, nop_end)] 7) 2
        RSXVertexProgram.fresh = .done (r, p) ∧
      p.instruction_mask = 2 ^ instruction_count r - 1 ∧
      instruction_count r = bitset_count p.instruction_mask ∧
      p.base_address = 2 ∧
      p.data = (List.range (4 * instruction_count r)).map
        (fun k => image_of_slots [(2, nop), (3, nop_end)] 7 (2 * 4 + k)) :=
  ⟨by decide, analyse_vertex_program_no_branch.1 reads_bits
    (image_of_slots [(2, nop), (3, nop_end)] 7) 2
    RSXVertexProgram.fresh ⟨12, 0, 0, 0, (2, 3), false, []⟩ (by decide) rfl⟩

set_option maxRecDepth 100000 in
/-- What holds of the dead slots: after `analyse_vertex_program` completes, `dst.data` has
exactly `4 * instruction_count` words, and every slot `i < instruction_count` inside the
image (`base_address + i < 512`) whose `dst.instruction_mask` bit is 0 consists of four
zero words, whatever the source image held there. And with slot 0 a `BRI` with `cond` 0x7
to slot 5 and slot 5 with the end bit (the other words of the image being `0xFFFFFFFF`),
the analysis at entry 0 gives the live bits `{0, 5}` only, base 0, `instruction_count` 6,
`jump_table = {5}`, and the slots 1 to 4 emitted as zero. -/
theorem analyse_vertex_program_dead_slots_in_image :
    (∀ (oob : undefined_reads) (data : Nat → Nat) (entry : Nat) (dst : RSXVertexProgram)
      (r : vertex_program_metadata) (p : RSXVertexProgram),
      analyse_vertex_program oob data entry dst = .done (r, p) →
      p.data.length = 4 * instruction_count r ∧
      ∀ i, i < instruction_count r → p.base_address + i < max_vertex_program_instructions →
        p.instruction_mask.testBit i = false → vector_slot p.data i = v128.zero) ∧
    (∀ oob : undefined_reads,
      analyse_vertex_program oob (static_branch_image 0 0xFFFFFFFF) 0 RSXVertexProgram.fresh
        = .done (
          { instruction_mask := 0b100001, ucode_length := 6 * 16,
            referenced_textures_mask := 0, referenced_inputs_mask := 1 },
          { RSXVertexProgram.fresh with
            base_address := 0, entry := 0, instruction_mask := 0b100001, jump_table := [5],
            data := [0x1C00, 0x48000000, 0, 0xA0000000, 0, 0, 0, 0, 0, 0, 0, 0, 0, 0, 0, 0,
              0, 0, 0, 0, 0, 0, 0, 1] })) := by
  refine ⟨?_, fun oob =>
    analyse_vertex_program_reads reads_bits oob _ _ _ _ _ (by decide) (by decide)⟩
  intro oob data entry dst r p h
  obtain ⟨s, _, hinv, ha⟩ := analyse_vertex_program_done oob data entry dst r p h
  have hcount := instruction_count_analysed oob data entry dst s r p ha
  refine ⟨by rw [ha.length, hcount]; omega, ?_⟩
  intro i hi hlt hdead
  rw [ha.base] at hlt
  rw [ha.slots i (by rw [← hcount]; exact hi), emitted_inst_lt oob data s i hlt]
  rw [ha.mask, Nat.testBit_shiftRight] at hdead
  simp [hdead, v128.zero]

/-- The walk of the CALL/RET program: after the `RET` of slot 11 sends it back to slot 1,
the end bit of slot 1 does not stop it, slot 1 lying before the end of `instruction_range`;
it runs on through every slot up to 511. -/
theorem call_ret_walk_bits :
    walk_function reads_bits call_ret_image walk_depth 0 false walk_state.init
      = .done call_ret_final := by
  decide!

theorem call_ret_walk (oob : undefined_reads) :
    walk_function oob call_ret_image walk_depth 0 false walk_state.init
      = .done call_ret_final :=
  walk_function_reads reads_bits oob call_ret_image walk_depth 0 false _ _
    call_ret_walk_bits (by decide)

theorem call_ret_jumps_bits :
    (List.range (call_ret_final.instruction_range.2 - call_ret_final.instruction_range.1 + 1)).foldl
      (emitted_jump reads_bits call_ret_image call_ret_final) RSXVertexProgram.fresh.jump_table
      = [10] := by
  decide!

theorem call_ret_jumps (oob : undefined_reads) :
    (List.range (call_ret_final.instruction_range.2 - call_ret_final.instruction_range.1 + 1)).foldl
      (emitted_jump oob call_ret_image call_ret_final) RSXVertexProgram.fresh.jump_table
      = [10] := by
  rw [← call_ret_jumps_bits]
  apply List.foldl_ext
  intro a b hb
  have hlt : call_ret_final.instruction_range.1 + b < max_vertex_program_instructions := by
    have := List.mem_range.1 hb
    show 0 + b < 512
    simp only [call_ret_final] at this
    omega
  rw [emitted_jump_lt _ _ _ _ _ hlt, emitted_jump_lt _ _ _ _ _ hlt]

theorem call_ret_mask :
    call_ret_final.instruction_mask >>> call_ret_final.instruction_range.1 = 2 ^ 512 - 1 := by
  decide!

/-- C9, as the code has it: for the vertex program with slot 0 = `CAL` to slot 10, slot 1 =
`NOP` with the end bit, slot 10 = `NOP`, slot 11 = `RET` (all other slots `NOP` without end
bit), analysed at entry 0, all 512 bits are live, `base_address = 0`,
`instruction_count = 512`, and `jump_table = {10}`, whatever the undefined reads yield. -/
theorem analyse_vertex_program_call_ret (oob : undefined_reads) :
    ∃ r p, analyse_vertex_program oob call_ret_image 0 RSXVertexProgram.fresh
        = .done (r, p) ∧
      p.instruction_mask = 2 ^ 512 - 1 ∧ p.base_address = 0 ∧
      instruction_count r = 512 ∧ p.jump_table = [10] := by
  obtain ⟨r, p, h, ha⟩ := analyse_vertex_program_of_walk oob call_ret_image 0
    RSXVertexProgram.fresh call_ret_final (call_ret_walk oob)
  have hb : p.base_address = 0 := ha.base
  have hc : instruction_count r = 512 := instruction_count_analysed _ _ _ _ _ r p ha
  have hm : p.instruction_mask = 2 ^ 512 - 1 := ha.mask.trans call_ret_mask
  have hj : p.jump_table = [10] := by
    rw [ha.jumps, if_pos (show call_ret_final.has_branch_instruction = true from rfl)]
    exact call_ret_jumps oob
  exact ⟨r, p, h, hm, hb, hc, hj⟩

/-- C9 as stated fails: whatever the undefined reads yield, the analysis of the CALL/RET
program at entry 0 does not end with exactly the bits `{0, 1, 10, 11}` live,
`base_address = 0`, `instruction_count = 12` and `jump_table = {10}`. -/
theorem analyse_vertex_program_call_ret_counterexample :
    ¬ ∃ oob r p, analyse_vertex_program oob call_ret_image 0 RSXVertexProgram.fresh
        = .done (r, p) ∧
      p.instruction_mask = 2 ^ 0 + 2 ^ 1 + 2 ^ 10 + 2 ^ 11 ∧ p.base_address = 0 ∧
      instruction_count r = 12 ∧ p.jump_table = [10] := by
  rintro ⟨oob, r, p, h, _, _, hc, _⟩
  obtain ⟨s, hs, _, ha⟩ := analyse_vertex_program_done _ _ _ _ r p h
  rw [call_ret_walk oob] at hs
  simp only [outcome.done.injEq] at hs
  subst hs
  have hc' : instruction_count r = 512 := instruction_count_analysed _ _ _ _ _ r p ha
  omega

/-! ## Relocation -/

theorem set_bitfield_split (w off width v : Nat) :
    set_bitfield w off width v = set_bitfield w off width 0 + v % 2 ^ width * 2 ^ off := by
  unfold set_bitfield
  rw [Nat.zero_mod, Nat.zero_mul, Nat.add_zero]
  omega

theorem set_bitfield_congr (wA wB off width v : Nat)
    (h : set_bitfield wB off width 0 = set_bitfield wA off width 0) :
    set_bitfield wB off width v = set_bitfield wA off width v := by
  rw [set_bitfield_split wB, set_bitfield_split wA, h]

theorem cond_of_cleared (wA wB : Nat) (h : D0.set_iaddrh2 wB 0 = D0.set_iaddrh2 wA 0) :
    D0.cond wB = D0.cond wA := by
  have e : ∀ w, D0.cond w = D0.cond (D0.set_iaddrh2 w 0) := by
    intro w
    simp only [D0.cond, D0.set_iaddrh2, bitfield, set_bitfield, Nat.shiftRight_eq_div_pow]
    norm_num
    omega
  rw [e wB, e wA, h]

theorem end_of_cleared (wA wB : Nat) (h : D3.set_iaddrl wB 0 = D3.set_iaddrl wA 0) :
    D3.end_ wB = D3.end_ wA := by
  have e : ∀ w, D3.end_ w = D3.end_ (D3.set_iaddrl w 0) := by
    intro w
    simp only [D3.end_, D3.set_iaddrl, bitfield, set_bitfield, Nat.shiftRight_eq_div_pow]
    norm_num
    omega
  rw [e wB, e wA, h]

theorem slot_relocated_class (k : Nat) (a b : v128) (h : slot_relocated k a b) :
    is_branch b = is_branch a ∧ is_function_call b = is_function_call a ∧
    is_static_jump b = is_static_jump a ∧ is_conditional b = is_conditional a ∧
    is_ret b = is_ret a ∧ D3.end_ b._u32_3 = D3.end_ a._u32_3 ∧
    (is_branch a = true → jump_address b = jump_address a + k) := by
  unfold slot_relocated at h
  by_cases hb : is_branch a = true
  · rw [if_pos hb] at h
    obtain ⟨h1, h2, h3, _, h5⟩ := h
    have hc := cond_of_cleared _ _ h3
    have he := end_of_cleared _ _ h5
    refine ⟨?_, ?_, ?_, ?_, ?_, he, fun _ => h2⟩ <;>
      simp only [is_branch, is_function_call, is_static_jump, is_conditional, is_ret, h1, hc]
  · rw [if_neg hb] at h
    subst h
    exact ⟨rfl, rfl, rfl, rfl, rfl, rfl, fun h => absurd h hb⟩

theorem slot_relocated_patch (k : Nat) (a b : v128) (first : Nat)
    (h : slot_relocated k a b) (hb : is_branch a = true)
    (hf : first ≤ jump_address a) :
    (patch_instruction b (first + k)).1 = (patch_instruction a first).1 ∧
    u32_sub (jump_address b) (first + k) = u32_sub (jump_address a) first := by
  unfold slot_relocated at h
  rw [if_pos hb] at h
  obtain ⟨h1, h2, h3, h4, h5⟩ := h
  have hlt := jump_address_lt a
  have e : u32_sub (jump_address b) (first + k) = u32_sub (jump_address a) first := by
    rw [h2]; unfold u32_sub; omega
  refine ⟨?_, e⟩
  unfold patch_instruction
  simp only [e]
  have e0 := set_bitfield_congr _ _ 23 1
    ((u32_sub (jump_address a) first) >>> 9 &&& 0x1) h3
  have e2 := set_bitfield_congr _ _ 0 6
    ((u32_sub (jump_address a) first) >>> 3 &&& 0x3F) h4
  have e3 := set_bitfield_congr _ _ 29 3
    ((u32_sub (jump_address a) first) &&& 0x7) h5
  simp only [D0.set_iaddrh2, D2.set_iaddrh, D3.set_iaddrl, e0, e2, e3, h1]

theorem testBit_shiftLeft_add (m k i : Nat) : (m <<< k).testBit (i + k) = m.testBit i := by
  rw [Nat.testBit_shiftLeft]
  simp

theorem bitset_set_shiftLeft (m k i : Nat) :
    bitset_set (m <<< k) (i + k) = (bitset_set m i) <<< k := by
  apply Nat.eq_of_testBit_eq
  intro j
  rw [testBit_bitset_set, Nat.testBit_shiftLeft, Nat.testBit_shiftLeft, testBit_bitset_set]
  by_cases hj : j ≥ k
  · have e : (i + k = j) ↔ (i = j - k) := by omega
    simp [hj, e]
  · have e : ¬ (i + k = j) := by omega
    simp [hj, e]

theorem shiftLeft_shiftRight_add (m k f : Nat) : (m <<< k) >>> (f + k) = m >>> f := by
  rw [Nat.add_comm, Nat.shiftRight_add, Nat.shiftLeft_shiftRight]

theorem set_emplace_map_add (k x : Nat) (l : List Nat) :
    set_emplace (x + k) (l.map (· + k)) = (set_emplace x l).map (· + k) := by
  induction l with
  | nil => rfl
  | cons y ys ih =>
    simp only [List.map_cons, set_emplace]
    by_cases h1 : x < y
    · simp [h1]
    · by_cases h2 : x = y
      · simp [h2]
      · have h3 : ¬ x + k < y + k := by omega
        have h4 : ¬ x + k = y + k := by omega
        simp only [h1, h2, h3, h4, if_false, List.map_cons, ih]

theorem visited_relocated (k cur : Nat) (instA instB : v128) (ctA : List Nat)
    (sA sB : walk_state) (ctA' : List Nat) (sA' : walk_state) (ctB' : List Nat)
    (sB' : walk_state) (hR : relocated k sA sB) (hslot : slot_relocated k instA instB)
    (hvA : visited instA cur ctA sA ctA' sA')
    (hvB : visited instB (cur + k) (ctA.map (· + k)) sB ctB' sB')
    (hlt : cur + k < max_vertex_program_instructions) :
    ctB' = ctA'.map (· + k) ∧ relocated k sA' sB' ∧
    sB'.instruction_range.2 = sA'.instruction_range.2 + k := by
  obtain ⟨c1, c2, c3, c4, c5, c6, c7⟩ := slot_relocated_class k instA instB hslot
  have hlt' : cur + k < 512 := hlt
  have hfirst : sB'.instruction_range.1 = sA'.instruction_range.1 + k ∧
      sB'.instruction_range.2 = sA'.instruction_range.2 + k ∧
      sA'.instruction_range.1 < 512 := by
    have a1 := hvA.first
    have a2 := hvA.second
    have b1 := hvB.first
    have b2 := hvB.second
    rw [c4] at b2
    rcases hR.range with ⟨rA, rB⟩ | ⟨rA, rB⟩
    · rw [rA] at a1 a2
      rw [rB] at b1 b2
      simp only [umax] at a1 b1
      by_cases hc : is_conditional instA = true
      · rw [if_pos hc] at a2 b2
        rw [c7 (by
          simp only [is_conditional, Bool.and_eq_true] at hc
          exact hc.1.1)] at b2
        omega
      · rw [if_neg hc] at a2 b2
        omega
    · have rA' : sA.instruction_range.1 < 512 := rA
      rw [rB] at b1 b2
      by_cases hc : is_conditional instA = true
      · rw [if_pos hc] at a2 b2
        rw [c7 (by
          simp only [is_conditional, Bool.and_eq_true] at hc
          exact hc.1.1)] at b2
        simp only at b1 b2
        omega
      · rw [if_neg hc] at a2 b2
        simp only at b1 b2
        omega
  refine ⟨?_, ⟨?_, ?_, ?_, ?_, ?_⟩, hfirst.2.1⟩
  · rw [hvB.targets, hvA.targets, c4]
    by_cases hc : is_conditional instA = true
    · rw [if_pos hc, if_pos hc, c7 (by
        simp only [is_conditional, Bool.and_eq_true] at hc
        exact hc.1.1), set_emplace_map_add]
    · rw [if_neg hc, if_neg hc]
  · rw [hvB.mask, hvA.mask, hR.mask, bitset_set_shiftLeft]
  · rw [hvB.patch, hvA.patch, hR.patch, c1]
    by_cases hb : is_branch instA = true
    · rw [if_pos hb, if_pos hb, bitset_set_shiftLeft]
    · rw [if_neg hb, if_neg hb]
  · right
    exact ⟨hfirst.2.2, Prod.ext hfirst.1 hfirst.2.1⟩
  · rw [hvB.branch, hvA.branch, hR.branch, c1]
  · rw [hvB.stack, hvA.stack, hR.stack, c2, c5]
    by_cases hc : is_function_call instA = true
    · rw [if_pos hc, if_pos hc]
      simp [Nat.add_right_comm]
    · rw [if_neg hc, if_neg hc]
      by_cases hr : is_ret instA = true
      · rw [if_pos hr, if_pos hr]
        simp [List.map_tail]
      · rw [if_neg hr, if_neg hr]

theorem walk_iteration_fresh (data : Nat → Nat) (fe : Bool) (cur : Nat) (ct : List Nat)
    (s : walk_state) (hlt : cur < max_vertex_program_instructions)
    (hf : s.instruction_mask.testBit cur = false) :
    walk_iteration data fe cur ct s = walk_visit (v128.loadu data cur) fe cur ct s := by
  unfold walk_iteration
  rw [if_neg (not_not.mpr hlt), if_neg (by simp [hf])]

theorem walk_iteration_live (data : Nat → Nat) (fe : Bool) (cur : Nat) (ct : List Nat)
    (s : walk_state) (hlt : cur < max_vertex_program_instructions)
    (hl : s.instruction_mask.testBit cur = true) :
    walk_iteration data fe cur ct s =
      if !fe then .next (cur + 1) ct s else .stop ct s := by
  unfold walk_iteration
  rw [if_neg (not_not.mpr hlt), if_pos hl]

theorem isEmpty_map_add (l : List Nat) (k : Nat) :
    (l.map (· + k)).isEmpty = l.isEmpty := by
  cases l <;> rfl

theorem walk_iteration_relocated (A B : Nat → Nat) (k : Nat) (fe : Bool) (cur : Nat)
    (ctA : List Nat) (sA sB : walk_state) (hR : relocated k sA sB)
    (hlt : cur + k < max_vertex_program_instructions)
    (hslot : sA.instruction_mask.testBit cur = false →
      slot_relocated k (v128.loadu A cur) (v128.loadu B (cur + k)) ∧ cur ≠ 511 ∧
        cur + k ≠ 511) :
    (∀ c' ctA' sA', walk_iteration A fe cur ctA sA = .next c' ctA' sA' →
      ∃ sB', walk_iteration B fe (cur + k) (ctA.map (· + k)) sB
          = .next (c' + k) (ctA'.map (· + k)) sB' ∧ relocated k sA' sB') ∧
    (∀ ctA' sA', walk_iteration A fe cur ctA sA = .stop ctA' sA' →
      ∃ sB', walk_iteration B fe (cur + k) (ctA.map (· + k)) sB
          = .stop (ctA'.map (· + k)) sB' ∧ relocated k sA' sB') := by
  have hltA : cur < max_vertex_program_instructions := by
    have : cur + k < 512 := hlt
    show cur < 512
    omega
  have hliveB : sB.instruction_mask.testBit (cur + k) = sA.instruction_mask.testBit cur := by
    rw [hR.mask, testBit_shiftLeft_add]
  by_cases hl : sA.instruction_mask.testBit cur = true
  · rw [walk_iteration_live A fe cur ctA sA hltA hl,
      walk_iteration_live B fe (cur + k) _ sB hlt (by rw [hliveB]; exact hl)]
    cases fe with
    | false =>
      simp only [Bool.not_false, if_true, loop_ctl.next.injEq, and_imp, reduceCtorEq,
        false_implies, implies_true, and_true]
      rintro c' ctA' sA' rfl rfl rfl
      exact ⟨sB, ⟨by omega, rfl, rfl⟩, hR⟩
    | true =>
      simp only [Bool.not_true, Bool.false_eq_true, if_false, loop_ctl.stop.injEq, and_imp,
        reduceCtorEq, false_implies, implies_true, true_and]
      rintro ctA' sA' rfl rfl
      exact ⟨sB, ⟨rfl, rfl⟩, hR⟩
  · have hf : sA.instruction_mask.testBit cur = false := by simpa using hl
    obtain ⟨hs, h511A, h511B⟩ := hslot hf
    obtain ⟨c1, c2, c3, c4, c5, c6, c7⟩ := slot_relocated_class k _ _ hs
    rw [walk_iteration_fresh A fe cur ctA sA hltA hf,
      walk_iteration_fresh B fe (cur + k) _ sB hlt (by rw [hliveB]; exact hf)]
    obtain ⟨ctA1, sA1, hvA, heA⟩ := walk_visit_eq (v128.loadu A cur) fe cur ctA sA
    obtain ⟨ctB1, sB1, hvB, heB⟩ := walk_visit_eq (v128.loadu B (cur + k)) fe (cur + k)
      (ctA.map (· + k)) sB
    obtain ⟨hct, hR1, hsec⟩ := visited_relocated k cur _ _ ctA sA sB ctA1 sA1 ctB1 sB1 hR hs
      hvA hvB hlt
    rw [heA, heB]
    have hjumps : visit_jumps (v128.loadu B (cur + k)) sB = visit_jumps (v128.loadu A cur) sA := by
      simp only [visit_jumps, c2, c3, c5, hR.stack, isEmpty_map_add]
    have hnext : visit_jumps (v128.loadu A cur) sA = true →
        visit_next (v128.loadu B (cur + k)) (cur + k) sB
          = visit_next (v128.loadu A cur) cur sA + k := by
      intro hj
      simp only [visit_next, c2, c3, c5, hR.stack, isEmpty_map_add]
      by_cases h1 : (is_function_call (v128.loadu A cur) ||
          is_static_jump (v128.loadu A cur)) = true
      · rw [if_pos h1, if_pos h1]
        apply c7
        simp only [Bool.or_eq_true] at h1
        rcases h1 with h | h
        · simp only [is_function_call, Bool.and_eq_true] at h
          exact h.1
        · exact is_static_jump_imp_is_branch _ h
      · rw [if_neg h1, if_neg h1]
        simp only [visit_jumps, Bool.or_eq_true] at hj
        have hr : (is_ret (v128.loadu A cur) && !sA.call_stack.isEmpty) = true := by
          rcases hj with h | h
          · exact absurd (by simpa using h) h1
          · exact h
        cases hstk : sA.call_stack with
        | nil => simp [hstk] at hr
        | cons top rest =>
          have hr' : is_ret (v128.loadu A cur) = true := by
            simp only [Bool.and_eq_true] at hr
            exact hr.1
          simp [hr']
    have hstops : visit_stops (v128.loadu B (cur + k)) fe (cur + k) sB1.instruction_range.2
        = visit_stops (v128.loadu A cur) fe cur sA1.instruction_range.2 := by
      simp only [visit_stops, c6, hsec, max_vertex_program_instructions]
      have e1 : (cur + k + 1 == 512) = false := by simp; omega
      have e2 : (cur + 1 == 512) = false := by simp; omega
      have e3 : decide (cur + k ≥ sA1.instruction_range.2 + k)
          = decide (cur ≥ sA1.instruction_range.2) := by
        simp
      rw [e1, e2, e3]
    unfold visit_ctl
    rw [hjumps, hstops, hct]
    by_cases hj : visit_jumps (v128.loadu A cur) sA = true
    · rw [if_pos hj, if_pos hj, hnext hj]
      constructor
      · rintro c' ctA' sA' h
        simp only [loop_ctl.next.injEq] at h
        obtain ⟨rfl, rfl, rfl⟩ := h
        exact ⟨sB1, rfl, hR1⟩
      · rintro ctA' sA' h
        simp at h
    · rw [if_neg hj, if_neg hj]
      by_cases hst : visit_stops (v128.loadu A cur) fe cur sA1.instruction_range.2 = true
      · rw [if_pos hst, if_pos hst]
        constructor
        · rintro c' ctA' sA' h
          simp at h
        · rintro ctA' sA' h
          simp only [loop_ctl.stop.injEq] at h
          obtain ⟨rfl, rfl⟩ := h
          exact ⟨sB1, rfl, hR1⟩
      · rw [if_neg hst, if_neg hst]
        constructor
        · rintro c' ctA' sA' h
          simp only [loop_ctl.next.injEq] at h
          obtain ⟨rfl, rfl, rfl⟩ := h
          exact ⟨sB1, by rw [Nat.add_right_comm], hR1⟩
        · rintro ctA' sA' h
          simp at h

theorem walk_iteration_marks (data : Nat → Nat) (fe : Bool) (cur : Nat) (ct : List Nat)
    (s : walk_state) (ct' : List Nat) (s' : walk_state)
    (h : (∃ c', walk_iteration data fe cur ct s = .next c' ct' s') ∨
      walk_iteration data fe cur ct s = .stop ct' s') :
    cur < max_vertex_program_instructions ∧ s'.instruction_mask.testBit cur = true ∧
    ∀ i, s.instruction_mask.testBit i = true → s'.instruction_mask.testBit i = true := by
  rcases walk_iteration_cases data fe cur ct s with
    ⟨_, hf⟩ | ⟨hlt, hlive, _, hn⟩ | ⟨hlt, hlive, _, hs⟩ |
    ⟨hlt, _, ct1, s1, hv, hn | ⟨hs, _⟩⟩
  · rw [hf] at h; simp at h
  · rw [hn] at h
    simp only [loop_ctl.next.injEq, exists_and_right, exists_eq', true_and, reduceCtorEq,
      or_false] at h
    obtain ⟨_, rfl⟩ := h
    exact ⟨hlt, hlive, fun _ hi => hi⟩
  · rw [hs] at h
    simp only [reduceCtorEq, exists_false, loop_ctl.stop.injEq, false_or] at h
    obtain ⟨_, rfl⟩ := h
    exact ⟨hlt, hlive, fun _ hi => hi⟩
  · rw [hn] at h
    simp only [loop_ctl.next.injEq, exists_and_right, exists_eq', true_and, reduceCtorEq,
      or_false] at h
    obtain ⟨_, rfl⟩ := h
    have hl := visited_live _ _ _ _ _ _ hv
    exact ⟨hlt, (hl cur).2 (Or.inr rfl), fun i hi => (hl i).2 (Or.inl hi)⟩
  · rw [hs] at h
    simp only [reduceCtorEq, exists_false, loop_ctl.stop.injEq, false_or] at h
    obtain ⟨_, rfl⟩ := h
    have hl := visited_live _ _ _ _ _ _ hv
    exact ⟨hlt, (hl cur).2 (Or.inr rfl), fun i hi => (hl i).2 (Or.inl hi)⟩

theorem walk_loop_mask_mono (data : Nat → Nat) (fe : Bool) (M : Nat) :
    ∀ fuel cur ct s ct' s', (∀ i, M.testBit i = true → s.instruction_mask.testBit i = true) →
      walk_loop data fe fuel cur ct s = .done (ct', s') →
      ∀ i, M.testBit i = true → s'.instruction_mask.testBit i = true := by
  apply walk_loop_induction data fe
    (fun _ _ s => ∀ i, M.testBit i = true → s.instruction_mask.testBit i = true)
    (fun _ s => ∀ i, M.testBit i = true → s.instruction_mask.testBit i = true)
  · intro cur ct s cur' ct' s' hJ h i hi
    exact (walk_iteration_marks data fe cur ct s ct' s' (Or.inl ⟨cur', h⟩)).2.2 i (hJ i hi)
  · intro cur ct s ct' s' hJ h i hi
    exact (walk_iteration_marks data fe cur ct s ct' s' (Or.inr h)).2.2 i (hJ i hi)

theorem walk_function_mask_mono (oob : undefined_reads) (data : Nat → Nat) (M : Nat) :
    ∀ depth (_X : List Nat) start fe s s',
      (∀ i, M.testBit i = true → s.instruction_mask.testBit i = true) →
      walk_function oob data depth start fe s = .done s' →
      ∀ i, M.testBit i = true → s'.instruction_mask.testBit i = true := by
  apply walk_function_induction oob data
    (fun _ _ _ s => ∀ i, M.testBit i = true → s.instruction_mask.testBit i = true)
    (fun _ s => ∀ i, M.testBit i = true → s.instruction_mask.testBit i = true)
  · intro fe X cur ct s cur' ct' s' hJ h i hi
    exact (walk_iteration_marks data fe cur ct s ct' s' (Or.inl ⟨cur', h⟩)).2.2 i (hJ i hi)
  · intro fe X cur ct s ct' s' hJ h i hi
    exact (walk_iteration_marks data fe cur ct s ct' s' (Or.inr h)).2.2 i (hJ i hi)
  · intro X t s hK _; exact hK
  · intro X t s hK _; exact hK
  · intro X t s hK _; exact hK

theorem walk_targets_mask_mono (oob : undefined_reads) (data : Nat → Nat) (depth : Nat)
    (l : List Nat) (s s' : walk_state)
    (h : walk_targets oob (fun target s => walk_function oob data depth target true s) l s
      = .done s') :
    ∀ i, s.instruction_mask.testBit i = true → s'.instruction_mask.testBit i = true :=
  walk_targets_induction oob _
    (fun _ s1 => ∀ i, s.instruction_mask.testBit i = true →
      s1.instruction_mask.testBit i = true)
    (fun _ _ _ hK _ => hK) (fun _ _ _ hK _ => hK)
    (fun X t s1 s2 hK _ hw =>
      walk_function_mask_mono oob data s.instruction_mask depth X t true s1 s2 hK hw)
    l [] s s' (fun _ hi => hi) h

theorem walk_loop_first (data : Nat → Nat) (fe : Bool) (fuel cur : Nat) (ct : List Nat)
    (s : walk_state) (ct' : List Nat) (s' : walk_state)
    (h : walk_loop data fe fuel cur ct s = .done (ct', s')) :
    cur < max_vertex_program_instructions ∧ s'.instruction_mask.testBit cur = true := by
  cases fuel with
  | zero => simp [walk_loop] at h
  | succ n =>
    simp only [walk_loop] at h
    split at h
    · simp at h
    · rename_i ct1 s1 heq
      simp only [outcome.done.injEq, Prod.mk.injEq] at h
      obtain ⟨rfl, rfl⟩ := h
      obtain ⟨a, b, _⟩ := walk_iteration_marks data fe cur ct s _ _ (Or.inr heq)
      exact ⟨a, b⟩
    · rename_i c1 ct1 s1 heq
      obtain ⟨a, b, _⟩ := walk_iteration_marks data fe cur ct s _ _ (Or.inl ⟨c1, heq⟩)
      exact ⟨a, walk_loop_mask_mono data fe s1.instruction_mask n c1 ct1 s1 ct' s'
        (fun _ hi => hi) h cur b⟩

theorem walk_loop_relocated (A B : Nat → Nat) (k : Nat) (fe : Bool) (MA MB : Nat)
    (hslots : ∀ i, MA.testBit i = true →
      slot_relocated k (v128.loadu A i) (v128.loadu B (i + k)))
    (hA511 : MA.testBit 511 = false) (hB511 : MB.testBit 511 = false) :
    ∀ fuel cur ctA sA sB ctA' sA' ctB' sB', relocated k sA sB →
      walk_loop A fe fuel cur ctA sA = .done (ctA', sA') →
      walk_loop B fe fuel (cur + k) (ctA.map (· + k)) sB = .done (ctB', sB') →
      (∀ i, sA'.instruction_mask.testBit i = true → MA.testBit i = true) →
      (∀ i, sB'.instruction_mask.testBit i = true → MB.testBit i = true) →
      ctB' = ctA'.map (· + k) ∧ relocated k sA' sB' := by
  intro fuel
  induction fuel with
  | zero => intro cur ctA sA sB ctA' sA' ctB' sB' _ h; simp [walk_loop] at h
  | succ n ih =>
    intro cur ctA sA sB ctA' sA' ctB' sB' hR hA hB hMA hMB
    obtain ⟨_, hAm⟩ := walk_loop_first A fe _ cur ctA sA ctA' sA' hA
    obtain ⟨hltB, hBm⟩ := walk_loop_first B fe _ (cur + k) _ sB ctB' sB' hB
    have hc511 : cur ≠ 511 := by
      intro e
      have := hMA cur hAm
      rw [e, hA511] at this
      simp at this
    have hk511 : cur + k ≠ 511 := by
      intro e
      have := hMB (cur + k) hBm
      rw [e, hB511] at this
      simp at this
    obtain ⟨hnext, hstop⟩ := walk_iteration_relocated A B k fe cur ctA sA sB hR hltB
      (fun _ => ⟨hslots cur (hMA cur hAm), hc511, hk511⟩)
    simp only [walk_loop] at hA hB
    split at hA
    · simp at hA
    · rename_i ct1 s1 heq
      simp only [outcome.done.injEq, Prod.mk.injEq] at hA
      obtain ⟨rfl, rfl⟩ := hA
      obtain ⟨sB1, hB1, hR1⟩ := hstop _ _ heq
      rw [hB1] at hB
      simp only [outcome.done.injEq, Prod.mk.injEq] at hB
      obtain ⟨rfl, rfl⟩ := hB
      exact ⟨rfl, hR1⟩
    · rename_i c1 ct1 s1 heq
      obtain ⟨sB1, hB1, hR1⟩ := hnext _ _ _ heq
      rw [hB1] at hB
      exact ih c1 ct1 s1 sB1 ctA' sA' ctB' sB' hR1 hA hB hMA hMB

theorem walk_targets_relocated (A B : Nat → Nat) (k d : Nat) (MA MB : Nat)
    (hw : ∀ t sA sB sA' sB', relocated k sA sB →
      walk_function reads_bits A d t true sA = .done sA' →
      walk_function reads_bits B d (t + k) true sB = .done sB' →
      (∀ i, sA'.instruction_mask.testBit i = true → MA.testBit i = true) →
      (∀ i, sB'.instruction_mask.testBit i = true → MB.testBit i = true) →
      relocated k sA' sB') :
    ∀ (l : List Nat) sA sB sA' sB', relocated k sA sB →
      walk_targets reads_bits (fun target s => walk_function reads_bits A d target true s) l sA
        = .done sA' →
      walk_targets reads_bits (fun target s => walk_function reads_bits B d target true s)
        (l.map (· + k)) sB = .done sB' →
      (∀ i, sA'.instruction_mask.testBit i = true → MA.testBit i = true) →
      (∀ i, sB'.instruction_mask.testBit i = true → MB.testBit i = true) →
      relocated k sA' sB' := by
  intro l
  induction l with
  | nil =>
    intro sA sB sA' sB' hR hA hB _ _
    simp only [walk_targets, List.map_nil, outcome.done.injEq] at hA hB
    subst hA; subst hB
    exact hR
  | cons t rest ih =>
    intro sA sB sA' sB' hR hA hB hMA hMB
    simp only [walk_targets, List.map_cons, target_mask_reads_bits] at hA hB
    have hlive : sB.instruction_mask.testBit (t + k) = sA.instruction_mask.testBit t := by
      rw [hR.mask, testBit_shiftLeft_add]
    rw [hlive] at hB
    by_cases hl : sA.instruction_mask.testBit t = true
    · simp only [hl, Bool.not_true, Bool.false_eq_true, if_false] at hA hB
      exact ih sA sB sA' sB' hR hA hB hMA hMB
    · have hl' : sA.instruction_mask.testBit t = false := by simpa using hl
      simp only [hl', Bool.not_false, if_true] at hA hB
      split at hA
      · rename_i sA1 heqA
        split at hB
        · rename_i sB1 heqB
          have mA := walk_targets_mask_mono reads_bits A d rest sA1 sA' hA
          have mB := walk_targets_mask_mono reads_bits B d (rest.map (· + k)) sB1 sB' hB
          have hR1 := hw t sA sB sA1 sB1 hR heqA heqB (fun i hi => hMA i (mA i hi))
            (fun i hi => hMB i (mB i hi))
          exact ih sA1 sB1 sA' sB' hR1 hA hB hMA hMB
        · simp at hB
        · simp at hB
      · simp at hA
      · simp at hA

theorem walk_function_relocated (A B : Nat → Nat) (k : Nat) (MA MB : Nat)
    (hslots : ∀ i, MA.testBit i = true →
      slot_relocated k (v128.loadu A i) (v128.loadu B (i + k)))
    (hA511 : MA.testBit 511 = false) (hB511 : MB.testBit 511 = false) :
    ∀ depth start fe sA sB sA' sB', relocated k sA sB →
      walk_function reads_bits A depth start fe sA = .done sA' →
      walk_function reads_bits B depth (start + k) fe sB = .done sB' →
      (∀ i, sA'.instruction_mask.testBit i = true → MA.testBit i = true) →
      (∀ i, sB'.instruction_mask.testBit i = true → MB.testBit i = true) →
      relocated k sA' sB' := by
  intro depth
  induction depth with
  | zero => intro start fe sA sB sA' sB' _ h; simp [walk_function] at h
  | succ d ih =>
    intro start fe sA sB sA' sB' hR hA hB hMA hMB
    simp only [walk_function] at hA hB
    split at hA
    · rename_i ctA1 sA1 heqA
      split at hB
      · rename_i ctB1 sB1 heqB
        have mA := walk_targets_mask_mono reads_bits A d ctA1 sA1 sA' hA
        have mB := walk_targets_mask_mono reads_bits B d ctB1 sB1 sB' hB
        have hl := walk_loop_relocated A B k fe MA MB hslots hA511 hB511 walk_loop_fuel start
          [] sA sB ctA1 sA1 ctB1 sB1 hR heqA heqB (fun i hi => hMA i (mA i hi))
          (fun i hi => hMB i (mB i hi))
        obtain ⟨hct, hR1⟩ := hl
        subst hct
        exact walk_targets_relocated A B k d MA MB
          (fun t sA sB sA' sB' => ih t true sA sB sA' sB') ctA1 sA1 sB1 sA' sB' hR1 hA hB
          hMA hMB
      · simp at hB
      · simp at hB
    · simp at hA
    · simp at hA

theorem vertex_program_compare_loop_of_eq (p q : RSXVertexProgram)
    (hm : p.instruction_mask = q.instruction_mask) (hd : p.data = q.data) (l : List Nat) :
    vertex_program_compare_loop p q l = true := by
  induction l with
  | nil => rfl
  | cons i rest ih =>
    simp only [vertex_program_compare_loop, hm, hd, bne_self_eq_false, Bool.and_false,
      Bool.false_eq_true, if_false, ih]

theorem vertex_program_compare_of_eq (p q : RSXVertexProgram)
    (ho : p.output_mask = q.output_mask) (ht : p.texture_state = q.texture_state)
    (hj : p.jump_table = q.jump_table)
    (hm : p.instruction_mask = q.instruction_mask) (hd : p.data = q.data) :
    vertex_program_compare p q = true := by
  unfold vertex_program_compare
  simp only [ho, ht, hj, hd, bne_self_eq_false, Bool.false_eq_true, if_false]
  rw [← hd]
  exact vertex_program_compare_loop_of_eq p q hm hd _

theorem relocated_init (k : Nat) : relocated k walk_state.init walk_state.init :=
  ⟨by simp [walk_state.init], by simp [walk_state.init], Or.inl ⟨rfl, rfl⟩, rfl, rfl⟩

theorem emitted_relocated (A B : Nat → Nat) (k entry : Nat) (sA sB : walk_state)
    (hinv : walk_done_inv A entry [] sA) (hR : relocated k sA sB)
    (hslots : ∀ i, sA.instruction_mask.testBit i = true →
      slot_relocated k (v128.loadu A i) (v128.loadu B (i + k)))
    (hfirst : sB.instruction_range.1 = sA.instruction_range.1 + k) (c : Nat) :
    emitted_inst reads_bits B sB c = emitted_inst reads_bits A sA c ∧
    ∀ jt, emitted_jump reads_bits B sB jt c = emitted_jump reads_bits A sA jt c := by
  have e : sB.instruction_range.1 + c = sA.instruction_range.1 + c + k := by omega
  have hl : sB.instruction_mask.testBit (sB.instruction_range.1 + c)
      = sA.instruction_mask.testBit (sA.instruction_range.1 + c) := by
    rw [e, hR.mask, testBit_shiftLeft_add]
  have hp : sB.instructions_to_patch.testBit (sB.instruction_range.1 + c)
      = sA.instructions_to_patch.testBit (sA.instruction_range.1 + c) := by
    rw [e, hR.patch, testBit_shiftLeft_add]
  simp only [emitted_inst_reads_bits, emitted_jump_reads_bits]
  rw [hl, hp]
  by_cases hlive : sA.instruction_mask.testBit (sA.instruction_range.1 + c) = true
  · have hs := hslots _ hlive
    rw [← e] at hs
    by_cases hpatch : sA.instructions_to_patch.testBit (sA.instruction_range.1 + c) = true
    · have hb := ((hinv.1.2.1 _).1 hpatch).2
      have hge : sA.instruction_range.1 ≤
          jump_address (v128.loadu A (sA.instruction_range.1 + c)) := by
        rcases hinv.2.1 _ hpatch with h | h | h
        · exact (hinv.1.1 _ h).1
        · simp at h
        · exact Nat.le_trans (Nat.le_trans (Nat.le_add_right _ c)
            (Nat.le_of_lt (hinv.1.1 _ hlive).2.2)) h.1
      obtain ⟨p1, p2⟩ := slot_relocated_patch k _ _ sA.instruction_range.1 hs hb hge
      rw [hfirst] at p1 p2 ⊢
      simp only [hlive, hpatch, if_true, p1, p2, and_self, implies_true]
    · have hb : ¬ is_branch (v128.loadu A (sA.instruction_range.1 + c)) = true := by
        intro hb
        exact hpatch ((hinv.1.2.1 _).2 ⟨hlive, hb⟩)
      unfold slot_relocated at hs
      rw [if_neg hb] at hs
      simp only [hlive, hpatch, if_true, Bool.false_eq_true, if_false, hs, and_false,
        implies_true, and_self]
  · simp only [hlive, Bool.false_eq_true, if_false, false_and, implies_true, and_self]

/-- Relocation invariance of `analyse_vertex_program` when the reads past the end of the two
bitsets yield the bits of the `Nat`s standing for them. -/
theorem analyse_vertex_program_relocation_bits (A B : Nat → Nat) (e k : Nat)
    (dstA dstB : RSXVertexProgram) (rA rB : vertex_program_metadata)
    (pA pB : RSXVertexProgram)
    (hA : analyse_vertex_program reads_bits A e dstA = .done (rA, pA))
    (hB : analyse_vertex_program reads_bits B (e + k) dstB = .done (rB, pB))
    (hslots : ∀ i, rA.instruction_mask.testBit i = true →
      slot_relocated k (v128.loadu A i) (v128.loadu B (i + k)))
    (hA511 : rA.instruction_mask.testBit 511 = false)
    (hB511 : rB.instruction_mask.testBit 511 = false)
    (hjt : dstA.jump_table = dstB.jump_table)
    (hout : dstA.output_mask = dstB.output_mask)
    (htex : dstA.texture_state = dstB.texture_state) :
    pA.data = pB.data ∧ pA.instruction_mask = pB.instruction_mask ∧
    pA.jump_table = pB.jump_table ∧ pB.base_address = pA.base_address + k ∧
    vertex_program_storage_hash pA = vertex_program_storage_hash pB ∧
    vertex_program_compare pA pB = true := by
  obtain ⟨sA, hsA, hinvA, haA⟩ := analyse_vertex_program_done reads_bits A e dstA rA pA hA
  obtain ⟨sB, hsB, hinvB, haB⟩ :=
    analyse_vertex_program_done reads_bits B (e + k) dstB rB pB hB
  rw [haA.result_mask] at hslots hA511
  rw [haB.result_mask] at hB511
  have hR := walk_function_relocated A B k sA.instruction_mask sB.instruction_mask hslots
    hA511 hB511 walk_depth e false _ _ sA sB (relocated_init k) hsA hsB (fun _ hi => hi)
    (fun _ hi => hi)
  obtain ⟨a1, _, _, _, _⟩ := walk_done_range A e sA hinvA
  have hrange : sB.instruction_range
      = (sA.instruction_range.1 + k, sA.instruction_range.2 + k) := by
    rcases hR.range with ⟨h, _⟩ | ⟨_, h⟩
    · rw [h] at a1
      have := hinvA.1.1 e hinvA.2.2.2
      have h512 : e < 512 := this.2.2
      simp only [umax] at a1
      omega
    · exact h
  have hfirst : sB.instruction_range.1 = sA.instruction_range.1 + k := by rw [hrange]
  have hsecond : sB.instruction_range.2 = sA.instruction_range.2 + k := by rw [hrange]
  have hcount : sB.instruction_range.2 - sB.instruction_range.1 + 1
      = sA.instruction_range.2 - sA.instruction_range.1 + 1 := by omega
  have hdata : pA.data = pB.data := by
    apply list_eq_of_slots _ _ (sA.instruction_range.2 - sA.instruction_range.1 + 1)
      haA.length (by rw [haB.length, hcount])
    intro c hc
    rw [haA.slots c hc, haB.slots c (by rw [hcount]; exact hc)]
    exact ((emitted_relocated A B k e sA sB hinvA hR hslots hfirst c).1).symm
  have hmask : pA.instruction_mask = pB.instruction_mask := by
    rw [haA.mask, haB.mask, hR.mask, hfirst, shiftLeft_shiftRight_add]
  have hjumps : pA.jump_table = pB.jump_table := by
    rw [haA.jumps, haB.jumps, hR.branch, hcount, hjt]
    split
    · apply foldl_congr_mem
      intro jt c _
      exact ((emitted_relocated A B k e sA sB hinvA hR hslots hfirst c).2 jt).symm
    · rfl
  have hcmp : vertex_program_compare pA pB = true :=
    vertex_program_compare_of_eq pA pB (by rw [haA.output_mask, haB.output_mask, hout])
      (by rw [haA.texture, haB.texture, htex]) hjumps hmask hdata
  refine ⟨hdata, hmask, hjumps, by rw [haA.base, haB.base, hfirst], ?_, hcmp⟩
  exact vertex_program_compare_hash pA pB hcmp

/-- C2, as the code has it: relocation invariance of `analyse_vertex_program`. Let the
image `B` hold every slot `i` visited by the walk on `A` at slot `i + k` with identical
words, except that in the slots whose scalar opcode is `BRI`, `BRB`, `CAL`, `CLI` or `CLB`
the encoded branch target is increased by `k`. If neither the analysis of `(A, e)` nor
that of `(B, e + k)` faults or reaches slot 511, both extracted ranges end inside the
image (`base_address + instruction_count ≤ 512`), and the two output objects hold on
entry the same jump table, `output_mask` and texture state, then the two analyses yield
identical `dst.data`, identical `dst.instruction_mask` and `dst.jump_table`, base
addresses that differ by exactly `k`, equal vertex-program hashes and a true
`vertex_program_compare`. -/
theorem analyse_vertex_program_relocation (oobA oobB : undefined_reads) (A B : Nat → Nat)
    (e k : Nat) (dstA dstB : RSXVertexProgram) (rA rB : vertex_program_metadata)
    (pA pB : RSXVertexProgram)
    (hA : analyse_vertex_program oobA A e dstA = .done (rA, pA))
    (hB : analyse_vertex_program oobB B (e + k) dstB = .done (rB, pB))
    (hslots : ∀ i, rA.instruction_mask.testBit i = true →
      slot_relocated k (v128.loadu A i) (v128.loadu B (i + k)))
    (hA511 : rA.instruction_mask.testBit 511 = false)
    (hB511 : rB.instruction_mask.testBit 511 = false)
    (hinA : pA.base_address + instruction_count rA ≤ max_vertex_program_instructions)
    (hinB : pB.base_address + instruction_count rB ≤ max_vertex_program_instructions)
    (hjt : dstA.jump_table = dstB.jump_table)
    (hout : dstA.output_mask = dstB.output_mask)
    (htex : dstA.texture_state = dstB.texture_state) :
    pA.data = pB.data ∧ pA.instruction_mask = pB.instruction_mask ∧
    pA.jump_table = pB.jump_table ∧ pB.base_address = pA.base_address + k ∧
    vertex_program_storage_hash pA = vertex_program_storage_hash pB ∧
    vertex_program_compare pA pB = true :=
  analyse_vertex_program_relocation_bits A B e k dstA dstB rA rB pA pB
    (analyse_vertex_program_reads oobA reads_bits A e dstA rA pA hA hinA)
    (analyse_vertex_program_reads oobB reads_bits B (e + k) dstB rB pB hB hinB)
    hslots hA511 hB511 hjt hout htex

theorem static_branch_slots (i : Nat) (hi : (33 : Nat).testBit i = true) :
    slot_relocated 3 (v128.loadu (static_branch_image 0 0xFFFFFFFF) i)
      (v128.loadu (static_branch_image 3 0x12345678) (i + 3)) := by
  have hlt : i < 6 := by
    by_contra hge
    have : (33 : Nat).testBit i = false :=
      Nat.testBit_lt_two_pow (Nat.lt_of_lt_of_le (by decide : 33 < 2 ^ 6)
        (Nat.pow_le_pow_right (by decide) (Nat.le_of_not_lt hge)))
    rw [this] at hi
    exact absurd hi (by decide)
  interval_cases i <;> first | decide | exact absurd hi (by decide)

set_option maxRecDepth 100000 in
/-- Witness of C2: the forward static branch at slot 0 of an image filled with `0xFFFFFFFF`
and at slot 3 of an image filled with `0x12345678`. -/
theorem analyse_vertex_program_relocation_witness :
    analyse_vertex_program reads_bits (static_branch_image 0 0xFFFFFFFF) 0
        RSXVertexProgram.fresh
      = .done (⟨33, 96, 0, 1⟩,
        ⟨[7168, 1207959552, 0, 2684354560, 0, 0, 0, 0, 0, 0, 0, 0, 0, 0, 0, 0, 0, 0, 0, 0,
          0, 0, 0, 1], ⟨0, 0, 0⟩, 0, 0, 0, 33, [5]⟩) ∧
    analyse_vertex_program reads_bits (static_branch_image 3 0x12345678) (0 + 3)
        RSXVertexProgram.fresh
      = .done (⟨264, 96, 0, 1⟩,
        ⟨[7168, 1207959552, 0, 2684354560, 0, 0, 0, 0, 0, 0, 0, 0, 0, 0, 0, 0, 0, 0, 0, 0,
          0, 0, 0, 1], ⟨0, 0, 0⟩, 0, 3, 3, 33, [5]⟩) ∧
    vertex_program_compare
      ⟨[7168, 1207959552, 0, 2684354560, 0, 0, 0, 0, 0, 0, 0, 0, 0, 0, 0, 0, 0, 0, 0, 0,
        0, 0, 0, 1], ⟨0, 0, 0⟩, 0, 0, 0, 33, [5]⟩
      ⟨[7168, 1207959552, 0, 2684354560, 0, 0, 0, 0, 0, 0, 0, 0, 0, 0, 0, 0, 0, 0, 0, 0,
        0, 0, 0, 1], ⟨0, 0, 0⟩, 0, 3, 3, 33, [5]⟩ = true :=
  ⟨by decide, by decide,
    (analyse_vertex_program_relocation reads_bits reads_bits (static_branch_image 0 0xFFFFFFFF)
      (static_branch_image 3 0x12345678) 0 3 RSXVertexProgram.fresh RSXVertexProgram.fresh
      ⟨33, 96, 0, 1⟩ ⟨264, 96, 0, 1⟩
      ⟨[7168, 1207959552, 0, 2684354560, 0, 0, 0, 0, 0, 0, 0, 0, 0, 0, 0, 0, 0, 0, 0, 0,
        0, 0, 0, 1], ⟨0, 0, 0⟩, 0, 0, 0, 33, [5]⟩
      ⟨[7168, 1207959552, 0, 2684354560, 0, 0, 0, 0, 0, 0, 0, 0, 0, 0, 0, 0, 0, 0, 0, 0,
        0, 0, 0, 1], ⟨0, 0, 0⟩, 0, 3, 3, 33, [5]⟩
      (by decide) (by decide) static_branch_slots
      (by decide) (by decide) (by decide) (by decide) rfl rfl rfl).2.2.2.2.2⟩

set_option maxRecDepth 100000 in
/-- C2 as stated fails: `analyse_vertex_program` only adds to `dst.jump_table`. The forward
static branch analysed at slot 0 into a fresh output object, and its copy moved up by 3
slots analysed into an output object with the same `output_mask` and texture state whose
jump table already holds 7, both complete without reaching slot 511, whatever the
undefined reads yield; the jump tables come out as `{5}` and `{5, 7}`, and
`vertex_program_compare` is false. -/
theorem analyse_vertex_program_relocation_counterexample :
    ∃ rA pA rB pB,
      (∀ oob, analyse_vertex_program oob (static_branch_image 0 0xFFFFFFFF) 0
        RSXVertexProgram.fresh = .done (rA, pA)) ∧
      (∀ oob, analyse_vertex_program oob (static_branch_image 3 0x12345678) (0 + 3)
        { RSXVertexProgram.fresh with jump_table := [7] } = .done (rB, pB)) ∧
      (∀ i, rA.instruction_mask.testBit i = true →
        slot_relocated 3 (v128.loadu (static_branch_image 0 0xFFFFFFFF) i)
          (v128.loadu (static_branch_image 3 0x12345678) (i + 3))) ∧
      rA.instruction_mask.testBit 511 = false ∧ rB.instruction_mask.testBit 511 = false ∧
      pA.jump_table = [5] ∧ pB.jump_table = [5, 7] ∧
      vertex_program_compare pA pB = false :=
  ⟨⟨33, 96, 0, 1⟩,
    ⟨[7168, 1207959552, 0, 2684354560, 0, 0, 0, 0, 0, 0, 0, 0, 0, 0, 0, 0, 0, 0, 0, 0,
      0, 0, 0, 1], ⟨0, 0, 0⟩, 0, 0, 0, 33, [5]⟩,
    ⟨264, 96, 0, 1⟩,
    ⟨[7168, 1207959552, 0, 2684354560, 0, 0, 0, 0, 0, 0, 0, 0, 0, 0, 0, 0, 0, 0, 0, 0,
      0, 0, 0, 1], ⟨0, 0, 0⟩, 0, 3, 3, 33, [5, 7]⟩,
    fun oob => analyse_vertex_program_reads reads_bits oob _ _ _ _ _ (by decide) (by decide),
    fun oob => analyse_vertex_program_reads reads_bits oob _ _ _ _ _ (by decide) (by decide),
    static_branch_slots, by decide, by decide, rfl, rfl, by decide⟩

/-! ## The fuel of the walk -/

theorem countP_range_update (p q : Nat → Bool) (i : Nat) (hp : p i = true) (hq : q i = false)
    (h : ∀ j, j ≠ i → q j = p j) (n : Nat) :
    (List.range n).countP q + (if i < n then 1 else 0) = (List.range n).countP p := by
  induction n with
  | zero => simp
  | succ m ih =>
    rw [List.range_succ, List.countP_append, List.countP_append]
    simp only [List.countP_cons, List.countP_nil, Nat.zero_add]
    by_cases hm : m = i
    · subst hm
      simp only [hp, hq, Nat.lt_irrefl, if_false, Nat.add_zero, if_true,
        Bool.false_eq_true, Nat.lt_succ_self] at ih ⊢
      omega
    · rw [h m hm]
      by_cases hlt : i < m
      · simp only [hlt, if_true, show i < m + 1 by omega] at ih ⊢
        omega
      · simp only [hlt, if_false, show ¬ i < m + 1 by omega] at ih ⊢
        omega

theorem unmarked_bitset_set (m i : Nat) (hi : i < max_vertex_program_instructions)
    (hf : m.testBit i = false) : unmarked (bitset_set m i) + 1 = unmarked m := by
  have h := countP_range_update (fun j => !m.testBit j) (fun j => !(bitset_set m i).testBit j)
    i (by simp [hf]) (by simp [testBit_bitset_set])
    (by
      intro j hj
      have : ¬ i = j := fun e => hj e.symm
      simp [testBit_bitset_set, this])
    max_vertex_program_instructions
  rw [if_pos hi] at h
  exact h

theorem unmarked_le (m : Nat) : unmarked m ≤ max_vertex_program_instructions := by
  unfold unmarked
  exact Nat.le_trans (List.countP_le_length _) (by simp)

theorem unmarked_mono (m m' : Nat)
    (h : ∀ i, m.testBit i = true → m'.testBit i = true) : unmarked m' ≤ unmarked m := by
  unfold unmarked
  apply List.countP_mono_left
  intro i _ hi
  cases hm : m.testBit i with
  | false => rfl
  | true => rw [h i hm] at hi; simp at hi

theorem walk_iteration_measure (data : Nat → Nat) (fe : Bool) (cur : Nat) (ct : List Nat)
    (s : walk_state) (cur' : Nat) (ct' : List Nat) (s' : walk_state)
    (h : walk_iteration data fe cur ct s = .next cur' ct' s') :
    unmarked s'.instruction_mask * 513 + (512 - cur') <
      unmarked s.instruction_mask * 513 + (512 - cur) := by
  rcases walk_iteration_cases data fe cur ct s with
    ⟨_, hf⟩ | ⟨hlt, _, _, hn⟩ | ⟨_, _, _, hs⟩ | ⟨hlt, hfresh, ct1, s1, hv, hn | ⟨hs, _⟩⟩
  · rw [hf] at h; simp at h
  · rw [hn] at h
    simp only [loop_ctl.next.injEq] at h
    obtain ⟨rfl, rfl, rfl⟩ := h
    have : cur < 512 := hlt
    omega
  · rw [hs] at h; simp at h
  · rw [hn] at h
    simp only [loop_ctl.next.injEq] at h
    obtain ⟨rfl, rfl, rfl⟩ := h
    have := unmarked_bitset_set s.instruction_mask cur hlt hfresh
    rw [hv.mask]
    omega
  · rw [hs] at h; simp at h

theorem walk_loop_fuel_enough (data : Nat → Nat) (fe : Bool) :
    ∀ fuel cur ct s, unmarked s.instruction_mask * 513 + (512 - cur) < fuel →
      walk_loop data fe fuel cur ct s ≠ .out_of_fuel := by
  intro fuel
  induction fuel with
  | zero => intro cur ct s h; omega
  | succ n ih =>
    intro cur ct s h
    simp only [walk_loop]
    split
    · simp
    · simp
    · rename_i c1 ct1 s1 heq
      have := walk_iteration_measure data fe cur ct s c1 ct1 s1 heq
      exact ih c1 ct1 s1 (by omega)

theorem walk_loop_unmarked (data : Nat → Nat) (fe : Bool) (U : Nat) :
    ∀ fuel cur ct s ct' s',
      (unmarked s.instruction_mask ≤ U ∧ (ct ≠ [] → unmarked s.instruction_mask < U)) →
      walk_loop data fe fuel cur ct s = .done (ct', s') →
      (unmarked s'.instruction_mask ≤ U ∧ (ct' ≠ [] → unmarked s'.instruction_mask < U)) := by
  apply walk_loop_induction data fe
    (fun _ ct s => unmarked s.instruction_mask ≤ U ∧
      (ct ≠ [] → unmarked s.instruction_mask < U))
    (fun ct s => unmarked s.instruction_mask ≤ U ∧
      (ct ≠ [] → unmarked s.instruction_mask < U))
  · intro cur ct s cur' ct' s' hJ h
    rcases walk_iteration_cases data fe cur ct s with
      ⟨_, hf⟩ | ⟨hlt, _, _, hn⟩ | ⟨_, _, _, hs⟩ | ⟨hlt, hfresh, ct1, s1, hv, hn | ⟨hs, _⟩⟩
    · rw [hf] at h; simp at h
    · rw [hn] at h
      simp only [loop_ctl.next.injEq] at h
      obtain ⟨rfl, rfl, rfl⟩ := h
      exact hJ
    · rw [hs] at h; simp at h
    · rw [hn] at h
      simp only [loop_ctl.next.injEq] at h
      obtain ⟨rfl, rfl, rfl⟩ := h
      have := unmarked_bitset_set s.instruction_mask cur hlt hfresh
      rw [hv.mask]
      exact ⟨by omega, fun _ => by omega⟩
    · rw [hs] at h; simp at h
  · intro cur ct s ct' s' hJ h
    rcases walk_iteration_cases data fe cur ct s with
      ⟨_, hf⟩ | ⟨_, _, _, hn⟩ | ⟨hlt, _, _, hs⟩ | ⟨hlt, hfresh, ct1, s1, hv, hn | ⟨hs, _⟩⟩
    · rw [hf] at h; simp at h
    · rw [hn] at h; simp at h
    · rw [hs] at h
      simp only [loop_ctl.stop.injEq] at h
      obtain ⟨rfl, rfl⟩ := h
      exact hJ
    · rw [hn] at h; simp at h
    · rw [hs] at h
      simp only [loop_ctl.stop.injEq] at h
      obtain ⟨rfl, rfl⟩ := h
      have := unmarked_bitset_set s.instruction_mask cur hlt hfresh
      rw [hv.mask]
      exact ⟨by omega, fun _ => by omega⟩

theorem walk_targets_fuel_enough (oob : undefined_reads) (data : Nat → Nat) (d : Nat)
    (ih : ∀ start fe s, unmarked s.instruction_mask < d →
      walk_function oob data d start fe s ≠ .out_of_fuel) :
    ∀ (l : List Nat) s, (l ≠ [] → unmarked s.instruction_mask < d) →
      walk_targets oob (fun target s => walk_function oob data d target true s) l s
        ≠ .out_of_fuel := by
  intro l
  induction l with
  | nil => intro s _; simp [walk_targets]
  | cons t rest ihl =>
    intro s hU
    have hU' := hU (by simp)
    simp only [walk_targets]
    split
    · split
      · rename_i s1 heq
        have hm := walk_function_mask_mono oob data s.instruction_mask d [] t true s s1
          (fun _ hi => hi) heq
        have := unmarked_mono _ _ hm
        exact ihl s1 (fun _ => by omega)
      · simp
      · rename_i heq
        exact absurd heq (ih t true s hU')
    · exact ihl s (fun _ => hU')

theorem walk_function_fuel_enough (oob : undefined_reads) (data : Nat → Nat) :
    ∀ depth start fe s, unmarked s.instruction_mask < depth →
      walk_function oob data depth start fe s ≠ .out_of_fuel := by
  intro depth
  induction depth with
  | zero => intro start fe s h; omega
  | succ d ih =>
    intro start fe s hU
    simp only [walk_function]
    split
    · rename_i ct1 s1 heq
      have h1 := walk_loop_unmarked data fe (unmarked s.instruction_mask) _ _ _ _ _ _
        ⟨Nat.le_refl _, fun h => absurd rfl h⟩ heq
      exact walk_targets_fuel_enough oob data d ih ct1 s1 (fun hne => by
        have := h1.2 hne
        omega)
    · simp
    · rename_i heq
      have hle := unmarked_le s.instruction_mask
      have hle' : unmarked s.instruction_mask ≤ 512 := hle
      exact absurd heq (walk_loop_fuel_enough data fe walk_loop_fuel start [] s (by
        simp only [walk_loop_fuel]
        omega))

/-- The fuel of the model is enough: on every image and every entry the outermost walk
either returns or trips the bounds assertion. -/
theorem walk_function_total (oob : undefined_reads) (data : Nat → Nat) (entry : Nat) :
    walk_function oob data walk_depth entry false walk_state.init = .fault ∨
    ∃ s, walk_function oob data walk_depth entry false walk_state.init = .done s := by
  have h := walk_function_fuel_enough oob data walk_depth entry false walk_state.init (by
    have := unmarked_le walk_state.init.instruction_mask
    have h512 : unmarked walk_state.init.instruction_mask ≤ 512 := this
    simp only [walk_depth]
    omega)
  cases hw : walk_function oob data walk_depth entry false walk_state.init with
  | done s => exact Or.inr ⟨s, rfl⟩
  | fault => exact Or.inl rfl
  | out_of_fuel => exact absurd hw h

/-- On every image and every entry `analyse_vertex_program` either returns or trips an
assertion; when it trips one, it is the bounds assertion of the walk. -/
theorem analyse_vertex_program_total (oob : undefined_reads) (data : Nat → Nat) (entry : Nat)
    (dst : RSXVertexProgram) :
    (analyse_vertex_program oob data entry dst = .fault ∧
      walk_function oob data walk_depth entry false walk_state.init = .fault) ∨
    ∃ r p, analyse_vertex_program oob data entry dst = .done (r, p) := by
  rcases walk_function_total oob data entry with h | ⟨s, h⟩
  · left
    exact ⟨by unfold analyse_vertex_program; rw [h], h⟩
  · right
    obtain ⟨r, p, hd, _⟩ := analyse_vertex_program_of_walk oob data entry dst s h
    exact ⟨r, p, hd⟩

/-! ## Fragment program analysis -/

theorem analyse_fragment_slot_index (inst : v128) (index : Nat)
    (result : fragment_program_metadata) :
    (analyse_fragment_slot inst index result).1 =
      if !fp_branch inst && has_constant inst then index + 1 else index := by
  unfold analyse_fragment_slot
  cases hb : fp_branch inst <;> cases hc : has_constant inst <;>
    simp only [if_true, if_false, Bool.not_true, Bool.not_false, Bool.and_true, Bool.and_false,
      Bool.false_and, Bool.true_and, Bool.false_eq_true] <;>
    split_ifs <;> rfl

/-- The first slot of a stream that has opcode 0 and the end bit makes a NOP shader of 16
bytes; its start offset is 0 when the slot carries the branch marker or has no source
operand marked constant. -/
theorem analyse_fragment_program_nop (ptr : Nat → Nat) (fuel : Nat)
    (hop : fp_opcode (v128.loadu ptr 0) = 0) (hend : fp_end (v128.loadu ptr 0) = true) :
    ∃ r, analyse_fragment_program (fuel + 1) ptr = some r ∧ r.is_nop_shader = true ∧
      r.program_ucode_length = 16 ∧
      r.program_start_offset =
        if !fp_branch (v128.loadu ptr 0) && has_constant (v128.loadu ptr 0) then 16 else 0 := by
  unfold analyse_fragment_program analyse_fragment_program_loop
  simp only [hend, if_true]
  have hstart : (analyse_fragment_slot (v128.loadu ptr 0) 0
      fragment_program_metadata.init).2.program_start_offset = umax := by
    unfold analyse_fragment_slot
    by_cases hb : fp_branch (v128.loadu ptr 0) = true
    · simp [hb, fragment_program_metadata.init]
    · by_cases hc : has_constant (v128.loadu ptr 0) = true
      · simp [hb, hc, hop, fragment_program_metadata.init]
      · simp [hb, hc, hop, fragment_program_metadata.init]
  simp only [hstart, beq_self_eq_true, if_true, Option.map_some', analyse_fragment_slot_index]
  refine ⟨_, rfl, rfl, rfl, ?_⟩
  show ((if (!fp_branch (v128.loadu ptr 0) && has_constant (v128.loadu ptr 0)) = true
    then 0 + 1 else 0) * 16) % 4294967296 = _
  split <;> rfl

/-- C11: on the stream whose first slot is `[0x100, 0x200, 0, 0]` (opcode 0, end bit set,
first source operand marked constant) `analyse_fragment_program` returns a NOP shader of
16 bytes whose `program_start_offset` is 16, not 0: the constant slot is skipped before the
start offset is taken from `index`. -/
theorem analyse_fragment_program_nop_constant :
    fp_opcode (v128.loadu fp_nop_constant_stream 0) = 0 ∧
    fp_end (v128.loadu fp_nop_constant_stream 0) = true ∧
    ∀ fuel, analyse_fragment_program (fuel + 1) fp_nop_constant_stream =
      some { fragment_program_metadata.init with
        program_start_offset := 16
        program_ucode_length := 16
        program_constants_buffer_length := 16
        is_nop_shader := true } := by
  refine ⟨by decide, by decide, fun fuel => ?_⟩
  unfold analyse_fragment_program analyse_fragment_program_loop
  rfl

theorem analyse_fragment_opcode_fields (inst : v128) (index : Nat)
    (result : fragment_program_metadata) :
    (analyse_fragment_opcode inst index result).program_start_offset =
      (if result.program_start_offset = umax then (index * 16) % 4294967296
        else result.program_start_offset) ∧
    (analyse_fragment_opcode inst index result).program_ucode_length =
      result.program_ucode_length ∧
    (analyse_fragment_opcode inst index result).program_constants_buffer_length =
      result.program_constants_buffer_length ∧
    (analyse_fragment_opcode inst index result).is_nop_shader = result.is_nop_shader := by
  unfold analyse_fragment_opcode
  by_cases hs : result.program_start_offset = umax
  · simp only [hs, beq_self_eq_true, if_true]
    split_ifs <;> exact ⟨rfl, rfl, rfl, rfl⟩
  · have hs' : (result.program_start_offset == umax) = false := by simpa using hs
    simp only [hs, hs', if_false, Bool.false_eq_true]
    split_ifs <;> exact ⟨rfl, rfl, rfl, rfl⟩

/-- What one pass of the loop body of `analyse_fragment_program` does to the start offset,
the two lengths and the NOP flag of `result`. -/
theorem analyse_fragment_slot_fields (inst : v128) (index : Nat)
    (result : fragment_program_metadata) :
    (analyse_fragment_slot inst index result).2.program_start_offset =
      (if result.program_start_offset = umax ∧ fp_branch inst = false ∧ fp_opcode inst ≠ 0
        then (index * 16) % 4294967296 else result.program_start_offset) ∧
    (analyse_fragment_slot inst index result).2.program_constants_buffer_length =
      (if analyse_fragment_skips inst then u32_add result.program_constants_buffer_length 16
        else result.program_constants_buffer_length) ∧
    (analyse_fragment_slot inst index result).2.program_ucode_length =
      (if (analyse_fragment_slot inst index result).2.program_start_offset = umax then
        (if analyse_fragment_skips inst then u32_add result.program_ucode_length 16
          else result.program_ucode_length)
       else u32_add (if analyse_fragment_skips inst then u32_add result.program_ucode_length 16
          else result.program_ucode_length) 16) ∧
    (analyse_fragment_slot inst index result).2.is_nop_shader = result.is_nop_shader := by
  obtain ⟨o1, o2, o3, o4⟩ := analyse_fragment_opcode_fields inst index result
  unfold analyse_fragment_slot analyse_fragment_skips
  cases hb : fp_branch inst
  · by_cases hop : fp_opcode inst = 0
    · have hop' : (fp_opcode inst != 0) = false := by simpa using hop
      cases hc : has_constant inst <;>
        simp only [hop, hop', if_false, if_true, Bool.false_eq_true, Bool.not_false,
          Bool.true_and, Bool.and_true, Bool.and_false, ne_eq, not_true_eq_false, and_false,
          bne_iff_ne] <;>
        split_ifs <;> simp_all
    · have hop' : (fp_opcode inst != 0) = true := by simpa using hop
      cases hc : has_constant inst <;>
        simp only [hop, hop', if_false, if_true, Bool.false_eq_true, Bool.not_false,
          Bool.true_and, Bool.and_true, Bool.and_false, ne_eq, not_false_eq_true, and_true,
          bne_iff_ne, o1, o2, o3, o4] <;>
        split_ifs <;> simp_all
  · simp only [if_true, Bool.not_true, Bool.false_and, Bool.false_eq_true, if_false,
      Bool.true_eq_false, false_and, and_false, bne_iff_ne, ne_eq]
    split_ifs <;> simp_all

theorem fp_instruction_slots_ge (skips : v128 → Bool) (ptr : Nat → Nat) :
    ∀ fuel index i, i ∈ fp_instruction_slots skips ptr fuel index → index ≤ i := by
  intro fuel
  induction fuel with
  | zero => intro index i h; simp [fp_instruction_slots] at h
  | succ n ih =>
    intro index i h
    unfold fp_instruction_slots at h
    dsimp only at h
    rcases List.mem_cons.1 h with rfl | h
    · exact Nat.le_refl _
    · split_ifs at h
      · simp at h
      · have := ih _ _ h; omega
      · have := ih _ _ h; omega

/-- The walk of `analyse_fragment_program` once `program_start_offset` is assigned: every
slot it consumes from `index` on adds 16 to `program_ucode_length`, every constant slot it
skips adds 16 to `program_constants_buffer_length`. -/
theorem analyse_fragment_program_loop_started (ptr : Nat → Nat) :
    ∀ fuel index result e r, result.program_start_offset ≠ umax →
      result.program_constants_buffer_length < 4294967296 →
      analyse_fragment_program_loop ptr fuel index result = some (e, r) →
      index ≤ e ∧ r.program_start_offset = result.program_start_offset ∧
      r.is_nop_shader = result.is_nop_shader ∧
      r.program_ucode_length =
        (result.program_ucode_length + 16 * (e + 1 - index)) % 4294967296 ∧
      r.program_constants_buffer_length =
        (result.program_constants_buffer_length +
          16 * ((fp_instruction_slots analyse_fragment_skips ptr fuel index).filter
            (fun i => analyse_fragment_skips (v128.loadu ptr i))).length) % 4294967296 := by
  intro fuel
  induction fuel with
  | zero => intro index result e r _ _ h; simp [analyse_fragment_program_loop] at h
  | succ n ih =>
    intro index result e r hs hc h
    obtain ⟨f1, f2, f3, f4⟩ := analyse_fragment_slot_fields (v128.loadu ptr index) index result
    have hidx := analyse_fragment_slot_index (v128.loadu ptr index) index result
    rw [show (!fp_branch (v128.loadu ptr index) && has_constant (v128.loadu ptr index)) =
      analyse_fragment_skips (v128.loadu ptr index) from rfl] at hidx
    have g1 : (analyse_fragment_slot (v128.loadu ptr index) index result).2.program_start_offset
        = result.program_start_offset := by
      rw [f1, if_neg (fun hh => hs hh.1)]
    rw [g1, if_neg hs] at f3
    have g1' : ((analyse_fragment_slot (v128.loadu ptr index) index
        result).2.program_start_offset == umax) = false := by
      rw [g1]; simpa using hs
    unfold analyse_fragment_program_loop at h
    unfold fp_instruction_slots
    dsimp only at h ⊢
    rw [g1'] at h
    simp only [Bool.false_eq_true, if_false] at h
    by_cases hend : fp_end (v128.loadu ptr index) = true
    · rw [if_pos hend] at h
      rw [if_pos hend]
      obtain ⟨he, hr⟩ := Prod.mk.inj (Option.some.inj h)
      subst hr
      rw [hidx] at he
      refine ⟨?_, g1, f4, ?_, ?_⟩
      · rw [← he]; split_ifs <;> omega
      · rw [f3, ← he]
        unfold u32_add
        split_ifs <;> omega
      · rw [f2, List.filter_cons]
        unfold u32_add
        cases hsk : analyse_fragment_skips (v128.loadu ptr index)
        · simp only [Bool.false_eq_true, if_false, List.filter_nil, List.length_nil]
          omega
        · simp only [if_true, List.filter_nil, List.length_singleton]
    · rw [if_neg hend] at h
      rw [if_neg hend]
      have hc' : (analyse_fragment_slot (v128.loadu ptr index) index
          result).2.program_constants_buffer_length < 4294967296 := by
        rw [f2]
        split_ifs
        · unfold u32_add; omega
        · exact hc
      obtain ⟨i1, i2, i3, i4, i5⟩ := ih _ _ e r (by rw [g1]; exact hs) hc' h
      rw [hidx] at i1 i4 i5
      have hnext : (if analyse_fragment_skips (v128.loadu ptr index) = true then index + 2
          else index + 1) = (if analyse_fragment_skips (v128.loadu ptr index) = true
            then index + 1 else index) + 1 := by
        split_ifs <;> rfl
      rw [hnext]
      refine ⟨?_, by rw [i2, g1], by rw [i3, f4], ?_, ?_⟩
      · split_ifs at i1 <;> omega
      · rw [i4, f3]
        unfold u32_add
        split_ifs at i1 ⊢ <;> omega
      · rw [i5, f2, List.filter_cons]
        unfold u32_add
        cases hsk : analyse_fragment_skips (v128.loadu ptr index)
        · simp only [Bool.false_eq_true, if_false]
        · simp only [if_true, List.length_cons]
          omega

theorem fp_instruction_slots_subset (skips : v128 → Bool) (ptr : Nat → Nat) (fuel index : Nat)
    (hend : ¬ fp_end (v128.loadu ptr index) = true) (i : Nat)
    (hi : i ∈ fp_instruction_slots skips ptr fuel
      ((if skips (v128.loadu ptr index) = true then index + 1 else index) + 1)) :
    i ∈ fp_instruction_slots skips ptr (fuel + 1) index := by
  unfold fp_instruction_slots
  dsimp only
  rw [if_neg hend]
  have hnext : (if skips (v128.loadu ptr index) = true then index + 2 else index + 1) =
      (if skips (v128.loadu ptr index) = true then index + 1 else index) + 1 := by
    split_ifs <;> rfl
  rw [hnext]
  exact List.mem_cons_of_mem _ hi

/-- The walk of `analyse_fragment_program` up to the assignment of `program_start_offset`,
on a stream in which no instruction before the program start has a constant slot: the
lengths count the slots from the program start on. -/
theorem analyse_fragment_program_loop_fresh (ptr : Nat → Nat) :
    ∀ fuel index result e r, result.program_start_offset = umax →
      result.program_constants_buffer_length < 4294967296 →
      analyse_fragment_program_loop ptr fuel index result = some (e, r) →
      r.is_nop_shader = false → e < 2 ^ 27 →
      (∀ i ∈ fp_instruction_slots analyse_fragment_skips ptr fuel index,
        i * 16 < r.program_start_offset →
        analyse_fragment_skips (v128.loadu ptr i) = false) →
      ∃ start, start ∈ fp_instruction_slots analyse_fragment_skips ptr fuel index ∧
        start ≤ e ∧ r.program_start_offset = 16 * start ∧
        r.program_ucode_length =
          (result.program_ucode_length + 16 * (e + 1 - start)) % 4294967296 ∧
        r.program_constants_buffer_length =
          (result.program_constants_buffer_length +
            16 * ((fp_instruction_slots analyse_fragment_skips ptr fuel index).filter
              (fun i => decide (start ≤ i) &&
                analyse_fragment_skips (v128.loadu ptr i))).length) % 4294967296 := by
  intro fuel
  induction fuel with
  | zero => intro index result e r _ _ h; simp [analyse_fragment_program_loop] at h
  | succ n ih =>
    intro index result e r hs hc h hnop he hlead
    obtain ⟨f1, f2, f3, f4⟩ := analyse_fragment_slot_fields (v128.loadu ptr index) index result
    have hidx := analyse_fragment_slot_index (v128.loadu ptr index) index result
    rw [show (!fp_branch (v128.loadu ptr index) && has_constant (v128.loadu ptr index)) =
      analyse_fragment_skips (v128.loadu ptr index) from rfl] at hidx
    have hc' : (analyse_fragment_slot (v128.loadu ptr index) index
        result).2.program_constants_buffer_length < 4294967296 := by
      rw [f2]
      split_ifs
      · unfold u32_add; omega
      · exact hc
    have hhead : index ∈ fp_instruction_slots analyse_fragment_skips ptr (n + 1) index := by
      unfold fp_instruction_slots
      exact List.mem_cons_self _ _
    have hnext : (if analyse_fragment_skips (v128.loadu ptr index) = true then index + 2
        else index + 1) = (if analyse_fragment_skips (v128.loadu ptr index) = true
          then index + 1 else index) + 1 := by
      split_ifs <;> rfl
    unfold analyse_fragment_program_loop at h
    dsimp only at h
    rw [hidx] at h
    by_cases hset : fp_branch (v128.loadu ptr index) = false ∧
        fp_opcode (v128.loadu ptr index) ≠ 0
    · -- this instruction assigns the start offset
      rw [if_pos ⟨hs, hset⟩] at f1
      have g1 : (analyse_fragment_slot (v128.loadu ptr index) index
          result).2.program_start_offset ≠ umax := by
        rw [f1]; unfold umax; omega
      have g1' : ((analyse_fragment_slot (v128.loadu ptr index) index
          result).2.program_start_offset == umax) = false := by simpa using g1
      rw [if_neg g1] at f3
      rw [g1'] at h
      simp only [Bool.false_eq_true, if_false] at h
      by_cases hend : fp_end (v128.loadu ptr index) = true
      · rw [if_pos hend] at h
        obtain ⟨hee, hr⟩ := Prod.mk.inj (Option.some.inj h)
        subst hr
        have hie : index ≤ e := by rw [← hee]; split_ifs <;> omega
        have h27 : (2 : Nat) ^ 27 = 134217728 := by norm_num
        refine ⟨index, hhead, hie, by rw [f1]; omega, ?_, ?_⟩
        · rw [f3, ← hee]
          unfold u32_add
          split_ifs <;> omega
        · unfold fp_instruction_slots
          dsimp only
          rw [if_pos hend, f2, List.filter_cons]
          unfold u32_add
          cases hsk : analyse_fragment_skips (v128.loadu ptr index)
          · simp only [Bool.false_eq_true, if_false, Bool.and_false, List.filter_nil,
              List.length_nil]
            omega
          · simp only [if_true, Nat.le_refl, decide_True, Bool.and_self, List.filter_nil,
              List.length_singleton]
      · rw [if_neg hend] at h
        obtain ⟨i1, i2, i3, i4, i5⟩ :=
          analyse_fragment_program_loop_started ptr n _ _ e r g1 hc' h
        have hie : index ≤ e := by split_ifs at i1 <;> omega
        have h27 : (2 : Nat) ^ 27 = 134217728 := by norm_num
        refine ⟨index, hhead, hie, by rw [i2, f1]; omega, ?_, ?_⟩
        · rw [i4, f3]
          unfold u32_add
          split_ifs at i1 ⊢ <;> omega
        · unfold fp_instruction_slots
          dsimp only
          rw [if_neg hend, hnext, i5, f2, List.filter_cons]
          have hfilter : List.filter (fun i => decide (index ≤ i) &&
                analyse_fragment_skips (v128.loadu ptr i))
              (fp_instruction_slots analyse_fragment_skips ptr n
                ((if analyse_fragment_skips (v128.loadu ptr index) = true then index + 1
                  else index) + 1)) =
              List.filter (fun i => analyse_fragment_skips (v128.loadu ptr i))
                (fp_instruction_slots analyse_fragment_skips ptr n
                ((if analyse_fragment_skips (v128.loadu ptr index) = true then index + 1
                  else index) + 1)) := by
            apply List.filter_congr
            intro i hi
            have := fp_instruction_slots_ge _ ptr n _ i hi
            have hle : index ≤ i := by split_ifs at this <;> omega
            simp [hle]
          rw [hfilter]
          unfold u32_add
          cases hsk : analyse_fragment_skips (v128.loadu ptr index)
          · simp only [Bool.false_eq_true, if_false, Bool.and_false]
          · simp only [if_true, Nat.le_refl, decide_True, Bool.and_self, List.length_cons]
            omega
    · -- the start offset stays unassigned
      have g1 : (analyse_fragment_slot (v128.loadu ptr index) index
          result).2.program_start_offset = umax := by
        rw [f1, if_neg (fun hh => hset hh.2), hs]
      rw [if_pos g1] at f3
      rw [g1] at h
      simp only [beq_self_eq_true, if_true] at h
      by_cases hend : fp_end (v128.loadu ptr index) = true
      · rw [if_pos hend] at h
        obtain ⟨_, hr⟩ := Prod.mk.inj (Option.some.inj h)
        rw [← hr] at hnop
        simp at hnop
      · rw [if_neg hend] at h
        obtain ⟨start, j1, j2, j3, j4, j5⟩ := ih _ _ e r g1 hc' h hnop he
          (fun i hi => hlead i (fp_instruction_slots_subset _ ptr n index hend i hi))
        have hge := fp_instruction_slots_ge _ ptr n _ start j1
        have hlt : index < start := by split_ifs at hge <;> omega
        have hno : analyse_fragment_skips (v128.loadu ptr index) = false :=
          hlead index hhead (by rw [j3]; omega)
        rw [hno] at f2 f3
        simp only [Bool.false_eq_true, if_false] at f2 f3
        refine ⟨start, fp_instruction_slots_subset _ ptr n index hend start j1, j2, j3, ?_, ?_⟩
        · rw [j4, f3]
        · unfold fp_instruction_slots
          dsimp only
          rw [if_neg hend, hnext, j5, f2, List.filter_cons]
          have : (decide (start ≤ index) &&
              analyse_fragment_skips (v128.loadu ptr index)) = false := by
            simp [hno]
          rw [this]
          simp only [Bool.false_eq_true, if_false]

theorem fp_instruction_slots_head (skips : v128 → Bool) (ptr : Nat → Nat) (fuel index : Nat) :
    index ∈ fp_instruction_slots skips ptr (fuel + 1) index := by
  unfold fp_instruction_slots
  exact List.mem_cons_self _ _

/-- The slots that the walk of `analyse_fragment_program` consumes from an instruction
slot `start` on are the instruction slots from `start` on and the constant slots skipped
after them: together they are the slots `start .. e`. -/
theorem analyse_fragment_program_loop_consumed (ptr : Nat → Nat) :
    ∀ fuel index result e r,
      analyse_fragment_program_loop ptr fuel index result = some (e, r) →
      ∀ start, start ∈ fp_instruction_slots analyse_fragment_skips ptr fuel index →
        start ≤ e ∧
        ((fp_instruction_slots analyse_fragment_skips ptr fuel index).filter
            (fun i => decide (start ≤ i))).length +
          ((fp_instruction_slots analyse_fragment_skips ptr fuel index).filter
            (fun i => decide (start ≤ i) &&
              analyse_fragment_skips (v128.loadu ptr i))).length = e + 1 - start := by
  intro fuel
  induction fuel with
  | zero => intro index result e r h; simp [analyse_fragment_program_loop] at h
  | succ n ih =>
    intro index result e r h start hstart
    have hidx := analyse_fragment_slot_index (v128.loadu ptr index) index result
    rw [show (!fp_branch (v128.loadu ptr index) && has_constant (v128.loadu ptr index)) =
      analyse_fragment_skips (v128.loadu ptr index) from rfl] at hidx
    have hnext : (if analyse_fragment_skips (v128.loadu ptr index) = true then index + 2
        else index + 1) = (if analyse_fragment_skips (v128.loadu ptr index) = true
          then index + 1 else index) + 1 := by
      split_ifs <;> rfl
    unfold analyse_fragment_program_loop at h
    unfold fp_instruction_slots at hstart ⊢
    dsimp only at h hstart ⊢
    rw [hidx] at h
    by_cases hend : fp_end (v128.loadu ptr index) = true
    · rw [if_pos hend] at h hstart ⊢
      have hee : (if analyse_fragment_skips (v128.loadu ptr index) = true then index + 1
          else index) = e := by
        by_cases hs0 : ((analyse_fragment_slot (v128.loadu ptr index) index
            result).2.program_start_offset == umax) = true
        · rw [if_pos hs0] at h
          exact (Prod.mk.inj (Option.some.inj h)).1
        · rw [if_neg hs0] at h
          exact (Prod.mk.inj (Option.some.inj h)).1
      have hs : start = index := by simpa using hstart
      subst hs
      rw [List.filter_cons, List.filter_cons]
      cases hsk : analyse_fragment_skips (v128.loadu ptr start)
      · rw [hsk] at hee
        simp only [Bool.false_eq_true, if_false] at hee
        simp only [Nat.le_refl, decide_True, if_true, Bool.and_false, Bool.false_eq_true,
          if_false, List.filter_nil, List.length_nil, List.length_singleton]
        omega
      · rw [hsk] at hee
        simp only [if_true] at hee
        simp only [Nat.le_refl, decide_True, if_true, Bool.and_self, List.filter_nil,
          List.length_singleton]
        omega
    · rw [if_neg hend] at h hstart ⊢
      rw [hnext] at hstart ⊢
      cases n with
      | zero => simp [analyse_fragment_program_loop] at h
      | succ m =>
        have hmem := fp_instruction_slots_head analyse_fragment_skips ptr m
          ((if analyse_fragment_skips (v128.loadu ptr index) = true then index + 1
            else index) + 1)
        rcases List.mem_cons.1 hstart with hs | hs
        · subst hs
          obtain ⟨k1, k2⟩ := ih _ _ e r h _ hmem
          have hfull : ∀ (p : Nat → Bool) (q : Nat → Bool),
              (∀ i, (if analyse_fragment_skips (v128.loadu ptr start) = true then start + 1
                else start) + 1 ≤ i → p i = q i) →
              List.filter p (fp_instruction_slots analyse_fragment_skips ptr (m + 1)
                ((if analyse_fragment_skips (v128.loadu ptr start) = true then start + 1
                  else start) + 1)) =
              List.filter q (fp_instruction_slots analyse_fragment_skips ptr (m + 1)
                ((if analyse_fragment_skips (v128.loadu ptr start) = true then start + 1
                  else start) + 1)) := by
            intro p q hpq
            apply List.filter_congr
            intro i hi
            exact hpq i (fp_instruction_slots_ge _ ptr _ _ i hi)
          have e1 := hfull (fun i => decide (start ≤ i))
            (fun i => decide ((if analyse_fragment_skips (v128.loadu ptr start) = true
              then start + 1 else start) + 1 ≤ i)) (by
              intro i hi
              have : start ≤ i := by split_ifs at hi <;> omega
              simp [this, hi])
          have e2 := hfull (fun i => decide (start ≤ i) &&
              analyse_fragment_skips (v128.loadu ptr i))
            (fun i => decide ((if analyse_fragment_skips (v128.loadu ptr start) = true
              then start + 1 else start) + 1 ≤ i) &&
              analyse_fragment_skips (v128.loadu ptr i)) (by
              intro i hi
              have : start ≤ i := by split_ifs at hi <;> omega
              simp [this, hi])
          rw [List.filter_cons, List.filter_cons, e1, e2]
          cases hsk : analyse_fragment_skips (v128.loadu ptr start)
          · rw [hsk] at k1 k2
            simp only [Bool.false_eq_true, if_false] at k1 k2
            simp only [Nat.le_refl, decide_True, if_true, Bool.and_false, Bool.false_eq_true,
              if_false, List.length_cons]
            omega
          · rw [hsk] at k1 k2
            simp only [if_true] at k1 k2
            simp only [Nat.le_refl, decide_True, if_true, Bool.and_self, List.length_cons]
            omega
        · obtain ⟨k1, k2⟩ := ih _ _ e r h start hs
          have hge := fp_instruction_slots_ge _ ptr _ _ start hs
          have hlt : ¬ start ≤ index := by split_ifs at hge <;> omega
          rw [List.filter_cons, List.filter_cons]
          simp only [hlt, decide_False, Bool.false_eq_true, if_false, Bool.false_and]
          exact ⟨k1, k2⟩

/-- On a terminated fragment stream that is no NOP shader and in which no instruction
before the program start has a constant slot, `program_ucode_length` is 16 times the
number of slots consumed from the program start on, instruction slots and skipped
constant slots together, and `program_constants_buffer_length` is 16 times the number of
constant slots among them. -/
theorem analyse_fragment_program_lengths (ptr : Nat → Nat) (fuel e : Nat)
    (r : fragment_program_metadata)
    (h : analyse_fragment_program_loop ptr fuel 0 fragment_program_metadata.init = some (e, r))
    (hnop : r.is_nop_shader = false) (he : e < 2 ^ 27)
    (hlead : ∀ i ∈ fp_instruction_slots analyse_fragment_skips ptr fuel 0,
      i * 16 < r.program_start_offset →
      analyse_fragment_skips (v128.loadu ptr i) = false) :
    ∃ start, start ∈ fp_instruction_slots analyse_fragment_skips ptr fuel 0 ∧
      r.program_start_offset = 16 * start ∧
      r.program_ucode_length = 16 *
        (((fp_instruction_slots analyse_fragment_skips ptr fuel 0).filter
            (fun i => decide (start ≤ i))).length +
          ((fp_instruction_slots analyse_fragment_skips ptr fuel 0).filter
            (fun i => decide (start ≤ i) &&
              analyse_fragment_skips (v128.loadu ptr i))).length) ∧
      r.program_constants_buffer_length = 16 *
        ((fp_instruction_slots analyse_fragment_skips ptr fuel 0).filter
          (fun i => decide (start ≤ i) &&
            analyse_fragment_skips (v128.loadu ptr i))).length := by
  obtain ⟨start, s1, s2, s3, s4, s5⟩ := analyse_fragment_program_loop_fresh ptr fuel 0
    fragment_program_metadata.init e r rfl (by decide) h hnop he hlead
  obtain ⟨c1, c2⟩ := analyse_fragment_program_loop_consumed ptr fuel 0 _ e r h start s1
  have h27 : (2 : Nat) ^ 27 = 134217728 := by norm_num
  have z1 : fragment_program_metadata.init.program_ucode_length = 0 := rfl
  have z2 : fragment_program_metadata.init.program_constants_buffer_length = 0 := rfl
  rw [z1] at s4
  rw [z2] at s5
  refine ⟨start, s1, s3, ?_, ?_⟩
  · rw [s4, c2]; omega
  · rw [s5]; omega

/-- C12: on the stream `[0, 0x200, 0, 0]`, constant slot, `[0x10100, 0, 0, 0]` the walk of
`analyse_fragment_program` ends at slot 2 with `program_start_offset = 32` (slot 2),
`program_ucode_length = 32` and `program_constants_buffer_length = 16`, although slot 2
is the only slot at or after the start offset and no constant slot follows it: the
constant slot of the opcode-0 instruction in slot 0 is counted before the start offset is
assigned. On the `TEX` stream of the scenario the lengths are 48 and 16 and the bit of
texture unit 3 is set. -/
theorem analyse_fragment_program_leading_constant :
    (∀ fuel, analyse_fragment_program_loop fp_leading_constant_stream (fuel + 2) 0
        fragment_program_metadata.init =
      some (2, { fragment_program_metadata.init with
        program_start_offset := 32
        program_ucode_length := 32
        program_constants_buffer_length := 16 })) ∧
    (∀ fuel, analyse_fragment_program (fuel + 2) fp_leading_constant_stream =
      some { fragment_program_metadata.init with
        program_start_offset := 32
        program_ucode_length := 32
        program_constants_buffer_length := 16 }) ∧
    (∀ payload fuel, analyse_fragment_program (fuel + 2) (fp_tex_constant_stream payload) =
      some { fragment_program_metadata.init with
        program_start_offset := 0
        program_ucode_length := 48
        program_constants_buffer_length := 16
        referenced_textures_mask := 1 <<< 3 }) := by
  refine ⟨fun fuel => ?_, fun fuel => ?_, fun payload fuel => ?_⟩
  · unfold analyse_fragment_program_loop
    rfl
  · unfold analyse_fragment_program analyse_fragment_program_loop
    rfl
  · have h0 : v128.loadu (fp_tex_constant_stream payload) 0 = ⟨0x6170000, 0x200, 0, 0⟩ := rfl
    have h2 : v128.loadu (fp_tex_constant_stream payload) (1 + 1) = ⟨0x10100, 0, 0, 0⟩ := rfl
    have e1 : analyse_fragment_slot ⟨0x6170000, 0x200, 0, 0⟩ 0 fragment_program_metadata.init
        = (1, { fragment_program_metadata.init with
          program_start_offset := 0
          program_ucode_length := 32
          program_constants_buffer_length := 16
          referenced_textures_mask := 1 <<< 3 }) := by decide
    have e2 : fp_end ⟨0x6170000, 0x200, 0, 0⟩ = false := by decide
    have e3 : analyse_fragment_slot ⟨0x10100, 0, 0, 0⟩ (1 + 1)
        { fragment_program_metadata.init with
          program_start_offset := 0
          program_ucode_length := 32
          program_constants_buffer_length := 16
          referenced_textures_mask := 1 <<< 3 }
        = (2, { fragment_program_metadata.init with
          program_start_offset := 0
          program_ucode_length := 48
          program_constants_buffer_length := 16
          referenced_textures_mask := 1 <<< 3 }) := by decide
    have e4 : fp_end ⟨0x10100, 0, 0, 0⟩ = true := by decide
    unfold analyse_fragment_program analyse_fragment_program_loop
    rw [h0]
    simp only [e1, e2]
    unfold analyse_fragment_program_loop
    rw [h2]
    simp only [e3, e4]
    rfl

theorem fp_lockstep (ptr : Nat → Nat) :
    ∀ fuel index result e r,
      analyse_fragment_program_loop ptr fuel index result = some (e, r) →
      (∀ i ∈ fp_instruction_slots analyse_fragment_skips ptr fuel index,
        fp_branch (v128.loadu ptr i) = true → has_constant (v128.loadu ptr i) = false) →
      fp_instruction_slots has_constant ptr fuel index =
        fp_instruction_slots analyse_fragment_skips ptr fuel index ∧
      get_fragment_program_ucode_size_loop ptr fuel index = some ((16 * (e + 1)) % 2 ^ 64) ∧
      ∃ last, (fp_instruction_slots analyse_fragment_skips ptr fuel index).getLast? = some last ∧
        fp_end (v128.loadu ptr last) = true ∧
        e = if analyse_fragment_skips (v128.loadu ptr last) then last + 1 else last := by
  intro fuel
  induction fuel with
  | zero => intro index result e r h; simp [analyse_fragment_program_loop] at h
  | succ fuel ih =>
    intro index result e r h hplain
    have hskip : analyse_fragment_skips (v128.loadu ptr index) =
        has_constant (v128.loadu ptr index) := by
      have := hplain index (by simp [fp_instruction_slots])
      unfold analyse_fragment_skips
      cases hb : fp_branch (v128.loadu ptr index)
      · simp
      · simp [this hb]
    unfold analyse_fragment_program_loop at h
    simp only [analyse_fragment_slot_index] at h
    rw [show (!fp_branch (v128.loadu ptr index) && has_constant (v128.loadu ptr index)) =
      analyse_fragment_skips (v128.loadu ptr index) from rfl] at h
    unfold fp_instruction_slots get_fragment_program_ucode_size_loop
    dsimp only
    rw [show (is_constant (v128.loadu ptr index)._u32_1 ||
        is_constant (v128.loadu ptr index)._u32_2 ||
        is_constant (v128.loadu ptr index)._u32_3) = has_constant (v128.loadu ptr index) from rfl]
    by_cases hend : fp_end (v128.loadu ptr index) = true
    · simp only [hend, if_true] at h ⊢
      have he : e = if analyse_fragment_skips (v128.loadu ptr index) = true then index + 1
          else index := by
        by_cases hs0 : ((analyse_fragment_slot (v128.loadu ptr index) index
            result).2.program_start_offset == umax) = true
        · rw [if_pos hs0] at h
          exact (Prod.mk.inj (Option.some.inj h)).1.symm
        · rw [if_neg hs0] at h
          exact (Prod.mk.inj (Option.some.inj h)).1.symm
      refine ⟨trivial, ?_, index, rfl, hend, he⟩
      rw [he, hskip]
      cases hc : has_constant (v128.loadu ptr index)
      · simp only [Bool.false_eq_true, if_false]
        rw [show (index + 1) * 4 * 4 = 16 * (index + 1) by omega]
      · simp only [if_true]
        rw [show (index + 2) * 4 * 4 = 16 * (index + 1 + 1) by omega]
    · simp only [hend, if_false, Bool.false_eq_true] at h ⊢
      have hplain' : ∀ i ∈ fp_instruction_slots analyse_fragment_skips ptr fuel
          ((if analyse_fragment_skips (v128.loadu ptr index) = true then index + 1 else index)
            + 1),
          fp_branch (v128.loadu ptr i) = true → has_constant (v128.loadu ptr i) = false := by
        intro i hi
        apply hplain i
        unfold fp_instruction_slots
        simp only [hend, if_false, Bool.false_eq_true, List.mem_cons]
        right
        by_cases hs : analyse_fragment_skips (v128.loadu ptr index) = true
        · simpa [hs] using hi
        · simpa [hs] using hi
      have hnext : (if has_constant (v128.loadu ptr index) = true then index + 2 else index + 1)
          = (if analyse_fragment_skips (v128.loadu ptr index) = true then index + 1 else index)
            + 1 := by
        rw [hskip]; split_ifs <;> rfl
      obtain ⟨h1, h2, last, h3, h4, h5⟩ := ih _ _ e r h hplain'
      have hnext' : (if analyse_fragment_skips (v128.loadu ptr index) = true then index + 2
          else index + 1)
          = (if analyse_fragment_skips (v128.loadu ptr index) = true then index + 1 else index)
            + 1 := by
        split_ifs <;> rfl
      rw [hnext, hnext']
      refine ⟨by rw [h1], ?_, last, ?_, h4, h5⟩
      · by_cases hc : has_constant (v128.loadu ptr index) = true
        · simp only [hc, if_true]
          rw [hskip, if_pos hc] at h2
          exact h2
        · simp only [hc, if_false]
          rw [hskip, if_neg hc] at h2
          exact h2
      · rw [List.getLast?_cons]
        rw [h3]; rfl

/-- C13, as the code has it: on a terminated fragment stream in which no instruction that
`analyse_fragment_program` walks carries both the branch marker and a source operand
marked constant, `get_fragment_program_ucode_size` loads the same slots as instructions as
`analyse_fragment_program` (and so skips the same constant slots), both stop at the same
instruction with the end bit, and the returned size is 16 times the number of slots
`0 .. e` consumed by the walk, `e` being the slot at which the walk of
`analyse_fragment_program` ends. -/
theorem get_fragment_program_ucode_size_follows_analyse (ptr : Nat → Nat) (fuel e : Nat)
    (r : fragment_program_metadata)
    (h : analyse_fragment_program_loop ptr fuel 0 fragment_program_metadata.init = some (e, r))
    (hplain : ∀ i ∈ fp_instruction_slots analyse_fragment_skips ptr fuel 0,
      fp_branch (v128.loadu ptr i) = true → has_constant (v128.loadu ptr i) = false)
    (hsize : 16 * (e + 1) < 2 ^ 64) :
    fp_instruction_slots has_constant ptr fuel 0 =
      fp_instruction_slots analyse_fragment_skips ptr fuel 0 ∧
    get_fragment_program_ucode_size fuel ptr = some (16 * (e + 1)) ∧
    ∃ last, (fp_instruction_slots analyse_fragment_skips ptr fuel 0).getLast? = some last ∧
      fp_end (v128.loadu ptr last) = true ∧
      e = if analyse_fragment_skips (v128.loadu ptr last) then last + 1 else last := by
  obtain ⟨h1, h2, h3⟩ := fp_lockstep ptr fuel 0 _ e r h hplain
  refine ⟨h1, ?_, h3⟩
  unfold get_fragment_program_ucode_size
  rw [h2, Nat.mod_eq_of_lt hsize]

set_option maxRecDepth 100000 in
/-- The `TEX` stream of three slots: both walks load slots 0 and 2 as instructions and the
size is 48. -/
theorem get_fragment_program_ucode_size_follows_analyse_witness :
    fp_instruction_slots has_constant (fp_tex_constant_stream 7) 2 0 = [0, 2] ∧
    fp_instruction_slots analyse_fragment_skips (fp_tex_constant_stream 7) 2 0 = [0, 2] ∧
    get_fragment_program_ucode_size 2 (fp_tex_constant_stream 7) = some 48 :=
  have h := get_fragment_program_ucode_size_follows_analyse (fp_tex_constant_stream 7) 2 2
    { fragment_program_metadata.init with
      program_start_offset := 0
      program_ucode_length := 48
      program_constants_buffer_length := 16
      referenced_textures_mask := 1 <<< 3 }
    (by decide) (by decide) (by decide)
  ⟨by decide, by decide, h.2.1⟩

set_option maxRecDepth 100000 in
/-- C13 as stated fails: on the stream `[0x10000, 0, 0, 0]`, `[0, 0x200, 0x800000, 0]`,
`[0x100, 0, 0, 0]`, `[0x100, 0, 0, 0]` the walk of `analyse_fragment_program` loads slots
0, 1, 2 as instructions and ends at slot 2 (three slots, 48 bytes), whereas
`get_fragment_program_ucode_size` takes slot 2 for the constant slot of the branch
instruction in slot 1, loads slots 0, 1, 3 and returns 64. -/
theorem get_fragment_program_ucode_size_counterexample :
    analyse_fragment_program_loop fp_branch_constant_stream 4 0 fragment_program_metadata.init =
      some (2, { fragment_program_metadata.init with
        program_start_offset := 0
        program_ucode_length := 48
        has_branch_instructions := true }) ∧
    fp_instruction_slots analyse_fragment_skips fp_branch_constant_stream 4 0 = [0, 1, 2] ∧
    fp_instruction_slots has_constant fp_branch_constant_stream 4 0 = [0, 1, 3] ∧
    get_fragment_program_ucode_size 4 fp_branch_constant_stream = some 64 ∧
    fp_instruction_slots has_constant fp_branch_constant_stream 4 0 ≠
      fp_instruction_slots analyse_fragment_skips fp_branch_constant_stream 4 0 ∧
    get_fragment_program_ucode_size 4 fp_branch_constant_stream ≠ some (16 * (2 + 1)) := by
  refine ⟨by decide, by decide, by decide, by decide, by decide, by decide⟩

/-! ## Further claims on the analysed vertex program -/

/-- C14: whenever `analyse_vertex_program` returns, bit 0 of the returned
`referenced_inputs_mask` is set (`referenced_inputs_mask & 1 == 1`). -/
theorem analyse_vertex_program_vpos (oob : undefined_reads) (data : Nat → Nat)
    (entry : Nat) (dst : RSXVertexProgram)
    (r : vertex_program_metadata) (p : RSXVertexProgram)
    (h : analyse_vertex_program oob data entry dst = .done (r, p)) :
    r.referenced_inputs_mask.testBit 0 = true ∧ r.referenced_inputs_mask &&& 1 = 1 := by
  obtain ⟨s, _, _, ha⟩ := analyse_vertex_program_done oob data entry dst r p h
  have h0 : r.referenced_inputs_mask.testBit 0 = true := by
    rw [ha.inputs, Nat.testBit_or]
    simp
  refine ⟨h0, ?_⟩
  rw [Nat.and_one_is_mod]
  rw [Nat.testBit_zero] at h0
  exact of_decide_eq_true h0

set_option maxRecDepth 100000 in
/-- Witness of C14: the minimal program, whose only instruction reads no input stream. -/
theorem analyse_vertex_program_vpos_witness :
    analyse_vertex_program reads_bits minimal_image 0 RSXVertexProgram.fresh
      = .done (⟨1, 16, 0, 1⟩, ⟨[0, 0, 0, 1], ⟨0, 0, 0⟩, 0, 0, 0, 1, []⟩) ∧
    ((1 : Nat).testBit 0 = true ∧ 1 &&& 1 = 1) :=
  ⟨by decide, analyse_vertex_program_vpos reads_bits minimal_image 0 RSXVertexProgram.fresh
    ⟨1, 16, 0, 1⟩
    ⟨[0, 0, 0, 1], ⟨0, 0, 0⟩, 0, 0, 0, 1, []⟩ (by decide)⟩

theorem walk_function_marks_start (oob : undefined_reads) (data : Nat → Nat)
    (depth start : Nat) (fe : Bool)
    (s s' : walk_state) (h : walk_function oob data depth start fe s = .done s') :
    start < max_vertex_program_instructions ∧ s'.instruction_mask.testBit start = true := by
  cases depth with
  | zero => simp [walk_function] at h
  | succ d =>
    simp only [walk_function] at h
    split at h
    · rename_i ct1 s1 heq
      obtain ⟨a, b⟩ := walk_loop_first data fe _ start [] s ct1 s1 heq
      exact ⟨a, walk_targets_mask_mono oob data d ct1 s1 s' h start b⟩
    · simp at h
    · simp at h

/-- C15: the vertex-program walk terminates on every image and every entry, returning or
tripping the bounds assertion: the budgets of the model are never exhausted. A loop pass
trips the assertion, or stops, or goes on after marking the current, until then unmarked,
slot, or (outermost walk, slot already live) goes on at `current_instruction + 1` with
nothing changed; the only change a pass makes to the live mask is to set the bit, until
then clear, of the current slot, so a slot is marked at most once; a pass that goes on
decreases `unmarked * 513 + (512 - current_instruction)`; and a walk started on an unmarked
conditional target that returns has marked that target, so fewer slots are left unmarked
after it. -/
theorem walk_function_terminates (oob : undefined_reads) (data : Nat → Nat) :
    (∀ entry dst, analyse_vertex_program oob data entry dst ≠ .out_of_fuel) ∧
    (∀ entry, walk_function oob data walk_depth entry false walk_state.init ≠ .out_of_fuel) ∧
    (∀ fe cur ct s,
      walk_iteration data fe cur ct s = .fault ∨
      (∃ ct' s', walk_iteration data fe cur ct s = .stop ct' s' ∧
        (s'.instruction_mask = s.instruction_mask ∨
          (s.instruction_mask.testBit cur = false ∧
            s'.instruction_mask = bitset_set s.instruction_mask cur))) ∨
      (∃ cur' ct' s', walk_iteration data fe cur ct s = .next cur' ct' s' ∧
        cur < max_vertex_program_instructions ∧
        ((s.instruction_mask.testBit cur = false ∧
            s'.instruction_mask = bitset_set s.instruction_mask cur) ∨
          (s.instruction_mask.testBit cur = true ∧ fe = false ∧ cur' = cur + 1 ∧
            ct' = ct ∧ s' = s)) ∧
        unmarked s'.instruction_mask * 513 + (512 - cur') <
          unmarked s.instruction_mask * 513 + (512 - cur))) ∧
    (∀ depth target s s', s.instruction_mask.testBit target = false →
      walk_function oob data depth target true s = .done s' →
      s'.instruction_mask.testBit target = true ∧
        unmarked s'.instruction_mask < unmarked s.instruction_mask) := by
  refine ⟨?_, ?_, ?_, ?_⟩
  · intro entry dst h
    rcases analyse_vertex_program_total oob data entry dst with ⟨hf, _⟩ | ⟨r, p, hd⟩
    · rw [hf] at h; simp at h
    · rw [hd] at h; simp at h
  · intro entry h
    rcases walk_function_total oob data entry with hf | ⟨s, hd⟩
    · rw [hf] at h; simp at h
    · rw [hd] at h; simp at h
  · intro fe cur ct s
    rcases walk_iteration_cases data fe cur ct s with
      ⟨_, hf⟩ | ⟨hlt, hl, hfe, hn⟩ | ⟨_, _, _, hs⟩ | ⟨hlt, hfresh, ct1, s1, hv, hn | ⟨hs, _⟩⟩
    · exact Or.inl hf
    · exact Or.inr (Or.inr ⟨cur + 1, ct, s, hn, hlt, Or.inr ⟨hl, hfe, rfl, rfl, rfl⟩,
        walk_iteration_measure data fe cur ct s _ _ _ hn⟩)
    · exact Or.inr (Or.inl ⟨ct, s, hs, Or.inl rfl⟩)
    · exact Or.inr (Or.inr ⟨_, ct1, s1, hn, hlt, Or.inl ⟨hfresh, hv.mask⟩,
        walk_iteration_measure data fe cur ct s _ _ _ hn⟩)
    · exact Or.inr (Or.inl ⟨ct1, s1, hs, Or.inr ⟨hfresh, hv.mask⟩⟩)
  · intro depth target s s' hfresh h
    obtain ⟨hlt, hm⟩ := walk_function_marks_start oob data depth target true s s' h
    refine ⟨hm, ?_⟩
    have hmono := walk_function_mask_mono oob data s.instruction_mask depth [] target true s s'
      (fun _ hi => hi) h
    have hsub : ∀ i, (bitset_set s.instruction_mask target).testBit i = true →
        s'.instruction_mask.testBit i = true := by
      intro i hi
      rw [testBit_bitset_set] at hi
      by_cases he : target = i
      · subst he; exact hm
      · simp only [he, decide_False, Bool.or_false] at hi
        exact hmono i hi
    have h1 := unmarked_mono _ _ hsub
    have h2 := unmarked_bitset_set s.instruction_mask target hlt hfresh
    omega

/-! ## The walk inside the image -/

theorem is_branch_of_is_function_call (inst : v128) (h : is_function_call inst = true) :
    is_branch inst = true := by
  unfold is_function_call at h
  simp only [Bool.and_eq_true] at h
  exact h.1

theorem is_branch_of_is_conditional (inst : v128) (h : is_conditional inst = true) :
    is_branch inst = true := by
  unfold is_conditional at h
  simp only [Bool.and_eq_true] at h
  exact h.1.1

theorem walk_iteration_safe (data : Nat → Nat)
    (ht : ∀ i, i < max_vertex_program_instructions → is_branch (v128.loadu data i) = true →
      jump_address (v128.loadu data i) < max_vertex_program_instructions)
    (hc : is_function_call (v128.loadu data 511) = false)
    (hj : is_static_jump (v128.loadu data 511) = false)
    (hr : is_ret (v128.loadu data 511) = false)
    (fe : Bool) (cur : Nat) (ct : List Nat) (s : walk_state) (hJ : walk_safe fe cur ct s) :
    (∃ cur' ct' s', walk_iteration data fe cur ct s = .next cur' ct' s' ∧
      walk_safe fe cur' ct' s') ∨
    (∃ ct' s', walk_iteration data fe cur ct s = .stop ct' s' ∧ walk_safe_done ct' s') := by
  obtain ⟨hlt, hT, hS, hM⟩ := hJ
  have hlt' : cur < 512 := hlt
  by_cases hlive : s.instruction_mask.testBit cur = true
  · rw [walk_iteration_live data fe cur ct s hlt hlive]
    cases fe with
    | false =>
      left
      have hne : cur ≠ 511 := by
        intro e
        rw [e, hM rfl] at hlive
        simp at hlive
      exact ⟨cur + 1, ct, s, rfl, by show cur + 1 < 512; omega, hT, hS, hM⟩
    | true => right; exact ⟨ct, s, rfl, hT, hS⟩
  · have hfresh : s.instruction_mask.testBit cur = false := by simpa using hlive
    rw [walk_iteration_fresh data fe cur ct s hlt hfresh]
    obtain ⟨ct', s', hv, heq⟩ := walk_visit_eq (v128.loadu data cur) fe cur ct s
    rw [heq]
    have hT' : ∀ t ∈ ct', t < max_vertex_program_instructions := by
      intro t hmem
      rw [hv.targets] at hmem
      by_cases hcond : is_conditional (v128.loadu data cur) = true
      · rw [if_pos hcond, mem_set_emplace] at hmem
        rcases hmem with rfl | hmem
        · exact ht cur hlt (is_branch_of_is_conditional _ hcond)
        · exact hT t hmem
      · rw [if_neg hcond] at hmem
        exact hT t hmem
    have hS' : ∀ a ∈ s'.call_stack, a < max_vertex_program_instructions := by
      intro a hmem
      rw [hv.stack] at hmem
      by_cases hcall : is_function_call (v128.loadu data cur) = true
      · rw [if_pos hcall] at hmem
        rcases List.mem_cons.1 hmem with rfl | hmem
        · have hne : cur ≠ 511 := by
            intro e
            rw [e, hc] at hcall
            simp at hcall
          show cur + 1 < 512
          omega
        · exact hS a hmem
      · rw [if_neg hcall] at hmem
        by_cases hret : is_ret (v128.loadu data cur) = true
        · rw [if_pos hret] at hmem
          exact hS a (List.mem_of_mem_tail hmem)
        · rw [if_neg hret] at hmem
          exact hS a hmem
    have hmask : cur ≠ 511 → fe = false → s'.instruction_mask.testBit 511 = false := by
      intro hne hfe
      rw [hv.mask, testBit_bitset_set, hM hfe]
      simp [hne]
    unfold visit_ctl
    by_cases hjmp : visit_jumps (v128.loadu data cur) s = true
    · rw [if_pos hjmp]
      left
      have hne : cur ≠ 511 := by
        intro e
        rw [e] at hjmp
        unfold visit_jumps at hjmp
        rw [hc, hj, hr] at hjmp
        simp at hjmp
      refine ⟨_, _, _, rfl, ?_, hT', hS', hmask hne⟩
      unfold visit_next
      by_cases h1 : (is_function_call (v128.loadu data cur) ||
          is_static_jump (v128.loadu data cur)) = true
      · rw [if_pos h1]
        apply ht cur hlt
        rcases (Bool.or_eq_true_iff).1 h1 with h | h
        · exact is_branch_of_is_function_call _ h
        · exact is_static_jump_imp_is_branch _ h
      · rw [if_neg h1]
        have h2 : (is_ret (v128.loadu data cur) && !s.call_stack.isEmpty) = true := by
          unfold visit_jumps at hjmp
          simp only [Bool.not_eq_true] at h1
          rw [Bool.or_assoc] at hjmp
          rcases (Bool.or_eq_true_iff).1 hjmp with h | h
          · have : (is_function_call (v128.loadu data cur) ||
                is_static_jump (v128.loadu data cur)) = true := by
              rw [Bool.or_eq_true]; exact Or.inl h
            rw [h1] at this; simp at this
          · rcases (Bool.or_eq_true_iff).1 h with h | h
            · have : (is_function_call (v128.loadu data cur) ||
                  is_static_jump (v128.loadu data cur)) = true := by
                rw [Bool.or_eq_true]; exact Or.inr h
              rw [h1] at this; simp at this
            · exact h
        rw [if_pos h2]
        simp only [Bool.and_eq_true, Bool.not_eq_true', List.isEmpty_eq_false] at h2
        cases hst : s.call_stack with
        | nil => rw [hst] at h2; simp at h2
        | cons top rest =>
          exact hS top (by rw [hst]; simp)
    · rw [if_neg hjmp]
      by_cases hstop : visit_stops (v128.loadu data cur) fe cur s'.instruction_range.2 = true
      · rw [if_pos hstop]
        right
        exact ⟨_, _, rfl, hT', hS'⟩
      · rw [if_neg hstop]
        left
        have hne : cur + 1 ≠ 512 := by
          intro e
          apply hstop
          unfold visit_stops
          simp [e, max_vertex_program_instructions]
        refine ⟨_, _, _, rfl, by show cur + 1 < 512; omega, hT', hS', hmask (by omega)⟩

theorem walk_loop_safe (data : Nat → Nat)
    (ht : ∀ i, i < max_vertex_program_instructions → is_branch (v128.loadu data i) = true →
      jump_address (v128.loadu data i) < max_vertex_program_instructions)
    (hc : is_function_call (v128.loadu data 511) = false)
    (hj : is_static_jump (v128.loadu data 511) = false)
    (hr : is_ret (v128.loadu data 511) = false) (fe : Bool) :
    ∀ fuel cur ct s, walk_safe fe cur ct s →
      walk_loop data fe fuel cur ct s = .out_of_fuel ∨
      ∃ ct' s', walk_loop data fe fuel cur ct s = .done (ct', s') ∧ walk_safe_done ct' s' := by
  intro fuel
  induction fuel with
  | zero => intro cur ct s _; left; rfl
  | succ n ih =>
    intro cur ct s hJ
    simp only [walk_loop]
    rcases walk_iteration_safe data ht hc hj hr fe cur ct s hJ with
      ⟨cur', ct', s', heq, hJ'⟩ | ⟨ct', s', heq, hK⟩
    · rw [heq]
      exact ih cur' ct' s' hJ'
    · rw [heq]
      right
      exact ⟨ct', s', rfl, hK⟩

theorem walk_targets_safe (oob : undefined_reads)
    (walk : Nat → walk_state → outcome walk_state)
    (hwalk : ∀ t s, t < max_vertex_program_instructions →
      (∀ a ∈ s.call_stack, a < max_vertex_program_instructions) →
      walk t s = .out_of_fuel ∨
      ∃ s', walk t s = .done s' ∧ ∀ a ∈ s'.call_stack, a < max_vertex_program_instructions) :
    ∀ (l : List Nat) (s : walk_state), (∀ t ∈ l, t < max_vertex_program_instructions) →
      (∀ a ∈ s.call_stack, a < max_vertex_program_instructions) →
      walk_targets oob walk l s = .out_of_fuel ∨
      ∃ s', walk_targets oob walk l s = .done s' ∧
        ∀ a ∈ s'.call_stack, a < max_vertex_program_instructions := by
  intro l
  induction l with
  | nil => intro s _ hS; right; exact ⟨s, rfl, hS⟩
  | cons t rest ih =>
    intro s hT hS
    have hT' : ∀ x ∈ rest, x < max_vertex_program_instructions :=
      fun x hx => hT x (List.mem_cons_of_mem _ hx)
    simp only [walk_targets]
    split
    · rcases hwalk t s (hT t (List.mem_cons_self _ _)) hS with h | ⟨s1, h, hS1⟩
      · rw [h]; left; rfl
      · rw [h]
        exact ih s1 hT' hS1
    · exact ih s hT' hS

theorem walk_function_safe (oob : undefined_reads) (data : Nat → Nat)
    (ht : ∀ i, i < max_vertex_program_instructions → is_branch (v128.loadu data i) = true →
      jump_address (v128.loadu data i) < max_vertex_program_instructions)
    (hc : is_function_call (v128.loadu data 511) = false)
    (hj : is_static_jump (v128.loadu data 511) = false)
    (hr : is_ret (v128.loadu data 511) = false) :
    ∀ depth start fe s, start < max_vertex_program_instructions →
      (∀ a ∈ s.call_stack, a < max_vertex_program_instructions) →
      (fe = false → s.instruction_mask.testBit 511 = false) →
      walk_function oob data depth start fe s = .out_of_fuel ∨
      ∃ s', walk_function oob data depth start fe s = .done s' ∧
        ∀ a ∈ s'.call_stack, a < max_vertex_program_instructions := by
  intro depth
  induction depth with
  | zero => intro start fe s _ _ _; left; rfl
  | succ d ih =>
    intro start fe s hlt hS hM
    simp only [walk_function]
    rcases walk_loop_safe data ht hc hj hr fe walk_loop_fuel start [] s
      ⟨hlt, by simp, hS, hM⟩ with h | ⟨ct1, s1, h, hT1, hS1⟩
    · rw [h]; left; rfl
    · rw [h]
      exact walk_targets_safe oob _
        (fun t s2 ht2 hS2 => ih t true s2 ht2 hS2 (by simp)) ct1 s1 hT1 hS1

theorem loadu_image_of_slots (slots : List (Nat × v128)) (fill i : Nat) :
    v128.loadu (image_of_slots slots fill) i =
      match slots.lookup i with
      | some inst => inst
      | none => ⟨fill, fill, fill, fill⟩ := by
  unfold v128.loadu image_of_slots
  have h0 : i * 4 / 4 = i := by omega
  have h1 : (i * 4 + 1) / 4 = i := by omega
  have h2 : (i * 4 + 2) / 4 = i := by omega
  have h3 : (i * 4 + 3) / 4 = i := by omega
  have m0 : i * 4 % 4 = 0 := by omega
  have m1 : (i * 4 + 1) % 4 = 1 := by omega
  have m2 : (i * 4 + 2) % 4 = 2 := by omega
  have m3 : (i * 4 + 3) % 4 = 3 := by omega
  simp only [h0, h1, h2, h3, m0, m1, m2, m3]
  cases slots.lookup i <;> simp

/-- Where the revisit path is harmless: on an image in which every branch or call
instruction has its target below 512 and slot 511 is no call, static jump or `RET`,
analysed at an entry below 512, the outermost walk that comes to an already-live slot goes
on at the next slot with nothing changed, and `analyse_vertex_program` returns a result:
the bounds assertion is not tripped. -/
theorem analyse_vertex_program_revisit_not_fatal (oob : undefined_reads) (data : Nat → Nat)
    (entry : Nat) (dst : RSXVertexProgram) (he : entry < max_vertex_program_instructions)
    (ht : ∀ i, i < max_vertex_program_instructions → is_branch (v128.loadu data i) = true →
      jump_address (v128.loadu data i) < max_vertex_program_instructions)
    (hc : is_function_call (v128.loadu data 511) = false)
    (hj : is_static_jump (v128.loadu data 511) = false)
    (hr : is_ret (v128.loadu data 511) = false) :
    (∀ cur ct s, cur < max_vertex_program_instructions →
      s.instruction_mask.testBit cur = true →
      walk_iteration data false cur ct s = .next (cur + 1) ct s) ∧
    ∃ r p, analyse_vertex_program oob data entry dst = .done (r, p) := by
  refine ⟨fun cur ct s hlt hl => by rw [walk_iteration_live data false cur ct s hlt hl]; rfl, ?_⟩
  rcases walk_function_safe oob data ht hc hj hr walk_depth entry false walk_state.init he
    (by simp [walk_state.init]) (fun _ => by simp [walk_state.init]) with h | ⟨s, h, _⟩
  · rcases walk_function_total oob data entry with hf | ⟨s, hd⟩
    · rw [hf] at h; simp at h
    · rw [hd] at h; simp at h
  · obtain ⟨r, p, hd, _⟩ := analyse_vertex_program_of_walk oob data entry dst s h
    exact ⟨r, p, hd⟩

set_option maxRecDepth 100000 in
/-- The program whose slot 0 jumps to itself: the walk comes back to slot 0, goes on to
slot 1 and ends there, whatever the undefined reads yield. -/
theorem analyse_vertex_program_self_loop (oob : undefined_reads) :
    analyse_vertex_program oob self_loop_image 0 RSXVertexProgram.fresh
      = .done (
        { instruction_mask := 0b11, ucode_length := 32, referenced_textures_mask := 0,
          referenced_inputs_mask := 1 },
        { RSXVertexProgram.fresh with
          base_address := 0, entry := 0, instruction_mask := 0b11, jump_table := [0],
          data := [0x1C00, 0x48000000, 0, 0, 0, 0, 0, 1] }) :=
  analyse_vertex_program_reads reads_bits oob _ _ _ _ _ (by decide) (by decide)

/-- A walk whose loop trips the bounds assertion ends the analysis in a fault. -/
theorem analyse_vertex_program_fault (oob : undefined_reads) (data : Nat → Nat) (entry : Nat)
    (dst : RSXVertexProgram)
    (h : walk_loop data false walk_loop_fuel entry [] walk_state.init = .fault) :
    analyse_vertex_program oob data entry dst = .fault := by
  have e : walk_depth = 512 + 1 := rfl
  unfold analyse_vertex_program
  rw [e]
  simp only [walk_function, h]

set_option maxRecDepth 100000 in
/-- C16 fails on the code: the revisit path (`current_instruction++; continue;`) has no
test against the last slot. On the image whose slot 511 is a `BRI` with `cond = 0x7` to
slot 511 (every other slot a `NOP`), analysed at entry 511, the entry and the only branch
target are below 512; the walk marks slot 511, jumps back to it, finds it live, advances
to 512 and trips the bounds assertion: `analyse_vertex_program` returns no result,
whatever the undefined reads yield. The same happens at entry 510 when slot 510 is a `CAL`
to slot 511 and slot 511 a `RET`, which returns to slot 511. -/
theorem analyse_vertex_program_revisit_fault (oob : undefined_reads) :
    (511 < max_vertex_program_instructions ∧
      is_static_jump (v128.loadu last_slot_loop_image 511) = true ∧
      jump_address (v128.loadu last_slot_loop_image 511) = 511 ∧
      (∀ i, i ≠ 511 → v128.loadu last_slot_loop_image i = nop)) ∧
    walk_iteration last_slot_loop_image false 511 [] walk_state.init
      = .next 511 [] ⟨bitset_set 0 511, 0, 0, bitset_set 0 511, (511, 511), true, []⟩ ∧
    walk_iteration last_slot_loop_image false 511 []
        ⟨bitset_set 0 511, 0, 0, bitset_set 0 511, (511, 511), true, []⟩
      = .next 512 [] ⟨bitset_set 0 511, 0, 0, bitset_set 0 511, (511, 511), true, []⟩ ∧
    walk_iteration last_slot_loop_image false 512 []
        ⟨bitset_set 0 511, 0, 0, bitset_set 0 511, (511, 511), true, []⟩ = .fault ∧
    analyse_vertex_program oob last_slot_loop_image 511 RSXVertexProgram.fresh = .fault ∧
    (is_function_call (v128.loadu last_slot_ret_image 510) = true ∧
      jump_address (v128.loadu last_slot_ret_image 510) = 511 ∧
      is_ret (v128.loadu last_slot_ret_image 511) = true) ∧
    analyse_vertex_program oob last_slot_ret_image 510 RSXVertexProgram.fresh = .fault := by
  refine ⟨⟨by decide, by decide, by decide, ?_⟩, by decide, by decide, by decide,
    analyse_vertex_program_fault oob _ _ _ (by decide),
    ⟨by decide, by decide, by decide⟩,
    analyse_vertex_program_fault oob _ _ _ (by decide)⟩
  intro i hi
  rw [last_slot_loop_image, loadu_image_of_slots]
  have b : (i == 511) = false := by simpa using hi
  have : List.lookup i [(511, encode_branch RSX_SCA_OPCODE_BRI 0x7 511)] = none := by
    simp [List.lookup, b]
  rw [this]
  rfl

/-! ## The hashes as FNV-1a -/

theorem hash_mix_eq_mul (h : Nat) : hash_mix h = (h * 0x100000001B3) % 2 ^ 64 := by
  unfold hash_mix
  simp only [Nat.shiftLeft_eq]
  congr 1
  ring

theorem hash_inst_eq_fold (h : Nat) (inst : v128) :
    hash_inst h inst =
      inst.halves.foldl (fun h x => ((h ^^^ x) * 0x100000001B3) % 2 ^ 64) h := by
  unfold hash_inst v128.halves
  simp only [List.foldl_cons, List.foldl_nil, hash_mix_eq_mul]

theorem hash_fold_live (live : Nat → Bool) (inst : Nat → v128) (l : List Nat) :
    ∀ h0, l.foldl (fun hash i => if live i then hash_inst hash (inst i) else hash) h0 =
      ((l.filter live).flatMap (fun i => (inst i).halves)).foldl
        (fun h x => ((h ^^^ x) * 0x100000001B3) % 2 ^ 64) h0 := by
  induction l with
  | nil => intro h0; rfl
  | cons i rest ih =>
    intro h0
    rw [List.foldl_cons, ih]
    by_cases hl : live i = true
    · rw [if_pos hl, List.filter_cons_of_pos hl, List.flatMap_cons, List.foldl_append,
        hash_inst_eq_fold]
    · rw [if_neg hl, List.filter_cons_of_neg hl]

theorem fp_hash_fold (instbuffer : Nat → Nat) :
    ∀ fuel instIndex hash h,
      get_fragment_program_ucode_hash_loop instbuffer fuel instIndex hash = some h →
      h = ((fp_instruction_slots has_constant instbuffer fuel instIndex).flatMap
          (fun i => (v128.loadu instbuffer i).halves)).foldl
        (fun h x => ((h ^^^ x) * 0x100000001B3) % 2 ^ 64) hash := by
  intro fuel
  induction fuel with
  | zero => intro instIndex hash h hh; simp [get_fragment_program_ucode_hash_loop] at hh
  | succ n ih =>
    intro instIndex hash h hh
    unfold get_fragment_program_ucode_hash_loop at hh
    unfold fp_instruction_slots
    dsimp only at hh ⊢
    rw [List.flatMap_cons, List.foldl_append, ← hash_inst_eq_fold]
    by_cases hend : fp_end (v128.loadu instbuffer instIndex) = true
    · rw [if_pos hend] at hh
      rw [if_pos hend]
      simp only [Option.some.injEq] at hh
      rw [← hh]
      rfl
    · rw [if_neg hend] at hh
      rw [if_neg hend]
      have := ih _ _ _ hh
      exact this

/-- C17: the ucode hashes are 64-bit FNV-1a over 64-bit words. The mixing step
`h + (h<<1) + (h<<4) + (h<<5) + (h<<7) + (h<<8) + (h<<40)` modulo `2 ^ 64` is the
multiplication by the FNV prime `0x100000001B3` modulo `2 ^ 64`; so
`get_vertex_program_ucode_hash` is the FNV-1a hash of the two 64-bit halves, the low half
first, of each live slot in slot order, and `get_fragment_program_ucode_hash`, when it
returns, that of the halves of the instructions it walks. -/
theorem ucode_hash_is_fnv1a :
    (∀ h, hash_mix h = (h * 0x100000001B3) % 2 ^ 64) ∧
    (∀ program, get_vertex_program_ucode_hash program = fnv1a_64 (live_halves program)) ∧
    (∀ fuel program h, get_fragment_program_ucode_hash fuel program = some h →
      h = fnv1a_64 ((fp_instruction_slots has_constant program.data fuel 0).flatMap
        (fun i => (v128.loadu program.data i).halves))) := by
  refine ⟨hash_mix_eq_mul, fun program => ?_, fun fuel program h hh => ?_⟩
  · unfold get_vertex_program_ucode_hash fnv1a_64 live_halves
    exact hash_fold_live _ _ _ _
  · unfold fnv1a_64
    exact fp_hash_fold program.data fuel 0 _ h hh

/-! ## Termination of the fragment program comparison -/

theorem fragment_program_compare_loop_comm (A B : Nat → Nat) :
    ∀ fuel index, fragment_program_compare_loop A B fuel index =
      fragment_program_compare_loop B A fuel index := by
  intro fuel
  induction fuel with
  | zero => intro index; rfl
  | succ n ih =>
    intro index
    unfold fragment_program_compare_loop
    dsimp only
    by_cases heq : v128.loadu A index = v128.loadu B index
    · rw [heq, Bool.and_self, ih]
    · have h1 : (v128.loadu A index != v128.loadu B index) = true := by simpa using heq
      have h2 : (v128.loadu B index != v128.loadu A index) = true := by
        simpa using fun e => heq e.symm
      rw [if_pos h1, if_pos h2]

theorem fp_end_slot_ge (A : Nat → Nat) :
    ∀ fuel index e, fp_end_slot A fuel index = some e → index ≤ e := by
  intro fuel
  induction fuel with
  | zero => intro index e h; simp [fp_end_slot] at h
  | succ n ih =>
    intro index e h
    unfold fp_end_slot at h
    dsimp only at h
    by_cases hend : fp_end (v128.loadu A index) = true
    · rw [if_pos hend] at h
      simp only [Option.some.injEq] at h
      omega
    · rw [if_neg hend] at h
      have := ih _ _ h
      split_ifs at this <;> omega

theorem fragment_program_compare_loop_terminates (A B : Nat → Nat) :
    ∀ fuel index e, fp_end_slot A fuel index = some e →
      ∃ r, fragment_program_compare_loop A B fuel index = some r := by
  intro fuel
  induction fuel with
  | zero => intro index e h; simp [fp_end_slot] at h
  | succ n ih =>
    intro index e h
    unfold fp_end_slot at h
    unfold fragment_program_compare_loop
    dsimp only at h ⊢
    by_cases heq : v128.loadu A index = v128.loadu B index
    · have h1 : (v128.loadu A index != v128.loadu B index) = false := by simpa using heq
      rw [if_neg (by rw [h1]; simp)]
      rw [← heq, Bool.and_self]
      by_cases hend : fp_end (v128.loadu A index) = true
      · rw [if_pos hend]; exact ⟨true, rfl⟩
      · rw [if_neg hend] at h ⊢
        exact ih _ e h
    · have h1 : (v128.loadu A index != v128.loadu B index) = true := by simpa using heq
      rw [if_pos h1]; exact ⟨false, rfl⟩

theorem loadu_congr (A A' : Nat → Nat) (index : Nat)
    (h : ∀ k, 4 * index ≤ k → k < 4 * (index + 1) → A' k = A k) :
    v128.loadu A' index = v128.loadu A index := by
  unfold v128.loadu
  rw [h (index * 4) (by omega) (by omega), h (index * 4 + 1) (by omega) (by omega),
    h (index * 4 + 2) (by omega) (by omega), h (index * 4 + 3) (by omega) (by omega)]

theorem fragment_program_compare_loop_reads (A B A' B' : Nat → Nat) :
    ∀ fuel index e, fp_end_slot A fuel index = some e →
      (∀ k, k < 4 * (e + 1) → A' k = A k ∧ B' k = B k) →
      fragment_program_compare_loop A' B' fuel index =
        fragment_program_compare_loop A B fuel index := by
  intro fuel
  induction fuel with
  | zero => intro index e h; simp [fp_end_slot] at h
  | succ n ih =>
    intro index e h hagree
    have hle := fp_end_slot_ge A _ index e h
    have hA : v128.loadu A' index = v128.loadu A index :=
      loadu_congr A A' index (fun k _ hk => (hagree k (by omega)).1)
    have hB : v128.loadu B' index = v128.loadu B index :=
      loadu_congr B B' index (fun k _ hk => (hagree k (by omega)).2)
    unfold fp_end_slot at h
    unfold fragment_program_compare_loop
    dsimp only at h ⊢
    rw [hA, hB]
    by_cases heq : v128.loadu A index = v128.loadu B index
    · have h1 : (v128.loadu A index != v128.loadu B index) = false := by simpa using heq
      simp only [h1, Bool.false_eq_true, if_false]
      rw [← heq, Bool.and_self]
      by_cases hend : fp_end (v128.loadu A index) = true
      · simp only [hend, if_true]
      · rw [if_neg hend] at h
        simp only [hend, if_false]
        exact ih _ e h hagree
    · have h1 : (v128.loadu A index != v128.loadu B index) = true := by simpa using heq
      simp only [h1, if_true]

theorem bne_symm {α : Type} [DecidableEq α] (x y : α) : (x != y) = (y != x) := by
  by_cases h : x = y
  · subst h; rfl
  · have h' : ¬ y = x := fun e => h e.symm
    rw [bne_iff_ne.2 h, bne_iff_ne.2 h']

theorem fragment_program_compare_comm (a b : RSXFragmentProgram) (fuel : Nat) :
    fragment_program_compare fuel a b = fragment_program_compare fuel b a := by
  unfold fragment_program_compare
  rw [fragment_program_compare_loop_comm a.data b.data]
  have h1 : (a.ctrl != b.ctrl) = (b.ctrl != a.ctrl) := bne_symm _ _
  have h2 : (a.texture_state != b.texture_state) = (b.texture_state != a.texture_state) :=
    bne_symm _ _
  have h3 : (a.texcoord_control_mask != b.texcoord_control_mask) =
      (b.texcoord_control_mask != a.texcoord_control_mask) := bne_symm _ _
  have h4 : (a.two_sided_lighting != b.two_sided_lighting) =
      (b.two_sided_lighting != a.two_sided_lighting) := bne_symm _ _
  rw [h1, h2, h3, h4]

/-- C18: `fragment_program_compare` terminates whenever one of the two streams is
terminated, `e` being the slot of the instruction with the end bit of that stream: it
returns a result; it is symmetric in its two arguments; its result depends on no word of
either stream beyond slot `e`; and on a slot pair that is bitwise equal, which is the only
kind it walks past, the test `end bit set in both streams` is the test `end bit set in
stream 1` and both streams mark a constant slot to skip, or neither does. -/
theorem fragment_program_compare_terminates (a b : RSXFragmentProgram) (fuel e : Nat)
    (h : fp_end_slot a.data fuel 0 = some e ∨ fp_end_slot b.data fuel 0 = some e) :
    (∃ r, fragment_program_compare fuel a b = some r) ∧
    fragment_program_compare fuel a b = fragment_program_compare fuel b a ∧
    (∀ da db : Nat → Nat, (∀ k, k < 4 * (e + 1) → da k = a.data k ∧ db k = b.data k) →
      fragment_program_compare fuel { a with data := da } { b with data := db } =
        fragment_program_compare fuel a b) ∧
    (∀ inst1 inst2 : v128, inst1 = inst2 →
      (fp_end inst1 && fp_end inst2) = fp_end inst1 ∧
      has_constant inst1 = has_constant inst2) := by
  refine ⟨?_, fragment_program_compare_comm a b fuel, ?_, ?_⟩
  · unfold fragment_program_compare
    split
    · exact ⟨false, rfl⟩
    · rcases h with h | h
      · exact fragment_program_compare_loop_terminates a.data b.data fuel 0 e h
      · rw [fragment_program_compare_loop_comm]
        exact fragment_program_compare_loop_terminates b.data a.data fuel 0 e h
  · intro da db hagree
    unfold fragment_program_compare
    dsimp only
    rcases h with h | h
    · rw [fragment_program_compare_loop_reads a.data b.data da db fuel 0 e h hagree]
    · rw [fragment_program_compare_loop_comm da db,
        fragment_program_compare_loop_reads b.data a.data db da fuel 0 e h
          (fun k hk => ⟨(hagree k hk).2, (hagree k hk).1⟩),
        fragment_program_compare_loop_comm b.data a.data]
  · intro inst1 inst2 heq
    subst heq
    exact ⟨Bool.and_self _, rfl⟩

set_option maxRecDepth 100000 in
/-- Witness of C18: a terminated stream of three slots compared with the all-zero stream,
which has no end bit and differs from it in slot 0 already. -/
theorem fragment_program_compare_terminates_witness :
    fp_end_slot (fp_tex_constant_stream 7) 2 0 = some 2 ∧
    fragment_program_compare 2 ⟨fp_tex_constant_stream 7, 0, false, ⟨0, 0, 0⟩, 0⟩
      ⟨fun _ => 0, 0, false, ⟨0, 0, 0⟩, 0⟩ = some false ∧
    fragment_program_compare 2 ⟨fun _ => 0, 0, false, ⟨0, 0, 0⟩, 0⟩
      ⟨fp_tex_constant_stream 7, 0, false, ⟨0, 0, 0⟩, 0⟩ = some false :=
  have h := fragment_program_compare_terminates
    ⟨fp_tex_constant_stream 7, 0, false, ⟨0, 0, 0⟩, 0⟩ ⟨fun _ => 0, 0, false, ⟨0, 0, 0⟩, 0⟩
    2 2 (Or.inl (by decide))
  ⟨by decide, by decide, h.2.1 ▸ (by decide)⟩

/-! ## The extracted range -/

/-- What holds of the extracted range: after `analyse_vertex_program` completes,
`dst.instruction_mask` has bit 0 set and no bit at an index from `instruction_count` on,
and `data.size() / 4 = instruction_count`, so the loops of the hash and of the comparison,
which run over `data.size() / 4` slots, see every live slot; and bit
`instruction_count - 1` is set when the range ends inside the image
(`base_address + instruction_count ≤ 512`). -/
theorem analyse_vertex_program_range_covers (oob : undefined_reads) (data : Nat → Nat)
    (entry : Nat) (dst : RSXVertexProgram) (r : vertex_program_metadata) (p : RSXVertexProgram)
    (h : analyse_vertex_program oob data entry dst = .done (r, p)) :
    p.instruction_mask.testBit 0 = true ∧
    (p.base_address + instruction_count r ≤ max_vertex_program_instructions →
      p.instruction_mask.testBit (instruction_count r - 1) = true) ∧
    (∀ i, p.instruction_mask.testBit i = true → i < instruction_count r) ∧
    p.data.length / 4 = instruction_count r ∧
    (∀ i, p.instruction_mask.testBit i = true → i < p.data.length / 4) := by
  obtain ⟨s, _, hinv, ha⟩ := analyse_vertex_program_done oob data entry dst r p h
  obtain ⟨h1, h2, h3, hf, _⟩ := walk_done_range data entry s hinv
  have hcount := instruction_count_analysed oob data entry dst s r p ha
  have hlen : p.data.length / 4 = instruction_count r := by
    rw [ha.length, hcount]; omega
  have hlive : ∀ i, p.instruction_mask.testBit i = true → i < instruction_count r := by
    intro i hi
    rw [hcount]
    exact (analysed_live oob data entry dst s r p hinv ha i hi).2
  refine ⟨?_, ?_, hlive, hlen, fun i hi => by rw [hlen]; exact hlive i hi⟩
  · rw [ha.mask, Nat.testBit_shiftRight, Nat.add_zero]
    exact hf
  · intro hin
    have hl := walk_done_range_end data entry s hinv
      ((analysed_in_range oob data entry dst s r p hinv ha).1 hin)
    rw [ha.mask, Nat.testBit_shiftRight, hcount]
    have : s.instruction_range.1 + (s.instruction_range.2 - s.instruction_range.1 + 1 - 1) =
        s.instruction_range.2 := by omega
    rw [this]
    exact hl

/-- The loop of the walk of `past_end_branch_image` from slot 0: the `BRB` of slot 0 puts
581 into `conditional_targets` and moves the end of `instruction_range` to 581, so that no
end bit could stop the loop; it runs through every slot up to 511. -/
theorem past_end_branch_loop :
    walk_loop past_end_branch_image false walk_loop_fuel 0 [] walk_state.init
      = .done ([581], past_end_branch_final) := by
  decide!

/-- A walk started on a slot of 512 or more trips the bounds assertion. -/
theorem walk_function_past_end_fault (oob : undefined_reads) (data : Nat → Nat)
    (depth start : Nat) (fe : Bool) (s : walk_state)
    (h : max_vertex_program_instructions ≤ start) :
    walk_function oob data (depth + 1) start fe s = .fault := by
  have hf : walk_loop data fe walk_loop_fuel start [] s = .fault := by
    have e : walk_loop_fuel = (513 * 513 - 1) + 1 := rfl
    rw [e]
    simp only [walk_loop, walk_iteration, Nat.not_lt.2 h, not_false_eq_true, if_true]
  simp only [walk_function, hf]

/-- The walk of an image whose loop stops in `past_end_branch_final` with the one
conditional target 581: the target is tested by the read `result.instruction_mask[581]`
past the end of the bitset; the walk returns when that read yields 1, and trips the bounds
assertion at slot 581 when it yields 0. -/
theorem past_end_walk (oob : undefined_reads) (data : Nat → Nat)
    (hloop : walk_loop data false walk_loop_fuel 0 [] walk_state.init
      = .done ([581], past_end_branch_final)) :
    walk_function oob data walk_depth 0 false walk_state.init =
      if oob.target_mask past_end_branch_final 581 then .done past_end_branch_final
      else .fault := by
  have e : walk_depth = 511 + 1 + 1 := rfl
  have hge : max_vertex_program_instructions ≤ 581 := by decide
  rw [e, walk_function, hloop]
  simp only [walk_targets, bitset_test_ge _ _ _ hge]
  cases hr : oob.target_mask past_end_branch_final 581
  · simp only [Bool.not_false, if_true, Bool.false_eq_true, if_false]
    rw [walk_function_past_end_fault oob data 511 581 true _ hge]
  · simp only [Bool.not_true, Bool.false_eq_true, if_false, if_true]

/-- The same defect leaves an unresolved target in the jump table of a fresh output object:
whenever the analysis of `past_end_branch_image` at entry 0 returns, the jump table holds
581, the relocated target of the `BRB` of slot 0, which is below `instruction_count` but
whose mask bit is 0. -/
theorem analyse_vertex_program_jump_table_past_image (oob : undefined_reads)
    (r : vertex_program_metadata) (p : RSXVertexProgram)
    (h : analyse_vertex_program oob past_end_branch_image 0 RSXVertexProgram.fresh
      = .done (r, p)) :
    581 ∈ p.jump_table ∧ 581 < instruction_count r ∧
      p.instruction_mask.testBit 581 = false := by
  obtain ⟨s, hs, _, ha⟩ := analyse_vertex_program_done oob _ _ _ r p h
  have hw := past_end_walk oob past_end_branch_image past_end_branch_loop
  rw [hs] at hw
  have hfinal : s = past_end_branch_final := by
    cases hr : oob.target_mask past_end_branch_final 581
    · rw [hr] at hw; simp at hw
    · rw [hr] at hw; simpa using hw
  subst hfinal
  have hc : instruction_count r = 582 := instruction_count_analysed _ _ _ _ _ r p ha
  refine ⟨?_, by rw [hc]; decide, ?_⟩
  · rw [ha.jumps, if_pos (show past_end_branch_final.has_branch_instruction = true from rfl),
      mem_emitted_jump_fold]
    right
    have e1 : past_end_branch_final.instruction_range.1 = 0 := rfl
    have hlt : 0 + 0 < max_vertex_program_instructions := by decide
    rw [e1]
    refine ⟨0, by decide, ?_, ?_, by decide!⟩
    · rw [bitset_test_lt _ _ _ hlt]; decide!
    · rw [bitset_test_lt _ _ _ hlt]; decide
  · rw [ha.mask]
    decide!

/-! ## Slots emitted past the image -/

theorem testBit_set_bitfield (w off width v j : Nat) (hj : j < off ∨ off + width ≤ j) :
    (set_bitfield w off width v).testBit j = w.testBit j := by
  have hlt : w % 2 ^ off < 2 ^ off := Nat.mod_lt _ (Nat.two_pow_pos off)
  have hlt2 : v % 2 ^ width < 2 ^ width := Nat.mod_lt _ (Nat.two_pow_pos width)
  have e : set_bitfield w off width v =
      2 ^ off * (2 ^ width * (w >>> (off + width)) + v % 2 ^ width) + w % 2 ^ off := by
    unfold set_bitfield
    rw [Nat.pow_add]
    ring
  rw [e, Nat.testBit_mul_pow_two_add _ hlt]
  rcases hj with hj | hj
  · rw [if_pos hj, Nat.testBit_mod_two_pow]
    simp [hj]
  · rw [if_neg (by omega), Nat.testBit_mul_pow_two_add _ hlt2, if_neg (by omega),
      Nat.testBit_shiftRight]
    congr 1
    omega

theorem testBit_bitfield (w off width j : Nat) :
    (bitfield w off width).testBit j = (decide (j < width) && w.testBit (off + j)) := by
  unfold bitfield
  rw [Nat.testBit_mod_two_pow, Nat.testBit_shiftRight]

theorem bitfield_congr (w w' off width : Nat)
    (h : ∀ j, off ≤ j → j < off + width → w'.testBit j = w.testBit j) :
    bitfield w' off width = bitfield w off width := by
  apply Nat.eq_of_testBit_eq
  intro j
  rw [testBit_bitfield, testBit_bitfield]
  by_cases hj : j < width
  · rw [h (off + j) (by omega) (by omega)]
  · simp [hj]

theorem jump_address_write (inst : v128) (a : Nat) :
    jump_address { inst with
      _u32_0 := D0.set_iaddrh2 inst._u32_0 ((a >>> 9) &&& 0x1)
      _u32_2 := D2.set_iaddrh inst._u32_2 ((a >>> 3) &&& 0x3F)
      _u32_3 := D3.set_iaddrl inst._u32_3 (a &&& 0x7) } = a % 1024 := by
  rw [jump_address_eq]
  simp only [D0.iaddrh2, D0.set_iaddrh2, D2.iaddrh, D2.set_iaddrh,
    D3.iaddrl, D3.set_iaddrl, bitfield_set_bitfield]
  have e1 : a >>> 9 &&& 1 = a / 512 % 2 := by
    rw [Nat.and_one_is_mod, Nat.shiftRight_eq_div_pow]
  have e2 : a >>> 3 &&& 63 = a / 8 % 64 := by
    rw [show (63 : Nat) = 2 ^ 6 - 1 from rfl, Nat.and_pow_two_sub_one_eq_mod,
      Nat.shiftRight_eq_div_pow]
  have e3 : a &&& 7 = a % 8 := by
    rw [show (7 : Nat) = 2 ^ 3 - 1 from rfl, Nat.and_pow_two_sub_one_eq_mod]
  rw [e1, e2, e3]
  omega

theorem patch_instruction_frame (inst : v128) (first : Nat) :
    (patch_instruction inst first).1._u32_1 = inst._u32_1 ∧
    (∀ j, j ≠ 23 →
      (patch_instruction inst first).1._u32_0.testBit j = inst._u32_0.testBit j) ∧
    (∀ j, 6 ≤ j →
      (patch_instruction inst first).1._u32_2.testBit j = inst._u32_2.testBit j) ∧
    (∀ j, j < 29 ∨ 32 ≤ j →
      (patch_instruction inst first).1._u32_3.testBit j = inst._u32_3.testBit j) := by
  refine ⟨rfl, ?_, ?_, ?_⟩
  · intro j hj
    exact testBit_set_bitfield _ 23 1 _ j (by omega)
  · intro j hj
    exact testBit_set_bitfield _ 0 6 _ j (by omega)
  · intro j hj
    exact testBit_set_bitfield _ 29 3 _ j (by omega)

/-- C20: branch patching changes only the address bits. In the program that
`analyse_vertex_program` leaves, a live slot `i` whose source slot `base + i` is a branch
instruction (a patched slot) has word 1 of the source, and its words 0, 2 and 3 agree with
the source in every bit outside `w0.iaddrh2` (bit 23), `w2.iaddrh` (bits 0 to 5) and
`w3.iaddrl` (bits 29 to 31); so `cond`, the two opcodes and the end bit are those of the
source. And writing the three fields of an instruction from an address below 1024 and
decoding `(iaddrh2 << 9) | (iaddrh << 3) | iaddrl` returns that address. -/
theorem analyse_vertex_program_patch_frame (oob : undefined_reads) (data : Nat → Nat)
    (entry : Nat) (dst : RSXVertexProgram) (r : vertex_program_metadata) (p : RSXVertexProgram)
    (h : analyse_vertex_program oob data entry dst = .done (r, p)) (i : Nat)
    (hi : p.instruction_mask.testBit i = true)
    (hb : is_branch (v128.loadu data (p.base_address + i)) = true) :
    ((vector_slot p.data i)._u32_1 = (v128.loadu data (p.base_address + i))._u32_1 ∧
      (∀ j, j ≠ 23 → (vector_slot p.data i)._u32_0.testBit j =
        (v128.loadu data (p.base_address + i))._u32_0.testBit j) ∧
      (∀ j, 6 ≤ j → (vector_slot p.data i)._u32_2.testBit j =
        (v128.loadu data (p.base_address + i))._u32_2.testBit j) ∧
      (∀ j, j < 29 ∨ 32 ≤ j → (vector_slot p.data i)._u32_3.testBit j =
        (v128.loadu data (p.base_address + i))._u32_3.testBit j)) ∧
    (D0.cond (vector_slot p.data i)._u32_0 =
        D0.cond (v128.loadu data (p.base_address + i))._u32_0 ∧
      D1.vec_opcode (vector_slot p.data i)._u32_1 =
        D1.vec_opcode (v128.loadu data (p.base_address + i))._u32_1 ∧
      D1.sca_opcode (vector_slot p.data i)._u32_1 =
        D1.sca_opcode (v128.loadu data (p.base_address + i))._u32_1 ∧
      D3.end_ (vector_slot p.data i)._u32_3 =
        D3.end_ (v128.loadu data (p.base_address + i))._u32_3) ∧
    (∀ (inst : v128) (address : Nat), address < 1024 →
      jump_address { inst with
        _u32_0 := D0.set_iaddrh2 inst._u32_0 ((address >>> 9) &&& 0x1)
        _u32_2 := D2.set_iaddrh inst._u32_2 ((address >>> 3) &&& 0x3F)
        _u32_3 := D3.set_iaddrl inst._u32_3 (address &&& 0x7) } = address) := by
  obtain ⟨s, _, hinv, ha⟩ := analyse_vertex_program_done oob data entry dst r p h
  obtain ⟨hl, hc⟩ := analysed_live oob data entry dst s r p hinv ha i hi
  rw [ha.base] at hb ⊢
  have hp : s.instructions_to_patch.testBit (s.instruction_range.1 + i) = true :=
    (hinv.1.2.1 (s.instruction_range.1 + i)).2 ⟨hl, hb⟩
  have hslot : vector_slot p.data i =
      (patch_instruction (v128.loadu data (s.instruction_range.1 + i))
        s.instruction_range.1).1 := by
    rw [ha.slots i hc, emitted_inst_lt oob data s i (hinv.1.1 _ hl).2.2]
    simp only [hl, hp, if_true]
  rw [hslot]
  obtain ⟨f1, f0, f2, f3⟩ :=
    patch_instruction_frame (v128.loadu data (s.instruction_range.1 + i)) s.instruction_range.1
  refine ⟨⟨f1, f0, f2, f3⟩, ⟨?_, ?_, ?_, ?_⟩, ?_⟩
  · exact bitfield_congr _ _ 10 3 (fun j h1 h2 => f0 j (by omega))
  · rw [f1]
  · rw [f1]
  · exact bitfield_congr _ _ 0 1 (fun j h1 h2 => f3 j (by omega))
  · intro inst address hlt
    rw [jump_address_write, Nat.mod_eq_of_lt hlt]

set_option maxRecDepth 100000 in
/-- Witness of C20: the forward static branch uploaded at slot 3; the patched slot 0 of the
output keeps `cond`, the opcodes and the end bit of the source slot 3. -/
theorem analyse_vertex_program_patch_frame_witness :
    D0.cond (vector_slot [7168, 1207959552, 0, 2684354560, 0, 0, 0, 0, 0, 0, 0, 0, 0, 0, 0,
        0, 0, 0, 0, 0, 0, 0, 0, 1] 0)._u32_0 =
      D0.cond (v128.loadu (static_branch_image 3 0xFFFFFFFF) (3 + 0))._u32_0 ∧
    D1.vec_opcode (vector_slot [7168, 1207959552, 0, 2684354560, 0, 0, 0, 0, 0, 0, 0, 0, 0,
        0, 0, 0, 0, 0, 0, 0, 0, 0, 0, 1] 0)._u32_1 =
      D1.vec_opcode (v128.loadu (static_branch_image 3 0xFFFFFFFF) (3 + 0))._u32_1 ∧
    D1.sca_opcode (vector_slot [7168, 1207959552, 0, 2684354560, 0, 0, 0, 0, 0, 0, 0, 0, 0,
        0, 0, 0, 0, 0, 0, 0, 0, 0, 0, 1] 0)._u32_1 =
      D1.sca_opcode (v128.loadu (static_branch_image 3 0xFFFFFFFF) (3 + 0))._u32_1 ∧
    D3.end_ (vector_slot [7168, 1207959552, 0, 2684354560, 0, 0, 0, 0, 0, 0, 0, 0, 0, 0, 0,
        0, 0, 0, 0, 0, 0, 0, 0, 1] 0)._u32_3 =
      D3.end_ (v128.loadu (static_branch_image 3 0xFFFFFFFF) (3 + 0))._u32_3 :=
  (analyse_vertex_program_patch_frame reads_bits (static_branch_image 3 0xFFFFFFFF) 3
    RSXVertexProgram.fresh ⟨264, 96, 0, 1⟩
    ⟨[7168, 1207959552, 0, 2684354560, 0, 0, 0, 0, 0, 0, 0, 0, 0, 0, 0, 0, 0, 0, 0, 0,
      0, 0, 0, 1], ⟨0, 0, 0⟩, 0, 3, 3, 33, [5]⟩ (by decide) 0 (by decide) (by decide)).2.1

end rsx
